import Mathlib

/-!
# Verification of the SANDAG Estimates-Program rounding engine

Shallow embedding of the controlled-integerization engine of the
Estimates-Program repository:

* `src/python/utils.py` : `integerize_1d`, `integerize_2d`
* `src/python/nd_rounding/ipf.py` : `ipf_numpy`
* `src/python/nd_rounding/nd-rounding.py` : `check_input_validity`,
  `compute_rounding_error`, `nd_controlling_fuzzy`,
  `nd_controlling_pulp_solver`, `nd_controlling_pulp_solver_2d`

Machine floats are embedded as rationals (`ℚ`); integer-valued arrays as `ℤ`.
Python exceptions are embedded as `Except Err`.  `while` loops are embedded as
fuel-indexed recursion: running out of fuel is a distinguished abnormal exit,
so every theorem about a normal return (`Except.ok`) holds for every fuel.
The numpy random generator and the PuLP solver are external libraries, not
code of this repository; they enter the embedding as explicit parameters
(a choice function, resp. a reported status plus a candidate solution), with
their documented contracts appearing as hypotheses where a proof needs them.
-/

set_option maxHeartbeats 1000000

deriving instance DecidableEq for Except

/-- Python exception classes raised by the engine. -/
inductive Err where
  | valueError (msg : String)
  | typeError (msg : String)
  | indexError (msg : String)
  | outOfFuel
deriving Repr, DecidableEq

/-- Python's built-in `round` on a rational: round half to even
(banker's rounding), as used by `int(round(control))` in `integerize_1d`. -/
def pyRound (q : ℚ) : ℤ :=
  if q - ⌊q⌋ < 1/2 then ⌊q⌋
  else if 1/2 < q - ⌊q⌋ then ⌊q⌋ + 1
  else if Even ⌊q⌋ then ⌊q⌋ else ⌊q⌋ + 1

/-- `math.isclose(a, b)` with the default tolerances
(`rel_tol = 1e-9`, `abs_tol = 0.0`). -/
def mathIsClose (a b : ℚ) : Bool :=
  |a - b| ≤ max ((1 / 1000000000) * max |a| |b|) 0

/-- The single operation `integerize_1d` uses from `np.random.Generator`:
`generator.choice(a, size=k, replace=False, p=p)` returning the list of chosen
indices.  The generator itself is external library code, so it is embedded as
an arbitrary function; its documented contract is `ValidChoice` below. -/
def GenChoice : Type := ℕ → ℕ → List ℚ → List ℕ

/-- The documented behaviour of `np.random.Generator.choice(a, size=k,
replace=False, p=p)`: when `p` has length `a`, is non-negative, and has at
least `k` positive entries, the call returns exactly `k` distinct indices,
each in range and each with positive probability. -/
def ValidChoice (g : GenChoice) : Prop :=
  ∀ a k p, p.length = a → (∀ x ∈ p, 0 ≤ x) →
    k ≤ p.countP (fun x => decide (0 < x)) →
    (g a k p).length = k ∧ (g a k p).Nodup ∧
      ∀ i ∈ g a k p, i < a ∧ 0 < p.getD i 0

/-- `np.argsort(v, stable=True)`: the indices of `v` sorted ascending by
value, ties broken by index (stable). -/
def argsortStable {α : Type} [LinearOrder α] [Inhabited α] (v : List α) : List ℕ :=
  (List.range v.length).mergeSort fun i j =>
    decide (v.getD i default < v.getD j default) ||
      (decide (v.getD i default = v.getD j default) && decide (i ≤ j))

/-- The in-place accumulation of `np.add.at(arr, idxs, v)`. -/
def applyAddAt (arr : List ℤ) (idxs : List ℕ) (v : ℤ) : List ℤ :=
  idxs.foldl (fun acc i => acc.set i (acc.getD i 0 + v)) arr

/-- `np.add.at(arr, idxs, v)`: add `v` at each listed index, repeated indices
accumulating; numpy raises `IndexError` on an out-of-bounds index. -/
def npAddAt (arr : List ℤ) (idxs : List ℕ) (v : ℤ) : Except Err (List ℤ) :=
  if idxs.any (fun i => arr.length ≤ i) then
    .error (.indexError "index out of bounds")
  else
    .ok (applyAddAt arr idxs v)

/-- The allowed values of the `methodology` parameter of `integerize_1d`. -/
def allowedMethodology : List String :=
  ["largest", "smallest", "largest_difference", "weighted_random"]

/-- The scaled data `data * control / np.sum(data)` of `integerize_1d`
(`src/python/utils.py:287`). -/
def unroundedData (data : List ℚ) (control : ℤ) : List ℚ :=
  data.map (fun x => x * control / data.sum)

/-- The ceiling-rounded data `np.ceil(unrounded_data).astype(int)` of
`integerize_1d` (`src/python/utils.py:290`). -/
def roundedData (data : List ℚ) (control : ℤ) : List ℤ :=
  (unroundedData data control).map (fun x => ⌈x⌉)

/-- The per-entry rounding gain `rounded_data - unrounded_data`
(`src/python/utils.py:322,328`), as a list over the index range. -/
def roundingDifference (data : List ℚ) (control : ℤ) : List ℚ :=
  (List.range (roundedData data control).length).map
    (fun i => ((roundedData data control).getD i 0 : ℚ) -
      (unroundedData data control).getD i 0)

/-- The index selection `to_decrease` of `integerize_1d`
(`src/python/utils.py:301-334`), one branch per methodology.  Slicing
`[-diff:]` is embedded as `drop (length - diff)`, faithful for the reachable
`0 < diff` case. -/
def toDecrease (data : List ℚ) (control : ℤ) (methodology : String)
    (generator : Option GenChoice) (diff : ℤ) : Except Err (List ℕ) :=
  let rounded := roundedData data control
  -- Find the index values for the n largest data points
  if methodology = "largest" then
    .ok ((argsortStable rounded).drop (rounded.length - diff.toNat))
  -- Find the index values for the n smallest non-zero data points
  else if methodology = "smallest" then
    let non_zero_indices := (List.range rounded.length).filter
      (fun i => decide (rounded.getD i 0 ≠ 0))
    let non_zero_values := non_zero_indices.map (fun i => rounded.getD i 0)
    let n_smallest_non_zero := (argsortStable non_zero_values).take diff.toNat
    .ok (n_smallest_non_zero.map (fun i => non_zero_indices.getD i 0))
  -- Find the index values for the n data points with the largest change after
  -- rounding
  else if methodology = "largest_difference" then
    let rounding_difference := roundingDifference data control
    .ok ((argsortStable rounding_difference).drop
      (rounding_difference.length - diff.toNat))
  -- Find n random index values weighted on which had the largest change after
  -- rounding
  else
    let rounding_difference := roundingDifference data control
    match generator with
    | some gen => .ok (gen rounded.length diff.toNat
        (rounding_difference.map (fun d => d / rounding_difference.sum)))
    | none => .error (.valueError "Input parameter 'generator' must be provided")

/-- The main path of `integerize_1d` (`src/python/utils.py:286-344`): scale to
the control, round every value up, then decrement `diff` selected entries and
double-check no negatives are present. -/
def integerize1dMain (data : List ℚ) (control : ℤ) (methodology : String)
    (generator : Option GenChoice) : Except Err (List ℤ) := do
  let rounded := roundedData data control
  -- Since data was rounded up, diff is guaranteed non-negative
  let diff : ℤ := rounded.sum - control
  -- Adjust values to match difference
  if diff = 0 then
    return rounded
  else
    let to_decrease ← toDecrease data control methodology generator diff
    -- Decrease n-largest data points by one to match control
    let final ← npAddAt rounded to_decrease (-1)
    -- Double check no negatives are present
    if final.any (fun x => decide (x < 0)) then
      throw (.valueError "Negative values encountered in integerized data")
    return final

/-- The control-resolution and override branches of `integerize_1d`
(`src/python/utils.py:260-344`): reject a negative control, default a missing
control to the data sum, require the control to be integral, then take the
`control == 0` override, the all-zero-data override (which indexes
`np.arange(control)` into `data` and hence raises `IndexError` when the
control exceeds the data length), or the main path. -/
def integerize1dResolved (data : List ℚ) (control : Option ℚ)
    (methodology : String) (generator : Option GenChoice) : Except Err (List ℤ) := do
  match control with
  | some c =>
    if c < 0 then
      throw (.valueError "Input parameter 'control' is negative")
  | none => pure ()
  -- If no control provided preserve current sum
  let control : ℚ := control.getD data.sum
  -- Ensure control is an integer
  if ¬ mathIsClose control (pyRound control) then
    throw (.valueError "Input parameter 'control' must be integer")
  let control : ℤ := pyRound control
  -- Override if control is zero: data.fill(0); return data
  if control = 0 then
    return List.replicate data.length 0
  -- Override if control is not zero, but all input data is zero:
  -- np.add.at(data, np.arange(control), 1); return data
  if data.all (fun x => decide (x = 0)) then
    if control.toNat ≤ data.length then
      return (List.range data.length).map (fun i => if i < control.toNat then 1 else 0)
    else
      throw (.indexError "np.add.at: index out of bounds")
  integerize1dMain data control methodology generator

/-- `integerize_1d` (`src/python/utils.py:173-344`), value semantics: the
element values of the returned array.  `data` is the element values of the
input (the `list` / `pd.Series` conversions and the `isinstance` checks of the
source cannot fail in the embedding, where the values are taken directly; the
`type(generator)` check likewise cannot fail since `generator` is typed).
The `control == 0` and all-zero-data branches return integral values stored in
the caller's float array; their values are embedded here, and the in-place
effect of those branches is embedded separately in `integerize1dNdarrayEffect`. -/
def integerize_1d (data : List ℚ) (control : Option ℚ := none)
    (methodology : String := "largest_difference")
    (generator : Option GenChoice := none) : Except Err (List ℤ) := do
  -- Check rounding error methodology
  if methodology ∉ allowedMethodology then
    throw (.valueError "Input parameter 'methodology' must be one of allowed_methodology")
  -- Check a random generator is passed if we are doing "weighted_random"
  if methodology = "weighted_random" then
    if generator.isNone then
      throw (.valueError "Input parameter 'generator' must be provided")
  -- Confirm no negative values are passed
  if data.any (fun x => decide (x < 0)) then
    throw (.valueError "Input parameter 'data' contains negative values")
  integerize1dResolved data control methodology generator

/-- The control-resolution and override branches of `integerize_1d` in the
buffer semantics of `integerize1dNdarrayEffect` below: the result is the
contents of the caller's `np.ndarray` after the call, paired with whether the
object returned to the caller is the caller's own array (`true` = aliased). -/
def integerize1dResolvedNdarrayEffect (data : List ℚ) (control : Option ℚ)
    (methodology : String) (generator : Option GenChoice) :
    Except Err (List ℚ × Bool) := do
  match control with
  | some c =>
    if c < 0 then
      throw (.valueError "Input parameter 'control' is negative")
  | none => pure ()
  let control : ℚ := control.getD data.sum
  if ¬ mathIsClose control (pyRound control) then
    throw (.valueError "Input parameter 'control' must be integer")
  let control : ℤ := pyRound control
  -- data.fill(0); return data  -- the caller's array is zeroed and returned
  if control = 0 then
    return (List.replicate data.length 0, true)
  -- np.add.at(data, np.arange(control), 1); return data  -- in-place, aliased
  if data.all (fun x => decide (x = 0)) then
    if control.toNat ≤ data.length then
      return ((List.range data.length).map
        (fun i => if i < control.toNat then (1 : ℚ) else 0), true)
    else
      throw (.indexError "np.add.at: index out of bounds")
  -- Main path: the caller's array is unchanged and the result is fresh
  let _ ← integerize1dMain data control methodology generator
  return (data, false)

/-- The in-place effect of `integerize_1d` on a caller-supplied `np.ndarray`
(`src/python/utils.py:276-284` and surroundings): the result is the contents
of the caller's array after the call, paired with whether the object returned
to the caller is the caller's own array (`true` = aliased) rather than a
fresh one.  The `control == 0` branch runs `data.fill(0); return data` and the
all-zero branch runs `np.add.at(data, np.arange(control), 1); return data`:
both overwrite and return the caller's array.  The main path reads `data` but
writes only to the fresh arrays `unrounded_data` / `rounded_data`, and returns
a fresh array. -/
def integerize1dNdarrayEffect (data : List ℚ) (control : Option ℚ := none)
    (methodology : String := "largest_difference")
    (generator : Option GenChoice := none) : Except Err (List ℚ × Bool) := do
  if methodology ∉ allowedMethodology then
    throw (.valueError "Input parameter 'methodology' must be one of allowed_methodology")
  if methodology = "weighted_random" then
    if generator.isNone then
      throw (.valueError "Input parameter 'generator' must be provided")
  if data.any (fun x => decide (x < 0)) then
    throw (.valueError "Input parameter 'data' contains negative values")
  integerize1dResolvedNdarrayEffect data control methodology generator

/-! ## Generic list lemmas -/

theorem list_getD_irrel {α : Type} (l : List α) {i : ℕ} (h : i < l.length) (d₁ d₂ : α) :
    l.getD i d₁ = l.getD i d₂ := by
  rw [List.getD_eq_getElem l d₁ h, List.getD_eq_getElem l d₂ h]

theorem list_getD_mem {α : Type} (l : List α) {i : ℕ} (h : i < l.length) (d : α) :
    l.getD i d ∈ l := by
  rw [List.getD_eq_getElem l d h]
  exact List.getElem_mem h

theorem getD_map_range {α : Type} (n : ℕ) (f : ℕ → α) {i : ℕ} (hi : i < n) (d : α) :
    ((List.range n).map f).getD i d = f i := by
  have hlen : i < ((List.range n).map f).length := by
    simpa [List.length_map, List.length_range] using hi
  rw [List.getD_eq_getElem _ d hlen, List.getElem_map, List.getElem_range]

theorem list_sum_map_le {α : Type} (l : List α) (f g : α → ℚ)
    (h : ∀ x ∈ l, f x ≤ g x) : (l.map f).sum ≤ (l.map g).sum := by
  induction l with
  | nil => simp
  | cons a t ih =>
    simp only [List.map_cons, List.sum_cons]
    exact add_le_add (h a (by simp)) (ih fun x hx => h x (List.mem_cons_of_mem a hx))

theorem list_sum_pos_of_mem {l : List ℚ} {x : ℚ} (hx : x ∈ l) (hpos : 0 < x)
    (hnn : ∀ y ∈ l, 0 ≤ y) : 0 < l.sum := by
  induction l with
  | nil => cases hx
  | cons a t ih =>
    simp only [List.sum_cons]
    rcases List.mem_cons.1 hx with rfl | hx'
    · have : 0 ≤ t.sum := List.sum_nonneg fun y hy => hnn y (List.mem_cons_of_mem _ hy)
      linarith
    · have : 0 ≤ a := hnn a (List.mem_cons_self a t)
      have := ih hx' fun y hy => hnn y (List.mem_cons_of_mem a hy)
      linarith

theorem list_sum_le_countP (l : List ℚ) (h : ∀ x ∈ l, 0 ≤ x ∧ x < 1) :
    l.sum ≤ (l.countP (fun x => decide (0 < x)) : ℚ) := by
  induction l with
  | nil => simp
  | cons a t ih =>
    have ha := h a (List.mem_cons_self a t)
    have ht := ih fun x hx => h x (List.mem_cons_of_mem a hx)
    simp only [List.sum_cons, List.countP_cons]
    by_cases hpos : 0 < a
    · have hd : decide (0 < a) = true := by simpa using hpos
      rw [hd, if_pos rfl]
      push_cast
      linarith
    · have ha0 : a = 0 := le_antisymm (not_lt.1 hpos) ha.1
      have hd : decide (0 < a) = false := by simpa using hpos
      rw [hd]
      simp [ha0]
      linarith [ht]

theorem list_sum_lt_countP (l : List ℚ) (h : ∀ x ∈ l, 0 ≤ x ∧ x < 1)
    (hpos : 0 < l.sum) : l.sum < (l.countP (fun x => decide (0 < x)) : ℚ) := by
  induction l with
  | nil => simp at hpos
  | cons a t ih =>
    have ha := h a (List.mem_cons_self a t)
    have htle := list_sum_le_countP t fun x hx => h x (List.mem_cons_of_mem a hx)
    simp only [List.sum_cons, List.countP_cons] at *
    by_cases hap : 0 < a
    · have hd : decide (0 < a) = true := by simpa using hap
      rw [hd, if_pos rfl]
      push_cast
      linarith
    · have ha0 : a = 0 := le_antisymm (not_lt.1 hap) ha.1
      have htpos : 0 < t.sum := by rw [ha0] at hpos; linarith
      have := ih (fun x hx => h x (List.mem_cons_of_mem a hx)) htpos
      have hd : decide (0 < a) = false := by simpa using hap
      rw [hd]
      simp [ha0]
      linarith

/-! ## Lemmas about `applyAddAt` (`np.add.at`) -/

theorem applyAddAt_nil (arr : List ℤ) (v : ℤ) : applyAddAt arr [] v = arr := rfl

theorem applyAddAt_cons (arr : List ℤ) (i : ℕ) (t : List ℕ) (v : ℤ) :
    applyAddAt arr (i :: t) v = applyAddAt (arr.set i (arr.getD i 0 + v)) t v := rfl

theorem applyAddAt_length (arr : List ℤ) (idxs : List ℕ) (v : ℤ) :
    (applyAddAt arr idxs v).length = arr.length := by
  induction idxs generalizing arr with
  | nil => rfl
  | cons i t ih => rw [applyAddAt_cons, ih, List.length_set]

theorem list_sum_set_add (arr : List ℤ) {i : ℕ} (hi : i < arr.length) (v : ℤ) :
    (arr.set i (arr.getD i 0 + v)).sum = arr.sum + v := by
  rw [List.sum_set, if_pos hi]
  have hdecomp : arr.sum = (arr.take i).sum + (arr.getD i 0 + (arr.drop (i + 1)).sum) := by
    conv_lhs => rw [← List.sum_take_add_sum_drop arr i]
    rw [List.drop_eq_getElem_cons hi, List.sum_cons, List.getD_eq_getElem arr 0 hi]
  rw [hdecomp]
  ring

theorem applyAddAt_sum (arr : List ℤ) (idxs : List ℕ) (v : ℤ)
    (hidx : ∀ i ∈ idxs, i < arr.length) :
    (applyAddAt arr idxs v).sum = arr.sum + v * idxs.length := by
  induction idxs generalizing arr with
  | nil => simp [applyAddAt_nil]
  | cons i t ih =>
    have hi : i < arr.length := hidx i (List.mem_cons_self i t)
    rw [applyAddAt_cons, ih _ fun j hj => by
      simpa [List.length_set] using hidx j (List.mem_cons_of_mem i hj)]
    rw [list_sum_set_add arr hi v, List.length_cons]
    push_cast
    ring

theorem list_getD_set (arr : List ℤ) (i j : ℕ) (x : ℤ) (hj : j < arr.length) :
    (arr.set i x).getD j 0 = if i = j then x else arr.getD j 0 := by
  have hj' : j < (arr.set i x).length := by simpa [List.length_set] using hj
  rw [List.getD_eq_getElem _ 0 hj', List.getElem_set, List.getD_eq_getElem arr 0 hj]

theorem applyAddAt_getD (arr : List ℤ) (idxs : List ℕ) (v : ℤ) (j : ℕ)
    (hj : j < arr.length) (hidx : ∀ i ∈ idxs, i < arr.length) :
    (applyAddAt arr idxs v).getD j 0 = arr.getD j 0 + v * idxs.count j := by
  induction idxs generalizing arr with
  | nil => simp [applyAddAt_nil]
  | cons i t ih =>
    have hi : i < arr.length := hidx i (List.mem_cons_self i t)
    have hj' : j < (arr.set i (arr.getD i 0 + v)).length := by
      simpa [List.length_set] using hj
    rw [applyAddAt_cons, ih _ hj' fun a ha => by
      simpa [List.length_set] using hidx a (List.mem_cons_of_mem i ha)]
    rw [list_getD_set arr i j _ hj, List.count_cons]
    by_cases hij : i = j
    · subst hij
      simp only [if_pos rfl, beq_self_eq_true, if_true]
      push_cast
      ring
    · have : (i == j) = false := beq_false_of_ne hij
      simp only [if_neg hij, this, if_false]
      push_cast
      ring

/-! ## Lemmas about `argsortStable` (`np.argsort(stable=True)`) -/

theorem argsortStable_perm {α : Type} [LinearOrder α] [Inhabited α] (v : List α) :
    (argsortStable v).Perm (List.range v.length) :=
  List.mergeSort_perm _ _

theorem argsortStable_length {α : Type} [LinearOrder α] [Inhabited α] (v : List α) :
    (argsortStable v).length = v.length := by
  rw [(argsortStable_perm v).length_eq, List.length_range]

theorem argsortStable_nodup {α : Type} [LinearOrder α] [Inhabited α] (v : List α) :
    (argsortStable v).Nodup :=
  ((argsortStable_perm v).nodup_iff).2 (List.nodup_range v.length)

theorem argsortStable_mem {α : Type} [LinearOrder α] [Inhabited α] (v : List α)
    (i : ℕ) : i ∈ argsortStable v ↔ i < v.length := by
  rw [(argsortStable_perm v).mem_iff, List.mem_range]

theorem argsortStable_sorted {α : Type} [LinearOrder α] [Inhabited α] (v : List α) :
    List.Pairwise (fun i j => v.getD i default < v.getD j default ∨
      (v.getD i default = v.getD j default ∧ i ≤ j)) (argsortStable v) := by
  have key : ∀ a b : ℕ,
      ((decide (v.getD a default < v.getD b default) ||
        (decide (v.getD a default = v.getD b default) && decide (a ≤ b))) = true) ↔
      (v.getD a default < v.getD b default ∨
        (v.getD a default = v.getD b default ∧ a ≤ b)) := by
    intro a b
    simp [Bool.or_eq_true, Bool.and_eq_true, decide_eq_true_iff]
  have htrans : ∀ (a b c : ℕ),
      (decide (v.getD a default < v.getD b default) ||
        (decide (v.getD a default = v.getD b default) && decide (a ≤ b))) = true →
      (decide (v.getD b default < v.getD c default) ||
        (decide (v.getD b default = v.getD c default) && decide (b ≤ c))) = true →
      (decide (v.getD a default < v.getD c default) ||
        (decide (v.getD a default = v.getD c default) && decide (a ≤ c))) = true := by
    intro a b c hab hbc
    rw [key] at hab hbc ⊢
    rcases hab with h1 | ⟨h1, h1'⟩ <;> rcases hbc with h2 | ⟨h2, h2'⟩
    · exact Or.inl (h1.trans h2)
    · exact Or.inl (h2 ▸ h1)
    · exact Or.inl (h1 ▸ h2)
    · exact Or.inr ⟨h1.trans h2, h1'.trans h2'⟩
  have htotal : ∀ (a b : ℕ),
      ((decide (v.getD a default < v.getD b default) ||
        (decide (v.getD a default = v.getD b default) && decide (a ≤ b))) ||
       (decide (v.getD b default < v.getD a default) ||
        (decide (v.getD b default = v.getD a default) && decide (b ≤ a)))) = true := by
    intro a b
    rw [Bool.or_eq_true, key, key]
    rcases lt_trichotomy (v.getD a default) (v.getD b default) with h | h | h
    · exact Or.inl (Or.inl h)
    · rcases le_total a b with hab | hab
      · exact Or.inl (Or.inr ⟨h, hab⟩)
      · exact Or.inr (Or.inr ⟨h.symm, hab⟩)
    · exact Or.inr (Or.inl h)
  have := List.sorted_mergeSort htrans htotal (List.range v.length)
  exact this.imp fun h => (key _ _).1 h

theorem argsortStable_drop_pos {α : Type} [LinearOrder α] [Inhabited α]
    (v : List α) (z : α) (d : ℕ)
    (hnn : ∀ i < v.length, z ≤ v.getD i default)
    (hcount : d ≤ (List.range v.length).countP
      (fun i => decide (z < v.getD i default))) :
    ∀ j ∈ (argsortStable v).drop (v.length - d), z < v.getD j default := by
  intro j hj
  by_contra hle
  push_neg at hle
  have hjlt : j < v.length := (argsortStable_mem v j).1 (List.mem_of_mem_drop hj)
  have hvj : v.getD j default = z := le_antisymm hle (hnn j hjlt)
  set p : ℕ → Bool := fun i => decide (z < v.getD i default) with hp
  have hdn : d ≤ v.length := le_trans hcount (le_trans (List.countP_le_length _)
    (le_of_eq (List.length_range v.length)))
  have hlen : (argsortStable v).length = v.length := argsortStable_length v
  have hdroplen : ((argsortStable v).drop (v.length - d)).length = d := by
    rw [List.length_drop, hlen, Nat.sub_sub_self hdn]
  -- everything in the take-part sorts at or below v_j = z, hence is not > z
  have hpw := argsortStable_sorted v
  have hsplit : (argsortStable v).take (v.length - d) ++
      (argsortStable v).drop (v.length - d) = argsortStable v :=
    List.take_append_drop _ _
  rw [← hsplit] at hpw
  have hcross := (List.pairwise_append.1 hpw).2.2
  have htake0 : ((argsortStable v).take (v.length - d)).countP p = 0 := by
    rw [List.countP_eq_zero]
    intro i hi
    rcases hcross i hi j hj with hlt | ⟨heq, _⟩
    · rw [hvj] at hlt
      simp only [hp, decide_eq_true_iff, not_lt]
      exact le_of_lt hlt
    · rw [hvj] at heq
      simp only [hp, decide_eq_true_iff, not_lt]
      exact le_of_eq heq
  -- the drop-part contains j, which fails p, so its count is below d
  have hjfail : ¬ p j = true := by
    simp only [hp, decide_eq_true_iff, hvj]
    exact lt_irrefl z
  have hdrop_lt : ((argsortStable v).drop (v.length - d)).countP p < d := by
    have hone : 0 < ((argsortStable v).drop (v.length - d)).countP
        (fun a => decide (¬ p a = true)) :=
      List.countP_pos_iff.2 ⟨j, hj, by simpa using hjfail⟩
    have := List.length_eq_countP_add_countP p ((argsortStable v).drop (v.length - d))
    omega
  have hcount' : d ≤ (argsortStable v).countP p := by
    rw [(argsortStable_perm v).countP_eq p]
    exact hcount
  rw [← hsplit, List.countP_append, htake0] at hcount'
  omega

/-! ## Facts about the scaling and rounding of the 1-D main path -/

theorem except_bind_ok {ε α β : Type} (a : α) (f : α → Except ε β) :
    (Except.ok a : Except ε α) >>= f = f a := rfl

theorem except_bind_error {ε α β : Type} (e : ε) (f : α → Except ε β) :
    (Except.error e : Except ε α) >>= f = .error e := rfl

theorem except_throw {ε α : Type} (e : ε) : (throw e : Except ε α) = .error e := rfl

theorem unroundedData_length (data : List ℚ) (c : ℤ) :
    (unroundedData data c).length = data.length := List.length_map _ _

theorem roundedData_length (data : List ℚ) (c : ℤ) :
    (roundedData data c).length = data.length := by
  rw [roundedData, List.length_map, unroundedData_length]

theorem roundingDifference_length (data : List ℚ) (c : ℤ) :
    (roundingDifference data c).length = data.length := by
  rw [roundingDifference, List.length_map, List.length_range, roundedData_length]

theorem unroundedData_getD (data : List ℚ) (c : ℤ) {i : ℕ} (hi : i < data.length) :
    (unroundedData data c).getD i 0 = data.getD i 0 * c / data.sum := by
  have hlen : i < (unroundedData data c).length := by rwa [unroundedData_length]
  rw [List.getD_eq_getElem _ _ hlen, List.getD_eq_getElem _ _ hi]
  simp only [unroundedData, List.getElem_map]

theorem roundedData_getD (data : List ℚ) (c : ℤ) {i : ℕ} (hi : i < data.length) :
    (roundedData data c).getD i 0 = ⌈(unroundedData data c).getD i 0⌉ := by
  have hu : i < (unroundedData data c).length := by rwa [unroundedData_length]
  have hr : i < (roundedData data c).length := by rwa [roundedData_length]
  rw [List.getD_eq_getElem _ _ hr, List.getD_eq_getElem _ _ hu]
  simp only [roundedData, List.getElem_map]

theorem roundingDifference_getD (data : List ℚ) (c : ℤ) {i : ℕ}
    (hi : i < data.length) :
    (roundingDifference data c).getD i 0 =
      ((roundedData data c).getD i 0 : ℚ) - (unroundedData data c).getD i 0 := by
  have hr : i < (roundedData data c).length := by rwa [roundedData_length]
  rw [roundingDifference, getD_map_range _ _ hr]

theorem unroundedData_sum (data : List ℚ) (c : ℤ) (hs : data.sum ≠ 0) :
    (unroundedData data c).sum = c := by
  rw [unroundedData]
  have h1 : (data.map fun x => x * (c : ℚ) / data.sum) =
      data.map fun x => x * ((c : ℚ) / data.sum) := by
    apply List.map_congr_left
    intro x _
    rw [mul_div_assoc]
  rw [h1, List.sum_map_mul_right data (fun x => x) ((c : ℚ) / data.sum)]
  have h2 : (data.map fun x => x) = data := by simp
  rw [h2, mul_comm, div_mul_cancel₀ _ hs]

theorem unroundedData_nonneg (data : List ℚ) (c : ℤ)
    (hnn : ∀ x ∈ data, 0 ≤ x) (hc : 0 ≤ c) (hs : 0 ≤ data.sum) :
    ∀ x ∈ unroundedData data c, 0 ≤ x := by
  intro x hx
  rcases List.mem_map.1 hx with ⟨a, ha, rfl⟩
  exact div_nonneg (mul_nonneg (hnn a ha) (by exact_mod_cast hc)) hs

theorem roundedData_nonneg (data : List ℚ) (c : ℤ)
    (hnn : ∀ x ∈ data, 0 ≤ x) (hc : 0 ≤ c) (hs : 0 ≤ data.sum) :
    ∀ x ∈ roundedData data c, 0 ≤ x := by
  intro x hx
  rcases List.mem_map.1 hx with ⟨a, ha, rfl⟩
  exact Int.ceil_nonneg (unroundedData_nonneg data c hnn hc hs a ha)

theorem int_list_sum_cast (l : List ℤ) :
    ((l.sum : ℤ) : ℚ) = (l.map (Int.cast : ℤ → ℚ)).sum := by
  induction l with
  | nil => simp
  | cons a t ih => simp only [List.sum_cons, List.map_cons, Int.cast_add, ih]

theorem list_sum_map_sub {α : Type} (l : List α) (f g : α → ℚ) :
    (l.map (fun x => f x - g x)).sum = (l.map f).sum - (l.map g).sum := by
  induction l with
  | nil => simp
  | cons a t ih => simp only [List.map_cons, List.sum_cons, ih]; ring

theorem range_map_getD {α : Type} (l : List α) (d : α) :
    (List.range l.length).map (fun i => l.getD i d) = l := by
  apply List.ext_getElem
  · rw [List.length_map, List.length_range]
  · intro i h1 h2
    rw [List.getElem_map, List.getElem_range, List.getD_eq_getElem _ _ h2]

theorem roundedData_sum_cast (data : List ℚ) (c : ℤ) :
    (((roundedData data c).sum : ℤ) : ℚ) =
      ((unroundedData data c).map (fun x => (⌈x⌉ : ℚ))).sum := by
  rw [int_list_sum_cast, roundedData, List.map_map]
  rfl

theorem roundedData_sum_ge (data : List ℚ) (c : ℤ) (hs : data.sum ≠ 0) :
    c ≤ (roundedData data c).sum := by
  have h1 : (unroundedData data c).sum ≤
      ((unroundedData data c).map (fun x => (⌈x⌉ : ℚ))).sum := by
    have h0 := list_sum_map_le (unroundedData data c) (fun x => x) (fun x => (⌈x⌉ : ℚ))
      (fun x _ => Int.le_ceil x)
    have h2 : ((unroundedData data c).map fun x => x) = unroundedData data c := by simp
    rwa [h2] at h0
  rw [unroundedData_sum data c hs] at h1
  rw [← roundedData_sum_cast] at h1
  exact_mod_cast h1

theorem roundingDifference_sum (data : List ℚ) (c : ℤ) :
    (roundingDifference data c).sum =
      (((roundedData data c).sum : ℤ) : ℚ) - (unroundedData data c).sum := by
  rw [roundingDifference, list_sum_map_sub]
  have e1 : ((List.range (roundedData data c).length).map
      (fun i => ((roundedData data c).getD i 0 : ℚ))) =
      ((List.range (roundedData data c).length).map
        (fun i => (roundedData data c).getD i 0)).map (Int.cast : ℤ → ℚ) := by
    rw [List.map_map]
    rfl
  have e2 : ((List.range (roundedData data c).length).map
      (fun i => (roundedData data c).getD i 0)) = roundedData data c :=
    range_map_getD (roundedData data c) 0
  have e3 : ((List.range (roundedData data c).length).map
      (fun i => (unroundedData data c).getD i 0)) = unroundedData data c := by
    have hlen : (roundedData data c).length = (unroundedData data c).length := by
      rw [roundedData_length, unroundedData_length]
    rw [hlen]
    exact range_map_getD (unroundedData data c) 0
  rw [e1, e2, e3, ← int_list_sum_cast]

theorem roundingDifference_bounds (data : List ℚ) (c : ℤ) :
    ∀ x ∈ roundingDifference data c, 0 ≤ x ∧ x < 1 := by
  intro x hx
  rcases List.mem_map.1 hx with ⟨i, hi, rfl⟩
  rw [List.mem_range, roundedData_length] at hi
  rw [roundedData_getD data c hi]
  constructor
  · have := Int.le_ceil ((unroundedData data c).getD i 0)
    linarith
  · have := Int.ceil_lt_add_one ((unroundedData data c).getD i 0)
    linarith

theorem data_sum_pos (data : List ℚ) (hnn : ∀ x ∈ data, 0 ≤ x)
    (hnz : ∃ x ∈ data, x ≠ 0) : 0 < data.sum := by
  rcases hnz with ⟨x, hx, hxne⟩
  exact list_sum_pos_of_mem hx (lt_of_le_of_ne (hnn x hx) (Ne.symm hxne)) hnn

theorem countP_range_congr_getD {α : Type} (n : ℕ) (l : List α) (d : α)
    (hlen : l.length = n) (p : α → Bool) :
    l.countP p = (List.range n).countP (fun i => p (l.getD i d)) := by
  conv_lhs => rw [← range_map_getD l d]
  rw [List.countP_map, hlen]
  rfl

theorem rd_pos_imp_r_pos (data : List ℚ) (c : ℤ) (hnn : ∀ x ∈ data, 0 ≤ x)
    (hc : 0 ≤ c) (hs : 0 ≤ data.sum) :
    ∀ i < data.length, 0 < (roundingDifference data c).getD i 0 →
      1 ≤ (roundedData data c).getD i 0 := by
  intro i hi hrd
  rw [roundingDifference_getD data c hi] at hrd
  by_contra hle
  push_neg at hle
  have hr0 : (roundedData data c).getD i 0 ≤ 0 := by omega
  have hui : i < (unroundedData data c).length := by rwa [unroundedData_length]
  have hu0 : 0 ≤ (unroundedData data c).getD i 0 :=
    unroundedData_nonneg data c hnn hc hs _ (list_getD_mem _ hui 0)
  have huc : (unroundedData data c).getD i 0 ≤ ((roundedData data c).getD i 0 : ℚ) := by
    rw [roundedData_getD data c hi]
    exact Int.le_ceil _
  have hrc : ((roundedData data c).getD i 0 : ℚ) ≤ 0 := by exact_mod_cast hr0
  have hu00 : (unroundedData data c).getD i 0 = 0 := le_antisymm (le_trans huc hrc) hu0
  rw [hu00, roundedData_getD data c hi, hu00] at hrd
  simp at hrd

theorem diff_lt_cp (data : List ℚ) (c : ℤ) (hnn : ∀ x ∈ data, 0 ≤ x)
    (hnz : ∃ x ∈ data, x ≠ 0) (hdne : (roundedData data c).sum - c ≠ 0) :
    ((roundedData data c).sum - c).toNat <
      (List.range data.length).countP
        (fun i => decide ((0 : ℚ) < (roundingDifference data c).getD i 0)) := by
  have hspos := data_sum_pos data hnn hnz
  have hsne : data.sum ≠ 0 := ne_of_gt hspos
  have hge := roundedData_sum_ge data c hsne
  have hd1 : 1 ≤ (roundedData data c).sum - c := by omega
  have hq : (((roundedData data c).sum - c : ℤ) : ℚ) = (roundingDifference data c).sum := by
    rw [roundingDifference_sum, unroundedData_sum data c hsne]
    push_cast
    ring
  have hbounds := roundingDifference_bounds data c
  have hpos : 0 < (roundingDifference data c).sum := by
    rw [← hq]
    exact_mod_cast lt_of_lt_of_le Int.zero_lt_one hd1
  have hlt := list_sum_lt_countP _ hbounds hpos
  rw [← hq] at hlt
  rw [countP_range_congr_getD data.length (roundingDifference data c) 0
    (roundingDifference_length data c) (fun x => decide (0 < x))] at hlt
  have hltz : (roundedData data c).sum - c <
      ((List.range data.length).countP
        (fun i => decide ((0 : ℚ) < (roundingDifference data c).getD i 0)) : ℤ) := by
    exact_mod_cast hlt
  omega

theorem cp_rd_le_cp_r (data : List ℚ) (c : ℤ) (hnn : ∀ x ∈ data, 0 ≤ x)
    (hc : 0 ≤ c) (hs : 0 ≤ data.sum) :
    (List.range data.length).countP
        (fun i => decide ((0 : ℚ) < (roundingDifference data c).getD i 0)) ≤
      (List.range data.length).countP
        (fun i => decide ((0 : ℤ) < (roundedData data c).getD i 0)) := by
  apply List.countP_mono_left
  intro i hi hp
  rw [List.mem_range] at hi
  rw [decide_eq_true_iff] at hp ⊢
  have := rd_pos_imp_r_pos data c hnn hc hs i hi hp
  omega

theorem list_nodup_map_getD {α : Type} (l : List α) (hl : l.Nodup) (pos : List ℕ)
    (hpos : pos.Nodup) (hin : ∀ i ∈ pos, i < l.length) (d : α) :
    (pos.map (fun i => l.getD i d)).Nodup := by
  refine List.Nodup.map_on ?_ hpos
  intro a ha b hb heq
  have ha' := hin a ha
  have hb' := hin b hb
  rw [List.getD_eq_getElem l d ha', List.getD_eq_getElem l d hb'] at heq
  exact (hl.getElem_inj_iff).1 heq

theorem roundingDifference_sum_eq_diff (data : List ℚ) (c : ℤ)
    (hsne : data.sum ≠ 0) :
    (roundingDifference data c).sum = (((roundedData data c).sum - c : ℤ) : ℚ) := by
  rw [roundingDifference_sum, unroundedData_sum data c hsne]
  push_cast
  ring

/-- Joint specification of the four `to_decrease` selections of
`integerize_1d`: on the main path with a positive overshoot `diff`, each
methodology selects exactly `diff` distinct in-range indices, every selected
index holding a positive rounded value; under `largest_difference` every
selected index moreover has a positive rounding gain. -/
theorem toDecrease_spec (data : List ℚ) (c : ℤ) (methodology : String)
    (generator : Option GenChoice)
    (hnn : ∀ x ∈ data, 0 ≤ x) (hnz : ∃ x ∈ data, x ≠ 0) (hc : 1 ≤ c)
    (hmeth : methodology ∈ allowedMethodology)
    (hgen : methodology = "weighted_random" →
      ∃ g, generator = some g ∧ ValidChoice g)
    (hdne : (roundedData data c).sum - c ≠ 0) :
    ∃ sel, toDecrease data c methodology generator ((roundedData data c).sum - c) =
        .ok sel ∧
      sel.length = ((roundedData data c).sum - c).toNat ∧ sel.Nodup ∧
      (∀ j ∈ sel, j < data.length ∧ 1 ≤ (roundedData data c).getD j 0) ∧
      (methodology = "largest_difference" →
        ∀ j ∈ sel, 0 < (roundingDifference data c).getD j 0) := by
  have hspos := data_sum_pos data hnn hnz
  have hsnn : (0 : ℚ) ≤ data.sum := le_of_lt hspos
  have hsne : data.sum ≠ 0 := ne_of_gt hspos
  have hc0 : (0 : ℤ) ≤ c := by omega
  have hd0 : 0 ≤ (roundedData data c).sum - c := by
    have := roundedData_sum_ge data c hsne
    omega
  have hcp := diff_lt_cp data c hnn hnz hdne
  have hcpr : ((roundedData data c).sum - c).toNat < (List.range data.length).countP
      (fun i => decide ((0 : ℤ) < (roundedData data c).getD i 0)) :=
    lt_of_lt_of_le hcp (cp_rd_le_cp_r data c hnn hc0 hsnn)
  have hdlen : ((roundedData data c).sum - c).toNat ≤ data.length := by
    have h1 := List.countP_le_length
      (fun i => decide ((0 : ℤ) < (roundedData data c).getD i 0))
      (l := List.range data.length)
    rw [List.length_range] at h1
    omega
  have hrlen : (roundedData data c).length = data.length := roundedData_length data c
  have hddlen : (roundingDifference data c).length = data.length :=
    roundingDifference_length data c
  have hrnnD : ∀ i < (roundedData data c).length,
      (0 : ℤ) ≤ (roundedData data c).getD i 0 := fun i hi =>
    roundedData_nonneg data c hnn hc0 hsnn _ (list_getD_mem _ hi 0)
  simp only [allowedMethodology, List.mem_cons, List.not_mem_nil, or_false] at hmeth
  rcases hmeth with rfl | rfl | rfl | rfl
  -- methodology = "largest"
  · rw [toDecrease, if_pos rfl]
    refine ⟨_, rfl, ?_, ?_, ?_, fun h => absurd h (by decide)⟩
    · rw [List.length_drop, argsortStable_length, hrlen]
      omega
    · exact List.Nodup.sublist (List.drop_sublist _ _) (argsortStable_nodup _)
    · intro j hj
      have hmem := (argsortStable_mem _ j).1 (List.mem_of_mem_drop hj)
      have hpos := argsortStable_drop_pos (roundedData data c) 0
        ((roundedData data c).sum - c).toNat hrnnD
        (by rw [hrlen]; exact le_of_lt hcpr) j hj
      constructor
      · rwa [hrlen] at hmem
      · have h2 : (0 : ℤ) < (roundedData data c).getD j 0 := hpos
        omega
  -- methodology = "smallest"
  · rw [toDecrease, if_neg (by decide), if_pos rfl]
    have hnzi_nodup : ((List.range (roundedData data c).length).filter
        (fun i => decide ((roundedData data c).getD i 0 ≠ 0))).Nodup :=
      List.Nodup.filter _ (List.nodup_range _)
    have hnzi_len : ((roundedData data c).sum - c).toNat <
        ((List.range (roundedData data c).length).filter
          (fun i => decide ((roundedData data c).getD i 0 ≠ 0))).length := by
      rw [← List.countP_eq_length_filter]
      refine lt_of_lt_of_le hcpr ?_
      rw [hrlen]
      apply List.countP_mono_left
      intro i _ hp
      rw [decide_eq_true_iff] at hp ⊢
      omega
    have hnzi_mem : ∀ j ∈ (List.range (roundedData data c).length).filter
        (fun i => decide ((roundedData data c).getD i 0 ≠ 0)),
        j < data.length ∧ 1 ≤ (roundedData data c).getD j 0 := by
      intro j hj
      rcases List.mem_filter.1 hj with ⟨hjr, hjne⟩
      rw [List.mem_range] at hjr
      rw [decide_eq_true_iff] at hjne
      have := hrnnD j hjr
      rw [hrlen] at hjr
      exact ⟨hjr, by omega⟩
    have hσlen : (argsortStable ((( List.range (roundedData data c).length).filter
        (fun i => decide ((roundedData data c).getD i 0 ≠ 0))).map
          (fun i => (roundedData data c).getD i 0))).length =
        ((List.range (roundedData data c).length).filter
          (fun i => decide ((roundedData data c).getD i 0 ≠ 0))).length := by
      rw [argsortStable_length, List.length_map]
    refine ⟨_, rfl, ?_, ?_, ?_, fun h => absurd h (by decide)⟩
    · rw [List.length_map, List.length_take, hσlen]
      omega
    · apply list_nodup_map_getD _ hnzi_nodup
      · exact List.Nodup.sublist (List.take_sublist _ _) (argsortStable_nodup _)
      · intro i hi
        have := (argsortStable_mem _ i).1 (List.take_subset _ _ hi)
        rwa [List.length_map] at this
    · intro j hj
      rcases List.mem_map.1 hj with ⟨i, hi, rfl⟩
      have hilt := (argsortStable_mem _ i).1 (List.take_subset _ _ hi)
      rw [List.length_map] at hilt
      exact hnzi_mem _ (list_getD_mem _ hilt 0)
  -- methodology = "largest_difference"
  · rw [toDecrease, if_neg (by decide), if_neg (by decide), if_pos rfl]
    have hddnnD : ∀ i < (roundingDifference data c).length,
        (0 : ℚ) ≤ (roundingDifference data c).getD i 0 := fun i hi =>
      (roundingDifference_bounds data c _ (list_getD_mem _ hi 0)).1
    have hposall := argsortStable_drop_pos (roundingDifference data c) 0
      ((roundedData data c).sum - c).toNat hddnnD
      (by rw [hddlen]; exact le_of_lt hcp)
    refine ⟨_, rfl, ?_, ?_, ?_, fun _ => hposall⟩
    · rw [List.length_drop, argsortStable_length, hddlen]
      omega
    · exact List.Nodup.sublist (List.drop_sublist _ _) (argsortStable_nodup _)
    · intro j hj
      have hmem := (argsortStable_mem _ j).1 (List.mem_of_mem_drop hj)
      rw [hddlen] at hmem
      exact ⟨hmem, rd_pos_imp_r_pos data c hnn hc0 hsnn j hmem (hposall j hj)⟩
  -- methodology = "weighted_random"
  · rcases hgen rfl with ⟨g, hg, hvc⟩
    rw [toDecrease, if_neg (by decide), if_neg (by decide), if_neg (by decide), hg]
    have hS : 0 < (roundingDifference data c).sum := by
      rw [roundingDifference_sum_eq_diff data c hsne]
      exact_mod_cast (by omega : (0 : ℤ) < (roundedData data c).sum - c)
    have hplen : ((roundingDifference data c).map
        (fun d => d / (roundingDifference data c).sum)).length =
        (roundedData data c).length := by
      rw [List.length_map, hddlen, hrlen]
    have hpnn : ∀ x ∈ (roundingDifference data c).map
        (fun d => d / (roundingDifference data c).sum), 0 ≤ x := by
      intro x hx
      rcases List.mem_map.1 hx with ⟨d, hd, rfl⟩
      exact div_nonneg (roundingDifference_bounds data c d hd).1 (le_of_lt hS)
    have hpcount : ((roundedData data c).sum - c).toNat ≤
        ((roundingDifference data c).map
          (fun d => d / (roundingDifference data c).sum)).countP
          (fun x => decide (0 < x)) := by
      rw [List.countP_map]
      have hcong : List.countP ((fun x => decide (0 < x)) ∘
          (fun d => d / (roundingDifference data c).sum))
          (roundingDifference data c) =
          (roundingDifference data c).countP (fun x => decide (0 < x)) := by
        apply List.countP_congr
        intro x _
        simp only [Function.comp_apply, decide_eq_true_iff]
        constructor
        · intro hx
          have hxe : x = x / (roundingDifference data c).sum *
              (roundingDifference data c).sum :=
            (div_mul_cancel₀ _ (ne_of_gt hS)).symm
          rw [hxe]
          exact mul_pos hx hS
        · intro hx
          exact div_pos hx hS
      rw [hcong, countP_range_congr_getD data.length (roundingDifference data c) 0
        hddlen]
      exact le_of_lt hcp
    obtain ⟨hlen, hnd, hmem⟩ := hvc (roundedData data c).length
      ((roundedData data c).sum - c).toNat _ hplen hpnn hpcount
    refine ⟨_, rfl, hlen, hnd, ?_, fun h => absurd h (by decide)⟩
    intro j hj
    obtain ⟨hjlt, hjp⟩ := hmem j hj
    have hjlen : j < ((roundingDifference data c).map
        (fun d => d / (roundingDifference data c).sum)).length := by
      rw [hplen]
      exact hjlt
    rw [List.getD_eq_getElem _ _ hjlen, List.getElem_map] at hjp
    have hjdd : j < (roundingDifference data c).length := by
      rw [hddlen, ← hrlen]
      exact hjlt
    rw [← List.getD_eq_getElem _ 0 hjdd] at hjp
    have hddj : 0 < (roundingDifference data c).getD j 0 := by
      have hxe : (roundingDifference data c).getD j 0 =
          (roundingDifference data c).getD j 0 / (roundingDifference data c).sum *
            (roundingDifference data c).sum :=
        (div_mul_cancel₀ _ (ne_of_gt hS)).symm
      rw [hxe]
      exact mul_pos hjp hS
    rw [hrlen] at hjlt
    exact ⟨hjlt, rd_pos_imp_r_pos data c hnn hc0 hsnn j hjlt hddj⟩

/-! ## The main-path and wrapper specifications of `integerize_1d` -/

theorem pyRound_intCast (k : ℤ) : pyRound (k : ℚ) = k := by
  rw [pyRound, Int.floor_intCast]
  norm_num

theorem pyRound_nonneg {q : ℚ} (hq : 0 ≤ q) : 0 ≤ pyRound q := by
  have h0 : (0 : ℤ) ≤ ⌊q⌋ := Int.floor_nonneg.2 hq
  rw [pyRound]
  split_ifs <;> omega

theorem mathIsClose_intCast (k : ℤ) : mathIsClose (k : ℚ) (pyRound (k : ℚ)) = true := by
  rw [pyRound_intCast, mathIsClose, decide_eq_true_iff]
  rw [sub_self, abs_zero]
  exact le_max_right _ 0

theorem sum_frontload (n k : ℕ) :
    ((List.range n).map (fun i => if i < k then (1 : ℤ) else 0)).sum = min k n := by
  induction n with
  | zero => simp
  | succ m ih =>
    rw [List.range_succ, List.map_append, List.sum_append, ih]
    by_cases h : m < k
    · have h1 : min k m = m := min_eq_right (le_of_lt h)
      have h2 : min k (m + 1) = m + 1 := min_eq_right h
      simp only [List.map_cons, List.map_nil, List.sum_cons, List.sum_nil, if_pos h,
        h1, h2]
      push_cast
      ring
    · have hk : k ≤ m := not_lt.1 h
      have h1 : min k m = k := min_eq_left hk
      have h2 : min k (m + 1) = k := min_eq_left (le_trans hk (Nat.le_succ m))
      simp only [List.map_cons, List.map_nil, List.sum_cons, List.sum_nil, if_neg h,
        h1, h2]
      ring

theorem integerize1dMain_eq_rounded (data : List ℚ) (c : ℤ) (m : String)
    (g : Option GenChoice) (h : (roundedData data c).sum - c = 0) :
    integerize1dMain data c m g = .ok (roundedData data c) := by
  rw [integerize1dMain]
  simp only [if_pos h]
  rfl

theorem integerize1dMain_eq_final (data : List ℚ) (c : ℤ) (m : String)
    (g : Option GenChoice) (sel : List ℕ)
    (hne : (roundedData data c).sum - c ≠ 0)
    (htd : toDecrease data c m g ((roundedData data c).sum - c) = .ok sel)
    (hlt : (sel.any (fun i => (roundedData data c).length ≤ i)) = false)
    (hfin : ((applyAddAt (roundedData data c) sel (-1)).any
      (fun x => decide (x < 0))) = false) :
    integerize1dMain data c m g = .ok (applyAddAt (roundedData data c) sel (-1)) := by
  rw [integerize1dMain]
  simp only [if_neg hne, htd, npAddAt, hlt, except_bind_ok, Bool.false_eq_true, if_false]
  rw [if_neg (by simp [hfin])]
  rfl

/-- Main-path correctness of `integerize_1d`: with non-negative, not-all-zero
data and a positive integral control, every methodology produces a same-length
non-negative integer vector summing exactly to the control, and
`largest_difference` never increases an entry whose input value is zero. -/
theorem integerize1dMain_spec (data : List ℚ) (c : ℤ) (methodology : String)
    (generator : Option GenChoice)
    (hnn : ∀ x ∈ data, 0 ≤ x) (hnz : ∃ x ∈ data, x ≠ 0) (hc : 1 ≤ c)
    (hmeth : methodology ∈ allowedMethodology)
    (hgen : methodology = "weighted_random" →
      ∃ g, generator = some g ∧ ValidChoice g) :
    ∃ v, integerize1dMain data c methodology generator = .ok v ∧
      v.length = data.length ∧ v.sum = c ∧ (∀ x ∈ v, 0 ≤ x) ∧
      (methodology = "largest_difference" →
        ∀ i < data.length, data.getD i 0 = 0 → v.getD i 0 = 0) := by
  have hspos := data_sum_pos data hnn hnz
  have hsnn : (0 : ℚ) ≤ data.sum := le_of_lt hspos
  have hsne : data.sum ≠ 0 := ne_of_gt hspos
  have hc0 : (0 : ℤ) ≤ c := by omega
  have hrlen : (roundedData data c).length = data.length := roundedData_length data c
  have hrnnD : ∀ i < (roundedData data c).length,
      (0 : ℤ) ≤ (roundedData data c).getD i 0 := fun i hi =>
    roundedData_nonneg data c hnn hc0 hsnn _ (list_getD_mem _ hi 0)
  have hzeroR : ∀ i < data.length, data.getD i 0 = 0 →
      (roundedData data c).getD i 0 = 0 := by
    intro i hi hz
    rw [roundedData_getD data c hi, unroundedData_getD data c hi, hz]
    simp
  by_cases hd : (roundedData data c).sum - c = 0
  · refine ⟨roundedData data c, integerize1dMain_eq_rounded data c _ _ hd, hrlen,
      by omega, roundedData_nonneg data c hnn hc0 hsnn, ?_⟩
    intro _ i hi hz
    exact hzeroR i hi hz
  · obtain ⟨sel, htd, hslen, hnd, hmem, hposdd⟩ :=
      toDecrease_spec data c methodology generator hnn hnz hc hmeth hgen hd
    have hd0 : 0 ≤ (roundedData data c).sum - c := by
      have := roundedData_sum_ge data c hsne
      omega
    have hselR : ∀ i ∈ sel, i < (roundedData data c).length := by
      intro i hi
      rw [hrlen]
      exact (hmem i hi).1
    have hbound : (sel.any fun i => decide ((roundedData data c).length ≤ i)) = false := by
      rw [List.any_eq_false]
      intro i hi
      have := hselR i hi
      simpa using by omega
    have hgetD : ∀ j < (roundedData data c).length,
        (applyAddAt (roundedData data c) sel (-1)).getD j 0 =
          (roundedData data c).getD j 0 + (-1) * sel.count j := fun j hj =>
      applyAddAt_getD _ _ _ j hj hselR
    have hcount_le : ∀ j, sel.count j ≤ 1 := List.nodup_iff_count_le_one.1 hnd
    have hfin_nn : ∀ j < (roundedData data c).length,
        0 ≤ (applyAddAt (roundedData data c) sel (-1)).getD j 0 := by
      intro j hj
      rw [hgetD j hj]
      by_cases hjmem : j ∈ sel
      · have h1 := (hmem j hjmem).2
        have h2 := hcount_le j
        omega
      · rw [List.count_eq_zero_of_not_mem hjmem]
        have := hrnnD j hj
        omega
    have hfinlen : (applyAddAt (roundedData data c) sel (-1)).length =
        (roundedData data c).length := applyAddAt_length _ _ _
    have hany : ((applyAddAt (roundedData data c) sel (-1)).any
        (fun x => decide (x < 0))) = false := by
      rw [List.any_eq_false]
      intro x hx
      rcases List.mem_iff_getElem.1 hx with ⟨j, hjl, rfl⟩
      have hjl' : j < (roundedData data c).length := by rwa [hfinlen] at hjl
      have hge := hfin_nn j hjl'
      rw [List.getD_eq_getElem _ _ hjl] at hge
      simpa using by omega
    refine ⟨_, integerize1dMain_eq_final data c methodology generator sel hd htd
      hbound hany, ?_, ?_, ?_, ?_⟩
    · rw [hfinlen, hrlen]
    · rw [applyAddAt_sum _ _ _ hselR, hslen]
      have hcast : (((roundedData data c).sum - c).toNat : ℤ) =
          (roundedData data c).sum - c := Int.toNat_of_nonneg hd0
      omega
    · intro x hx
      rcases List.mem_iff_getElem.1 hx with ⟨j, hjl, rfl⟩
      have hjl' : j < (roundedData data c).length := by rwa [hfinlen] at hjl
      have hge := hfin_nn j hjl'
      rwa [List.getD_eq_getElem _ _ hjl] at hge
    · intro hlgd i hi hz
      have hiR : i < (roundedData data c).length := by
        rw [hrlen]
        exact hi
      have hr0 := hzeroR i hi hz
      have hnotin : i ∉ sel := by
        intro hin
        have hpos := hposdd hlgd i hin
        have hdd0 : (roundingDifference data c).getD i 0 = 0 := by
          rw [roundingDifference_getD data c hi, hr0, unroundedData_getD data c hi, hz]
          simp
        rw [hdd0] at hpos
        exact lt_irrefl 0 hpos
      rw [hgetD i hiR, List.count_eq_zero_of_not_mem hnotin, hr0]
      ring

theorem integerize_1d_checks (data : List ℚ) (control : Option ℚ)
    (methodology : String) (generator : Option GenChoice)
    (hmeth : methodology ∈ allowedMethodology)
    (hgen : methodology = "weighted_random" → generator.isNone = false)
    (hda : (data.any fun x => decide (x < 0)) = false) :
    integerize_1d data control methodology generator =
      integerize1dResolved data control methodology generator := by
  rw [integerize_1d]
  rw [if_neg (by simpa using hmeth)]
  by_cases hwr : methodology = "weighted_random"
  · rw [if_pos hwr]
    rw [if_neg (by simp [hgen hwr])]
    simp only [hda, Bool.false_eq_true, if_false]
    rfl
  · rw [if_neg hwr]
    simp only [hda, Bool.false_eq_true, if_false]
    rfl

theorem integerize1dNdarrayEffect_checks (data : List ℚ) (control : Option ℚ)
    (methodology : String) (generator : Option GenChoice)
    (hmeth : methodology ∈ allowedMethodology)
    (hgen : methodology = "weighted_random" → generator.isNone = false)
    (hda : (data.any fun x => decide (x < 0)) = false) :
    integerize1dNdarrayEffect data control methodology generator =
      integerize1dResolvedNdarrayEffect data control methodology generator := by
  rw [integerize1dNdarrayEffect]
  rw [if_neg (by simpa using hmeth)]
  by_cases hwr : methodology = "weighted_random"
  · rw [if_pos hwr]
    rw [if_neg (by simp [hgen hwr])]
    simp only [hda, Bool.false_eq_true, if_false]
    rfl
  · rw [if_neg hwr]
    simp only [hda, Bool.false_eq_true, if_false]
    rfl

/-- Branch characterization of `integerize1dResolved` when the control is not
negative: the integrality check, the `control == 0` override, the all-zero
override with its `IndexError`, and the main path, in source order. -/
theorem integerize1dResolved_eq (data : List ℚ) (control : Option ℚ)
    (methodology : String) (generator : Option GenChoice)
    (hcnn : ∀ cq, control = some cq → ¬ cq < 0) :
    integerize1dResolved data control methodology generator =
      (if ¬ mathIsClose (control.getD data.sum)
          (pyRound (control.getD data.sum)) = true then
        Except.error (.valueError "Input parameter 'control' must be integer")
      else if pyRound (control.getD data.sum) = 0 then
        .ok (List.replicate data.length 0)
      else if data.all (fun x => decide (x = 0)) then
        if (pyRound (control.getD data.sum)).toNat ≤ data.length then
          .ok ((List.range data.length).map
            (fun i => if i < (pyRound (control.getD data.sum)).toNat then 1 else 0))
        else
          Except.error (.indexError "np.add.at: index out of bounds")
      else integerize1dMain data (pyRound (control.getD data.sum))
        methodology generator) := by
  cases control with
  | some cq =>
    rw [integerize1dResolved.eq_def]
    simp only [if_neg (hcnn cq rfl)]
    rfl
  | none =>
    rw [integerize1dResolved.eq_def]
    rfl

/-- Correctness of `integerize_1d` after validation: for non-negative data,
a non-negative integral (or missing, with integral data sum) control, any
allowed methodology (with a well-behaved generator for `weighted_random`),
and — when the data is entirely zero with a positive control — a control not
exceeding the data length, the call returns a same-length non-negative integer
vector summing exactly to the rounded control. -/
theorem integerize1dResolved_spec (data : List ℚ) (control : Option ℚ)
    (methodology : String) (generator : Option GenChoice)
    (hnn : ∀ x ∈ data, 0 ≤ x)
    (hmeth : methodology ∈ allowedMethodology)
    (hgen : methodology = "weighted_random" →
      ∃ g, generator = some g ∧ ValidChoice g)
    (hcnn : ∀ cq, control = some cq → 0 ≤ cq)
    (hclose : mathIsClose (control.getD data.sum)
      (pyRound (control.getD data.sum)) = true)
    (hproviso : (∀ x ∈ data, x = 0) → 0 < pyRound (control.getD data.sum) →
      (pyRound (control.getD data.sum)).toNat ≤ data.length) :
    ∃ v, integerize1dResolved data control methodology generator = .ok v ∧
      v.length = data.length ∧ v.sum = pyRound (control.getD data.sum) ∧
      ∀ x ∈ v, 0 ≤ x := by
  have hcq0 : 0 ≤ control.getD data.sum := by
    cases control with
    | some cq => exact hcnn cq rfl
    | none => exact List.sum_nonneg hnn
  have hcz0 : 0 ≤ pyRound (control.getD data.sum) := pyRound_nonneg hcq0
  have hmatch := integerize1dResolved_eq data control methodology generator
    (fun cq hcq => not_lt.2 (hcnn cq hcq))
  rw [hmatch, if_neg (by simp [hclose])]
  by_cases hz : pyRound (control.getD data.sum) = 0
  · rw [if_pos hz]
    refine ⟨_, rfl, List.length_replicate _ _, ?_, ?_⟩
    · rw [List.sum_replicate, hz]
      simp
    · intro x hx
      rw [(List.mem_replicate.1 hx).2]
  · rw [if_neg hz]
    by_cases hall : (data.all fun x => decide (x = 0)) = true
    · have hallz : ∀ x ∈ data, x = 0 := by
        intro x hx
        have := List.all_eq_true.1 hall x hx
        simpa using this
      have hle := hproviso hallz (by omega)
      rw [if_pos hall, if_pos hle]
      refine ⟨_, rfl, ?_, ?_, ?_⟩
      · rw [List.length_map, List.length_range]
      · rw [sum_frontload, min_eq_left hle, Int.toNat_of_nonneg hcz0]
      · intro x hx
        rcases List.mem_map.1 hx with ⟨i, _, rfl⟩
        split_ifs <;> omega
    · rw [if_neg (by simpa using hall)]
      have hnz : ∃ x ∈ data, x ≠ 0 := by
        by_contra hcon
        push_neg at hcon
        exact hall (List.all_eq_true.2 fun x hx => by simpa using hcon x hx)
      obtain ⟨v, hok, h1, h2, h3, _⟩ := integerize1dMain_spec data
        (pyRound (control.getD data.sum)) methodology generator hnn hnz
        (by omega) hmeth hgen
      exact ⟨v, hok, h1, h2, h3⟩

/-- Full-contract specification of `integerize_1d` under the wrapper checks. -/
theorem integerize_1d_spec (data : List ℚ) (control : Option ℚ)
    (methodology : String) (generator : Option GenChoice)
    (hnn : ∀ x ∈ data, 0 ≤ x)
    (hmeth : methodology ∈ allowedMethodology)
    (hgen : methodology = "weighted_random" →
      ∃ g, generator = some g ∧ ValidChoice g)
    (hcnn : ∀ cq, control = some cq → 0 ≤ cq)
    (hclose : mathIsClose (control.getD data.sum)
      (pyRound (control.getD data.sum)) = true)
    (hproviso : (∀ x ∈ data, x = 0) → 0 < pyRound (control.getD data.sum) →
      (pyRound (control.getD data.sum)).toNat ≤ data.length) :
    ∃ v, integerize_1d data control methodology generator = .ok v ∧
      v.length = data.length ∧ v.sum = pyRound (control.getD data.sum) ∧
      ∀ x ∈ v, 0 ≤ x := by
  have hda : (data.any fun x => decide (x < 0)) = false := by
    rw [List.any_eq_false]
    intro x hx
    simpa using not_lt.2 (hnn x hx)
  have hgen' : methodology = "weighted_random" → generator.isNone = false := by
    intro h
    rcases hgen h with ⟨g, hg, _⟩
    rw [hg]
    rfl
  rw [integerize_1d_checks data control methodology generator hmeth hgen' hda]
  exact integerize1dResolved_spec data control methodology generator hnn hmeth hgen
    hcnn hclose hproviso

/-- Inversion for the default configuration used by `integerize_2d`: whenever
`integerize_1d(column, control)` returns normally, the result has the
column's length, sums exactly to the rounded control, and is non-negative. -/
theorem integerize1dResolved_ok_inv (data : List ℚ) (control : Option ℚ)
    (v : List ℤ) (hnn : ∀ x ∈ data, 0 ≤ x)
    (hok : integerize1dResolved data control "largest_difference" none = .ok v) :
    v.length = data.length ∧ v.sum = pyRound (control.getD data.sum) ∧
      ∀ x ∈ v, 0 ≤ x := by
  have hcnn : ∀ cq, control = some cq → ¬ cq < 0 := by
    intro cq hcq hlt
    subst hcq
    rw [integerize1dResolved.eq_def] at hok
    simp only [if_pos hlt, except_throw, except_bind_error] at hok
    exact absurd hok (by simp)
  rw [integerize1dResolved_eq data control _ _ hcnn] at hok
  by_cases hcl : mathIsClose (control.getD data.sum)
      (pyRound (control.getD data.sum)) = true
  · rw [if_neg (by simp [hcl])] at hok
    by_cases hz : pyRound (control.getD data.sum) = 0
    · rw [if_pos hz] at hok
      injection hok with hv
      subst hv
      refine ⟨List.length_replicate _ _, ?_, ?_⟩
      · rw [List.sum_replicate, hz]
        simp
      · intro x hx
        rw [(List.mem_replicate.1 hx).2]
    · rw [if_neg hz] at hok
      by_cases hall : (data.all fun x => decide (x = 0)) = true
      · rw [if_pos hall] at hok
        by_cases hlen : (pyRound (control.getD data.sum)).toNat ≤ data.length
        · rw [if_pos hlen] at hok
          injection hok with hv
          subst hv
          have hcq0 : 0 ≤ control.getD data.sum := by
            cases control with
            | some cq => exact not_lt.1 (hcnn cq rfl)
            | none => exact List.sum_nonneg hnn
          refine ⟨by rw [List.length_map, List.length_range], ?_, ?_⟩
          · rw [sum_frontload, min_eq_left hlen,
              Int.toNat_of_nonneg (pyRound_nonneg hcq0)]
          · intro x hx
            rcases List.mem_map.1 hx with ⟨i, _, rfl⟩
            split_ifs <;> omega
        · rw [if_neg hlen] at hok
          exact absurd hok (by simp)
      · rw [if_neg (by simpa using hall)] at hok
        have hnz : ∃ x ∈ data, x ≠ 0 := by
          by_contra hcon
          push_neg at hcon
          exact hall (List.all_eq_true.2 fun x hx => by simpa using hcon x hx)
        have hcq0 : 0 ≤ control.getD data.sum := by
          cases control with
          | some cq => exact not_lt.1 (hcnn cq rfl)
          | none => exact List.sum_nonneg hnn
        have hcz0 := pyRound_nonneg hcq0
        obtain ⟨v', hok', h1, h2, h3, _⟩ := integerize1dMain_spec data
          (pyRound (control.getD data.sum)) "largest_difference" none hnn hnz
          (by omega) (by decide) (fun h => absurd h (by decide))
        rw [hok'] at hok
        injection hok with hv
        subst hv
        exact ⟨h1, h2, h3⟩
  · rw [if_pos (by simp [hcl])] at hok
    exact absurd hok (by simp)

/-- Inversion at the `integerize_1d` wrapper level (default methodology and
generator, as called by `integerize_2d`): a normal return implies the result
has the input's length, sums to the rounded control, and is non-negative. -/
theorem integerize_1d_ok_inv (data : List ℚ) (control : Option ℚ) (v : List ℤ)
    (hok : integerize_1d data control "largest_difference" none = .ok v) :
    v.length = data.length ∧ v.sum = pyRound (control.getD data.sum) ∧
      ∀ x ∈ v, 0 ≤ x := by
  rw [integerize_1d] at hok
  rw [if_neg (by decide)] at hok
  rw [if_neg (by decide : ¬ ("largest_difference" = "weighted_random"))] at hok
  by_cases hda : (data.any fun x => decide (x < 0)) = true
  · rw [if_pos hda] at hok
    simp only [except_throw, except_bind_error] at hok
    exact absurd hok (by simp)
  · rw [Bool.not_eq_true] at hda
    simp only [hda, Bool.false_eq_true, if_false] at hok
    have hnn : ∀ x ∈ data, 0 ≤ x := by
      rw [List.any_eq_false] at hda
      intro x hx
      simpa using hda x hx
    exact integerize1dResolved_ok_inv data control v hnn hok

theorem list_int_nonneg_sum_zero {v : List ℤ} (hnn : ∀ x ∈ v, 0 ≤ x)
    (hs : v.sum = 0) : ∀ x ∈ v, x = 0 := by
  induction v with
  | nil => intro x hx; cases hx
  | cons a t ih =>
    intro x hx
    have ha := hnn a (List.mem_cons_self a t)
    have htnn : ∀ y ∈ t, 0 ≤ y := fun y hy => hnn y (List.mem_cons_of_mem a hy)
    have hts : 0 ≤ t.sum := List.sum_nonneg htnn
    rw [List.sum_cons] at hs
    rcases List.mem_cons.1 hx with rfl | hx'
    · omega
    · exact ih htnn (by omega) x hx'

/-- Branch characterization of `integerize1dResolvedNdarrayEffect` when the
control is not negative, mirroring `integerize1dResolved_eq`. -/
theorem integerize1dResolvedNdarrayEffect_eq (data : List ℚ) (control : Option ℚ)
    (methodology : String) (generator : Option GenChoice)
    (hcnn : ∀ cq, control = some cq → ¬ cq < 0) :
    integerize1dResolvedNdarrayEffect data control methodology generator =
      (if ¬ mathIsClose (control.getD data.sum)
          (pyRound (control.getD data.sum)) = true then
        Except.error (.valueError "Input parameter 'control' must be integer")
      else if pyRound (control.getD data.sum) = 0 then
        .ok (List.replicate data.length 0, true)
      else if data.all (fun x => decide (x = 0)) then
        if (pyRound (control.getD data.sum)).toNat ≤ data.length then
          .ok ((List.range data.length).map
            (fun i => if i < (pyRound (control.getD data.sum)).toNat
              then (1 : ℚ) else 0), true)
        else
          Except.error (.indexError "np.add.at: index out of bounds")
      else integerize1dMain data (pyRound (control.getD data.sum))
        methodology generator >>= fun _ => pure (data, false)) := by
  cases control with
  | some cq =>
    rw [integerize1dResolvedNdarrayEffect.eq_def]
    simp only [if_neg (hcnn cq rfl)]
    rfl
  | none =>
    rw [integerize1dResolvedNdarrayEffect.eq_def]
    rfl

/-- Evaluation of the all-zero-data branch of `integerize_1d`: on an all-zero
length-`n` vector with positive integral control `k`, the call front-loads
ones when `k ≤ n` and raises `IndexError` when `k > n`. -/
theorem integerize1d_allzero_eval (n : ℕ) (k : ℤ) (hk : 0 < k) :
    (k.toNat ≤ n →
      integerize_1d (List.replicate n 0) (some (k : ℚ)) "largest_difference"
          none =
        .ok ((List.range n).map (fun i => if i < k.toNat then 1 else 0))) ∧
    (n < k.toNat →
      integerize_1d (List.replicate n 0) (some (k : ℚ)) "largest_difference"
          none =
        .error (.indexError "np.add.at: index out of bounds")) := by
  have hda : ((List.replicate n (0 : ℚ)).any fun x => decide (x < 0)) = false := by
    rw [List.any_eq_false]
    intro x hx
    rw [(List.mem_replicate.1 hx).2]
    simp
  have hpath : integerize_1d (List.replicate n 0) (some (k : ℚ))
      "largest_difference" none =
      integerize1dResolved (List.replicate n 0) (some (k : ℚ))
        "largest_difference" none :=
    integerize_1d_checks _ _ _ _ (by decide) (fun h => absurd h (by decide)) hda
  have hcnn : ∀ cq, (some (k : ℚ)) = some cq → ¬ cq < 0 := by
    intro cq hcq
    injection hcq with hcq2
    rw [← hcq2]
    push_neg
    exact_mod_cast le_of_lt hk
  have hres := integerize1dResolved_eq (List.replicate n 0) (some (k : ℚ))
    "largest_difference" none hcnn
  simp only [Option.getD_some, pyRound_intCast] at hres
  have hclosek : mathIsClose (k : ℚ) (k : ℚ) = true := by
    have h0 := mathIsClose_intCast k
    rwa [pyRound_intCast] at h0
  rw [if_neg (by simp [hclosek]), if_neg (by omega : ¬ k = 0),
    if_pos (by
      rw [List.all_eq_true]
      intro x hx
      simp [(List.mem_replicate.1 hx).2]), List.length_replicate] at hres
  constructor
  · intro hle
    rw [hpath, hres, if_pos hle]
  · intro hgt
    rw [hpath, hres, if_neg (by omega)]

/-- C2 counterexample: the input `data = [0]` (all-zero, length one),
`control = 2` satisfies the claim's hypotheses (non-negative reals, explicit
non-negative integer-valued control) but `integerize_1d` raises `IndexError`
instead of returning a vector: `np.add.at(data, np.arange(control), 1)`
indexes past the end of the array. -/
theorem C2_counterexample :
    integerize_1d (List.replicate 1 0) (some ((2 : ℤ) : ℚ)) "largest_difference"
        none = .error (.indexError "np.add.at: index out of bounds") :=
  (integerize1d_allzero_eval 1 2 (by norm_num)).2 (by norm_num)

/-- C2 (amended): for every call to `integerize_1d` with a vector of
non-negative reals, an explicit non-negative integer-valued control or `None`
with an integral sum, an allowed methodology (with a well-behaved generator
when `weighted_random`), and — in the degenerate all-zero-data case — a
control not exceeding the vector length, the result is a same-length vector
of non-negative integers whose sum is exactly the control. -/
theorem C2_integerize_1d_contract (data : List ℚ) (control : Option ℚ)
    (methodology : String) (generator : Option GenChoice)
    (hnn : ∀ x ∈ data, 0 ≤ x)
    (hmeth : methodology ∈ allowedMethodology)
    (hgen : methodology = "weighted_random" →
      ∃ g, generator = some g ∧ ValidChoice g)
    (hint : ∃ k : ℤ, control.getD data.sum = (k : ℚ) ∧ 0 ≤ k)
    (hproviso : (∀ x ∈ data, x = 0) →
      ∀ k : ℤ, control.getD data.sum = (k : ℚ) → k.toNat ≤ data.length) :
    ∃ v, integerize_1d data control methodology generator = .ok v ∧
      v.length = data.length ∧ (v.sum : ℚ) = control.getD data.sum ∧
      ∀ x ∈ v, 0 ≤ x := by
  obtain ⟨k, hk, hk0⟩ := hint
  have hpy : pyRound (control.getD data.sum) = k := by
    rw [hk, pyRound_intCast]
  have hclose : mathIsClose (control.getD data.sum)
      (pyRound (control.getD data.sum)) = true := by
    rw [hk]
    exact mathIsClose_intCast k
  have hcnn : ∀ cq, control = some cq → 0 ≤ cq := by
    intro cq hcq
    rw [hcq] at hk
    simp only [Option.getD_some] at hk
    rw [hk]
    exact_mod_cast hk0
  obtain ⟨v, hok, h1, h2, h3⟩ := integerize_1d_spec data control methodology
    generator hnn hmeth hgen hcnn hclose
    (fun hall _ => by rw [hpy]; exact hproviso hall k hk)
  refine ⟨v, hok, h1, ?_, h3⟩
  rw [h2, hpy, hk]

/-- C2 witness instantiation: the spec scenario
`integerize_1d([0.3, 0.3, 0.4], control=1)`. -/
theorem C2_witness :
    ∃ v, integerize_1d [(3 : ℚ)/10, 3/10, 2/5] (some 1) "largest_difference"
        none = .ok v ∧
      v.length = ([(3 : ℚ)/10, 3/10, 2/5] : List ℚ).length ∧
      (v.sum : ℚ) = (some (1 : ℚ)).getD ([(3 : ℚ)/10, 3/10, 2/5] : List ℚ).sum ∧
      ∀ x ∈ v, 0 ≤ x := by
  apply C2_integerize_1d_contract
  · intro x hx
    fin_cases hx <;> norm_num
  · decide
  · intro h
    exact absurd h (by decide)
  · exact ⟨1, by norm_num, by norm_num⟩
  · intro hall _ _
    exact absurd (hall (3/10) (by simp)) (by norm_num)

/-- C10: the degenerate front-loading branch of `integerize_1d`: on an
all-zero vector of length `n` with positive integral control `k`, the call
front-loads ones when `k ≤ n`, and raises an out-of-bounds `IndexError`
(not an input-validation `ValueError`) when `k > n`. -/
theorem C10_allzero_branch (n : ℕ) (k : ℤ) (hk : 0 < k) :
    (k.toNat ≤ n →
      integerize_1d (List.replicate n 0) (some (k : ℚ)) "largest_difference"
          none =
        .ok ((List.range n).map (fun i => if i < k.toNat then 1 else 0))) ∧
    (n < k.toNat →
      integerize_1d (List.replicate n 0) (some (k : ℚ)) "largest_difference"
          none =
        .error (.indexError "np.add.at: index out of bounds")) :=
  integerize1d_allzero_eval n k hk

/-- C10 witness: both arms at concrete inputs — an all-zero length-3 vector
with control 2 front-loads to `[1, 1, 0]`, and an all-zero length-1 vector
with control 2 raises `IndexError`. -/
theorem C10_witness :
    integerize_1d (List.replicate 3 0) (some ((2 : ℤ) : ℚ)) "largest_difference"
        none = .ok ((List.range 3).map (fun i => if i < (2 : ℤ).toNat then 1 else 0)) ∧
    integerize_1d (List.replicate 1 0) (some ((2 : ℤ) : ℚ)) "largest_difference"
        none = .error (.indexError "np.add.at: index out of bounds") :=
  ⟨(C10_allzero_branch 3 2 (by norm_num)).1 (by norm_num),
   (C10_allzero_branch 1 2 (by norm_num)).2 (by norm_num)⟩

/-- Core of the idempotence argument: on integer-valued non-negative data the
resolved call returns the original integer vector whenever the control equals
(or defaults to) the data sum. -/
theorem integerize1dResolved_int_self (v : List ℤ) (control : Option ℚ)
    (hnn : ∀ x ∈ v, 0 ≤ x)
    (hget : control.getD ((v.map (Int.cast : ℤ → ℚ)).sum) = ((v.sum : ℤ) : ℚ))
    (hcnn : ∀ cq, control = some cq → ¬ cq < 0) :
    integerize1dResolved (v.map (Int.cast : ℤ → ℚ)) control
      "largest_difference" none = .ok v := by
  have hsum : ((v.map (Int.cast : ℤ → ℚ)).sum) = ((v.sum : ℤ) : ℚ) :=
    (int_list_sum_cast v).symm
  rw [integerize1dResolved_eq _ control _ _ hcnn, hget, pyRound_intCast]
  have hclosek : mathIsClose ((v.sum : ℤ) : ℚ) ((v.sum : ℤ) : ℚ) = true := by
    have h0 := mathIsClose_intCast v.sum
    rwa [pyRound_intCast] at h0
  rw [if_neg (not_not_intro hclosek)]
  by_cases hs : v.sum = 0
  · rw [if_pos hs]
    have hvz := list_int_nonneg_sum_zero hnn hs
    have hvrep : v = List.replicate (v.map (Int.cast : ℤ → ℚ)).length 0 := by
      rw [List.eq_replicate_iff]
      exact ⟨by rw [List.length_map], hvz⟩
    rw [← hvrep]
  · rw [if_neg hs]
    have hallz : ((v.map (Int.cast : ℤ → ℚ)).all fun x => decide (x = 0)) = false := by
      rw [← Bool.not_eq_true, List.all_eq_true]
      intro hall
      apply hs
      apply List.sum_eq_zero
      intro x hx
      have hcast := hall ((x : ℚ)) (List.mem_map_of_mem _ hx)
      simp only [decide_eq_true_iff, Int.cast_eq_zero] at hcast
      exact hcast
    rw [if_neg (by simp [hallz])]
    have hucast : unroundedData (v.map (Int.cast : ℤ → ℚ)) v.sum =
        v.map (Int.cast : ℤ → ℚ) := by
      rw [unroundedData]
      conv_rhs => rw [← List.map_id (v.map (Int.cast : ℤ → ℚ))]
      apply List.map_congr_left
      intro x _
      rw [hsum]
      have hne : ((v.sum : ℤ) : ℚ) ≠ 0 := by
        intro hc
        exact hs (by exact_mod_cast hc)
      rw [mul_div_assoc, div_self hne, mul_one]
      rfl
    have hrcast : roundedData (v.map (Int.cast : ℤ → ℚ)) v.sum = v := by
      rw [roundedData, hucast, List.map_map]
      have : ((Int.ceil : ℚ → ℤ) ∘ (Int.cast : ℤ → ℚ)) = id := by
        funext z
        simp [Int.ceil_intCast]
      rw [this, List.map_id]
    have hdiff : (roundedData (v.map (Int.cast : ℤ → ℚ)) v.sum).sum - v.sum = 0 := by
      rw [hrcast]
      ring
    rw [integerize1dMain_eq_rounded _ _ _ _ hdiff, hrcast]

/-- C9: `integerize_1d` is idempotent on already-integer data: for every
vector of non-negative integers, calling it with control equal to the
vector's own sum, or with control `None`, returns the vector unchanged. -/
theorem C9_idempotent (v : List ℤ) (hnn : ∀ x ∈ v, 0 ≤ x) :
    integerize_1d (v.map (Int.cast : ℤ → ℚ))
        (some ((v.map (Int.cast : ℤ → ℚ)).sum)) "largest_difference" none =
      .ok v ∧
    integerize_1d (v.map (Int.cast : ℤ → ℚ)) none "largest_difference" none =
      .ok v := by
  have hsum : ((v.map (Int.cast : ℤ → ℚ)).sum) = ((v.sum : ℤ) : ℚ) :=
    (int_list_sum_cast v).symm
  have hsnn : 0 ≤ (v.map (Int.cast : ℤ → ℚ)).sum := by
    apply List.sum_nonneg
    intro x hx
    rcases List.mem_map.1 hx with ⟨a, ha, rfl⟩
    exact_mod_cast hnn a ha
  have hda : ((v.map (Int.cast : ℤ → ℚ)).any fun x => decide (x < 0)) = false := by
    rw [List.any_eq_false]
    intro x hx
    rcases List.mem_map.1 hx with ⟨a, ha, rfl⟩
    simpa using not_lt.2 (by exact_mod_cast hnn a ha : (0 : ℚ) ≤ (a : ℚ))
  constructor
  · rw [integerize_1d_checks _ _ _ _ (by decide) (fun h => absurd h (by decide)) hda]
    exact integerize1dResolved_int_self v _ hnn (by rw [Option.getD_some, hsum])
      (fun cq hcq => by injection hcq with h2; rw [← h2]; exact not_lt.2 hsnn)
  · rw [integerize_1d_checks _ _ _ _ (by decide) (fun h => absurd h (by decide)) hda]
    exact integerize1dResolved_int_self v none hnn
      (by rw [Option.getD_none]; exact hsum) (fun cq hcq => by cases hcq)

/-- C9 witness: `integerize_1d([1, 2], control=3)` and with control `None`
both return `[1, 2]` unchanged. -/
theorem C9_witness :
    integerize_1d ([(1 : ℤ), 2].map (Int.cast : ℤ → ℚ))
        (some (([(1 : ℤ), 2].map (Int.cast : ℤ → ℚ)).sum)) "largest_difference"
        none = .ok [(1 : ℤ), 2] ∧
    integerize_1d ([(1 : ℤ), 2].map (Int.cast : ℤ → ℚ)) none "largest_difference"
        none = .ok [(1 : ℤ), 2] :=
  C9_idempotent [1, 2] (by intro x hx; fin_cases hx <;> norm_num)

/-- C5: on the main path (positive integral control, at least one non-zero
entry) every one of the four tie-break policies returns normally with no
negative entry — the internal negative-value error branch is unreachable —
and under the `largest_difference` policy no mass is ever moved onto an index
whose input value is zero. -/
theorem C5_no_negative_no_zero_capacity (data : List ℚ) (c : ℚ)
    (methodology : String) (generator : Option GenChoice)
    (hnn : ∀ x ∈ data, 0 ≤ x) (hnz : ∃ x ∈ data, x ≠ 0)
    (hcint : ∃ k : ℤ, c = (k : ℚ) ∧ 1 ≤ k)
    (hmeth : methodology ∈ allowedMethodology)
    (hgen : methodology = "weighted_random" →
      ∃ g, generator = some g ∧ ValidChoice g) :
    (∃ v, integerize_1d data (some c) methodology generator = .ok v ∧
        ∀ x ∈ v, 0 ≤ x) ∧
      (methodology = "largest_difference" →
        ∀ v, integerize_1d data (some c) methodology generator = .ok v →
          ∀ i < data.length, data.getD i 0 = 0 → v.getD i 0 = 0) := by
  obtain ⟨k, rfl, hk1⟩ := hcint
  have hda : (data.any fun x => decide (x < 0)) = false := by
    rw [List.any_eq_false]
    intro x hx
    simpa using not_lt.2 (hnn x hx)
  have hgen' : methodology = "weighted_random" → generator.isNone = false := by
    intro h
    rcases hgen h with ⟨g, hg, _⟩
    rw [hg]
    rfl
  have hcnn : ∀ cq, some ((k : ℤ) : ℚ) = some cq → ¬ cq < 0 := by
    intro cq hcq
    injection hcq with h2
    rw [← h2]
    push_neg
    exact_mod_cast by omega
  have hclosek : mathIsClose ((k : ℤ) : ℚ) ((k : ℤ) : ℚ) = true := by
    have h0 := mathIsClose_intCast k
    rwa [pyRound_intCast] at h0
  have hallz : (data.all fun x => decide (x = 0)) = false := by
    rw [← Bool.not_eq_true, List.all_eq_true]
    intro hall
    rcases hnz with ⟨x, hx, hxne⟩
    exact hxne (by simpa using hall x hx)
  have hpath : integerize_1d data (some ((k : ℤ) : ℚ)) methodology generator =
      integerize1dMain data k methodology generator := by
    rw [integerize_1d_checks _ _ _ _ hmeth hgen' hda,
      integerize1dResolved_eq _ _ _ _ hcnn]
    simp only [Option.getD_some, pyRound_intCast]
    rw [if_neg (not_not_intro hclosek), if_neg (by omega : ¬ k = 0),
      if_neg (by simp [hallz])]
  obtain ⟨v', hok', _, _, hnneg, hzero⟩ := integerize1dMain_spec data k methodology
    generator hnn hnz hk1 hmeth hgen
  constructor
  · exact ⟨v', by rw [hpath, hok'], hnneg⟩
  · intro hlgd v hok
    rw [hpath, hok'] at hok
    injection hok with hv
    subst hv
    exact hzero hlgd

/-- C5 witness: the spec's scenario `integerize_1d([0.3, 0.3, 0.4], 1)` with
`largest_difference` returns without the negative-entry error, non-negative,
and the (vacuously zero-valued) indices stay zero; applied at index level on
`[0, 0.3, 0.7]` where index 0 is zero-capacity. -/
theorem C5_witness :
    (∃ v, integerize_1d [(0 : ℚ), 3/10, 7/10] (some (((1 : ℤ)) : ℚ))
        "largest_difference" none = .ok v ∧ ∀ x ∈ v, 0 ≤ x) ∧
    (∀ v, integerize_1d [(0 : ℚ), 3/10, 7/10] (some (((1 : ℤ)) : ℚ))
        "largest_difference" none = .ok v →
      ∀ i < ([(0 : ℚ), 3/10, 7/10] : List ℚ).length,
        ([(0 : ℚ), 3/10, 7/10] : List ℚ).getD i 0 = 0 → v.getD i 0 = 0) := by
  have h := C5_no_negative_no_zero_capacity [(0 : ℚ), 3/10, 7/10] (((1 : ℤ)) : ℚ)
    "largest_difference" none
    (by intro x hx; fin_cases hx <;> norm_num)
    ⟨3/10, by norm_num, by norm_num⟩
    ⟨1, rfl, le_refl 1⟩
    (by decide)
    (fun hcon => absurd hcon (by decide))
  exact ⟨h.1, h.2 rfl⟩

/-- C7 counterexample: at `data = [2]`, `control = 0` — an input satisfying
the claim's hypotheses — `integerize_1d` executes `data.fill(0); return data`:
the caller's array is overwritten (its contents change from `[2]` to `[0]`)
and the returned object is the caller's own array, not a fresh one. -/
theorem C7_counterexample :
    integerize1dNdarrayEffect [(2 : ℚ)] (some 0) "largest_difference" none =
      .ok ([(0 : ℚ)], true) ∧ ¬ (([(0 : ℚ)], true).1 = [(2 : ℚ)] ∧
        ([(0 : ℚ)], true).2 = false) := by
  constructor
  · rw [integerize1dNdarrayEffect_checks _ _ _ _ (by decide)
      (fun h => absurd h (by decide))
      (by rw [List.any_eq_false]; intro x hx; fin_cases hx; simp),
      integerize1dResolvedNdarrayEffect_eq _ _ _ _
        (by intro cq hcq; injection hcq with h2; rw [← h2]; norm_num)]
    have hz : pyRound ((some (0 : ℚ)).getD ([(2 : ℚ)] : List ℚ).sum) = 0 := by
      simp only [Option.getD_some]
      have : ((0 : ℤ) : ℚ) = (0 : ℚ) := by norm_num
      rw [← this, pyRound_intCast]
    have hclose : mathIsClose ((some (0 : ℚ)).getD ([(2 : ℚ)] : List ℚ).sum)
        (pyRound ((some (0 : ℚ)).getD ([(2 : ℚ)] : List ℚ).sum)) = true := by
      rw [hz]
      simp [mathIsClose]
    rw [if_neg (not_not_intro hclose), if_pos hz]
    rfl
  · intro ⟨h1, _⟩
    have := congrArg (fun l => l.getD 0 0) h1
    norm_num at this

/-- C7 (amended): on the main path — control resolving to a non-zero integer
and data not entirely zero — `integerize_1d` leaves the caller's ndarray
unchanged and returns a fresh array (`aliased = false`); the `control == 0`
and all-zero-data branches instead mutate and return the caller's array. -/
theorem C7_main_path_pure (data : List ℚ) (control : Option ℚ)
    (methodology : String) (generator : Option GenChoice)
    (hnn : ∀ x ∈ data, 0 ≤ x) (hnz : ∃ x ∈ data, x ≠ 0)
    (hmeth : methodology ∈ allowedMethodology)
    (hgen : methodology = "weighted_random" →
      ∃ g, generator = some g ∧ ValidChoice g)
    (hint : ∃ k : ℤ, control.getD data.sum = (k : ℚ) ∧ 1 ≤ k) :
    integerize1dNdarrayEffect data control methodology generator =
      .ok (data, false) := by
  obtain ⟨k, hk, hk1⟩ := hint
  have hda : (data.any fun x => decide (x < 0)) = false := by
    rw [List.any_eq_false]
    intro x hx
    simpa using not_lt.2 (hnn x hx)
  have hgen' : methodology = "weighted_random" → generator.isNone = false := by
    intro h
    rcases hgen h with ⟨g, hg, _⟩
    rw [hg]
    rfl
  have hcnn : ∀ cq, control = some cq → ¬ cq < 0 := by
    intro cq hcq
    rw [hcq] at hk
    simp only [Option.getD_some] at hk
    rw [hk]
    push_neg
    exact_mod_cast by omega
  have hclosek : mathIsClose ((k : ℤ) : ℚ) ((k : ℤ) : ℚ) = true := by
    have h0 := mathIsClose_intCast k
    rwa [pyRound_intCast] at h0
  have hallz : (data.all fun x => decide (x = 0)) = false := by
    rw [← Bool.not_eq_true, List.all_eq_true]
    intro hall
    rcases hnz with ⟨x, hx, hxne⟩
    exact hxne (by simpa using hall x hx)
  rw [integerize1dNdarrayEffect_checks _ _ _ _ hmeth hgen' hda,
    integerize1dResolvedNdarrayEffect_eq _ _ _ _ hcnn, hk]
  simp only [pyRound_intCast]
  rw [if_neg (not_not_intro hclosek), if_neg (by omega : ¬ k = 0),
    if_neg (by simp [hallz])]
  obtain ⟨v', hok', _⟩ := integerize1dMain_spec data k methodology generator
    hnn hnz hk1 hmeth hgen
  rw [hok', except_bind_ok]
  rfl

/-- C7 witness: at `data = [1.5, 0.5]`, `control = 2` the call takes the main
path, the caller's array is unchanged and the result is not aliased. -/
theorem C7_witness :
    integerize1dNdarrayEffect [(3 : ℚ)/2, 1/2] (some 2) "largest_difference"
      none = .ok ([(3 : ℚ)/2, 1/2], false) :=
  C7_main_path_pure [(3 : ℚ)/2, 1/2] (some 2) "largest_difference" none
    (by intro x hx; fin_cases hx <;> norm_num)
    ⟨3/2, by simp, by norm_num⟩
    (by decide)
    (fun hcon => absurd hcon (by decide))
    ⟨2, by norm_num, by norm_num⟩

/-! ## `integerize_2d` (`src/python/utils.py:347-561`) -/

/-- `np.max` over a rational vector; numpy raises `ValueError` on an empty
array. -/
def npMax (l : List ℚ) : Except Err ℚ :=
  match l with
  | [] => .error (.valueError "zero-size array to reduction operation maximum")
  | x :: xs => .ok (xs.foldl max x)

/-- `np.max` over an integer vector. -/
def npMaxZ (l : List ℤ) : Except Err ℤ :=
  match l with
  | [] => .error (.valueError "zero-size array to reduction operation maximum")
  | x :: xs => .ok (xs.foldl max x)

/-- `np.min` over an integer vector. -/
def npMinZ (l : List ℤ) : Except Err ℤ :=
  match l with
  | [] => .error (.valueError "zero-size array to reduction operation minimum")
  | x :: xs => .ok (xs.foldl min x)

/-- Pointwise update of the matrix `array_2d[r][c] = v`. -/
def mset (A : ℕ → ℕ → ℤ) (r c : ℕ) (v : ℤ) : ℕ → ℕ → ℤ :=
  fun r' c' => if r' = r ∧ c' = c then v else A r' c'

/-- `np.sum(array_2d, axis=1)[r]`: the sum of row `r` over `n` columns. -/
def rowSum (A : ℕ → ℕ → ℤ) (n : ℕ) (r : ℕ) : ℤ :=
  ((List.range n).map (A r)).sum

/-- `np.sum(array_2d, axis=0)[c]`: the sum of column `c` over `m` rows. -/
def colSum (A : ℕ → ℕ → ℤ) (m : ℕ) (c : ℕ) : ℤ :=
  ((List.range m).map (fun r => A r c)).sum

/-- `deviations = np.sum(array_2d, axis=1) - row_ctrls`
(`src/python/utils.py:438`). -/
def deviationsOf (A : ℕ → ℕ → ℤ) (n : ℕ) (row_ctrls : List ℚ) : List ℚ :=
  (List.range row_ctrls.length).map
    (fun r => ((rowSum A n r : ℤ) : ℚ) - row_ctrls.getD r 0)

/-- The loop state of the correction phase of `integerize_2d`: the working
matrix, the per-column `adjustments` ledger, the relaxation switch
(`relax_skip_condition`), its neighborhood, and the most recently computed
`deviations`. -/
structure Int2dState where
  A : ℕ → ℕ → ℤ
  adjustments : List ℤ
  relax : Option String
  neighborhood : ℤ
  deviations : List ℚ

/-- One pass of the `for col in cols: ... cols.remove(col)` iteration of the
'Nearest Neighbors' skip condition (`src/python/utils.py:491-500`).  Python's
list iterator advances by position while `remove` shifts the remaining
elements left, so the element following a removed one is skipped; this is
replicated by advancing the position whether or not the current element is
removed. -/
def nnFilterGo (keep : ℕ → Bool) : ℕ → ℕ → List ℕ → List ℕ
  | 0, _, lst => lst
  | steps + 1, pos, lst =>
    if pos < lst.length then
      let col := lst.getD pos 0
      if keep col then nnFilterGo keep steps (pos + 1) lst
      else nnFilterGo keep steps (pos + 1) (lst.erase col)
    else lst

/-- The (position-skipping) filter of the 'Nearest Neighbors' tier. -/
def nnFilter (keep : ℕ → Bool) (lst : List ℕ) : List ℕ :=
  nnFilterGo keep lst.length 0 lst

/-- The body of `for row_idx ...: if deviations[row_idx] > 0` — rows with
positive deviation have their smallest positive column value decremented
(`src/python/utils.py:457-473`). -/
def plusStep (n : ℕ) (s : Int2dState) (r : ℕ) : Except Err Int2dState :=
  if s.deviations.getD r 0 > 0 then do
    -- Check for columns with available negative adjustments
    let cols := (List.range n).filter (fun c => decide (s.adjustments.getD c 0 < 0))
    -- If no columns available with negative adjustments
    -- or all values are 0 allow all columns to be adjusted
    let cols ←
      if cols.isEmpty then pure (List.range n)
      else do
        let mx ← npMaxZ (cols.map (fun c => s.A r c))
        pure (if mx = 0 then List.range n else cols)
    -- np.min over the positive entries of the row restricted to cols;
    -- numpy raises on an empty selection
    let min_value ← npMinZ ((cols.map (fun c => s.A r c)).filter
      (fun x => decide (0 < x)))
    -- col_idx = np.where(array_2d[row_idx] == min_value)[0][0]
    let col_idx ←
      match ((List.range n).filter (fun c => decide (s.A r c = min_value))).head? with
      | some c => pure c
      | none => Except.error (.indexError "index 0 is out of bounds")
    pure { s with
      A := mset s.A r col_idx (s.A r col_idx - 1),
      adjustments := s.adjustments.set col_idx
        (s.adjustments.getD col_idx 0 + 1) }
  else pure s

/-- The body of `for row_idx ...` for rows with negative deviation
(`src/python/utils.py:476-515`): restrict to columns with positive recorded
adjustments, apply the active skip condition, then increment the first
eligible column holding the maximum value. -/
def minusStep (n : ℕ) (s : Int2dState) (r : ℕ) : Except Err Int2dState := do
  -- Check for columns with available positive adjustments
  let mxadj ← npMaxZ s.adjustments
  if mxadj > 0 then
    if s.deviations.getD r 0 < 0 then
      let cols := (List.range n).filter (fun c => decide (0 < s.adjustments.getD c 0))
      let colsOpt ←
        match s.relax with
        | none => do
          -- Default skip condition: only allow columns with non-zero values
          let mx ← npMaxZ (cols.map (fun c => s.A r c))
          pure (if mx = 0 then none else some cols)
        | some relax =>
          if relax = "Nearest Neighbors" then
            -- allow columns if and only if any neighboring column is non-zero
            let keep : ℕ → Bool := fun col =>
              ((List.range n).filter (fun (c : ℕ) =>
                decide (max 0 ((col : ℤ) - s.neighborhood) ≤ (c : ℤ) ∧
                  (c : ℤ) < min (n : ℤ) ((col : ℤ) + s.neighborhood)))).any
                (fun c => decide (0 < s.A r c))
            let cols2 := nnFilter keep cols
            pure (if cols2.isEmpty then none else some cols2)
          else
            -- "Allow all Columns": allow all columns to be adjusted
            pure (some cols)
      match colsOpt with
      | none => pure s  -- continue
      | some cols => do
        -- Find first eligible column with maximum value
        let max_value ← npMaxZ (cols.map (fun c => s.A r c))
        let candidates := (List.range n).filter
          (fun c => decide (s.A r c = max_value))
        -- `for col_idx in np.where(row == max_value)[0]: if col_idx in cols: break`;
        -- when no candidate lies in `cols`, Python leaves `col_idx` at the last
        -- iterated value (unreachable: the maximum is attained inside `cols`)
        let col_idx :=
          match candidates.find? (fun c => decide (c ∈ cols)) with
          | some c => c
          | none => candidates.getLastD 0
        pure { s with
          A := mset s.A r col_idx (s.A r col_idx + 1),
          adjustments := s.adjustments.set col_idx
            (s.adjustments.getD col_idx 0 - 1) }
    else pure s
  else pure s

/-- Escalation of the skip-condition relaxation when a full pass made no
progress (`src/python/utils.py:517-548`). -/
def relaxEscalate (nearest_neighbors : List ℤ) (s : Int2dState) :
    Except Err Int2dState :=
  match s.relax with
  | none =>
    -- First time: relax to 'Nearest Neighbors' with the first neighborhood
    pure { s with relax := some "Nearest Neighbors",
                  neighborhood := nearest_neighbors.getD 0 0 }
  | some relax =>
    if relax = "Nearest Neighbors" then
      -- Move to the next larger neighborhood, else allow all columns
      match nearest_neighbors.find? (fun v => decide (s.neighborhood < v)) with
      | some v => pure { s with neighborhood := v }
      | none => pure { s with relax := some "Allow all Columns" }
    else
      .error (.valueError "No adjustments able to be made. Check marginal controls.")

/-- The `any_deviation` stopping condition (`src/python/utils.py:444-449`). -/
def anyDeviation (condition : String) (devs : List ℚ) : Except Err Bool := do
  if condition = "exact" then
    let mx ← npMax (devs.map (fun d => |d|))
    pure (mx > 0)
  else if condition = "less than" then
    let mx ← npMax devs
    pure (mx > 0)
  else
    .error (.valueError "condition must be one of ['exact', 'less than']")

/-- One iteration of the `while any_deviation` loop: the positive-deviation
pass, the negative-deviation pass, the no-progress relaxation escalation, and
the recomputation of deviations. -/
def integerize2dPass (m n : ℕ) (row_ctrls : List ℚ) (nearest_neighbors : List ℤ)
    (s : Int2dState) : Except Err Int2dState := do
  -- For rows with + deviation
  let s ← (List.range m).foldlM (plusStep n) s
  -- For rows with - deviation
  let s ← (List.range m).foldlM (minusStep n) s
  -- If no changes were made avoid infinite loop
  let newDevs := deviationsOf s.A n row_ctrls
  let s ← if s.deviations = newDevs then relaxEscalate nearest_neighbors s else pure s
  -- Recalculate the row deviations
  pure { s with deviations := deviationsOf s.A n row_ctrls }

/-- The `while any_deviation` loop of `integerize_2d`, fuel-indexed. -/
def integerize2dLoop (m n : ℕ) (row_ctrls : List ℚ) (nearest_neighbors : List ℤ)
    (condition : String) : ℕ → Int2dState → Except Err (ℕ → ℕ → ℤ)
  | fuel, s => do
    let b ← anyDeviation condition s.deviations
    if b then
      match fuel with
      | 0 => .error .outOfFuel
      | fuel' + 1 => do
        let s' ← integerize2dPass m n row_ctrls nearest_neighbors s
        integerize2dLoop m n row_ctrls nearest_neighbors condition fuel' s'
    else
      pure s.A

/-- `integerize_2d` (`src/python/utils.py:347-561`).  The input matrix is the
list of rows of the caller's 2-d float `np.ndarray` (the deep copy of the
source is the value semantics of the embedding); a 2-d ndarray is rectangular
and non-empty, checked up front in place of the `ndim` test.  Each column is
integerized against its column control by `integerize_1d`, then the
reallocation loop corrects row deviations; on termination the working matrix
is materialized row by row. -/
def integerize_2d (data : List (List ℚ)) (row_ctrls : List ℚ)
    (col_ctrls : List ℚ) (condition : String := "exact")
    (nearest_neighbors : Option (List ℤ) := none)
    (suppress_warnings : Bool := false) (fuel : ℕ := 1000000) :
    Except Err (List (List ℤ)) := do
  -- Ensure input arrays are of correct dimensions: a 2-d ndarray is a
  -- non-empty rectangular block (row_ctrls / col_ctrls are 1-d by type)
  if data.isEmpty then
    throw (.valueError "Input data array must be 2-dimensional")
  if ¬ (data.all (fun row => row.length = (data.headD []).length)) then
    throw (.valueError "Input data array must be 2-dimensional")
  -- Ensure marginal control dimensions match input data array
  if data.length ≠ row_ctrls.length then
    throw (.valueError "Row controls do not match input data array dimensions")
  if (data.headD []).length ≠ col_ctrls.length then
    throw (.valueError "Column controls do not match input data array dimensions")
  -- Ensure condition parameter is set properly
  if condition = "exact" then
    if row_ctrls.sum ≠ col_ctrls.sum then
      throw (.valueError "Marginal controls inconsistent for 'exact' match")
  else if condition = "less than" then
    if row_ctrls.sum < col_ctrls.sum then
      throw (.valueError "Marginal controls inconsistent for 'less than' match")
  else
    throw (.valueError "condition must be one of ['exact', 'less than']")
  -- Ensure nearest_neighbors parameter is set properly (a typed list of
  -- integers); default [1], then sorted ascending
  let nearest_neighbors := nearest_neighbors.getD [1]
  if nearest_neighbors.isEmpty then
    throw (.valueError "nearest_neighbors list must contain at least one value")
  let nearest_neighbors := nearest_neighbors.mergeSort (fun a b => decide (a ≤ b))
  -- Round columns of the input data array to match marginal controls
  let intcols ← (List.range (data.headD []).length).mapM (fun c =>
    integerize_1d (data.map (fun row => row.getD c 0)) (some (col_ctrls.getD c 0)))
  let A0 : ℕ → ℕ → ℤ := fun r c => (intcols.getD c []).getD r 0
  -- Calculate deviations from row marginal controls
  let devs := deviationsOf A0 (data.headD []).length row_ctrls
  -- Initialize tracker of column adjustments made
  let s : Int2dState :=
    ⟨A0, List.replicate col_ctrls.length 0, none, 0, devs⟩
  let Afin ← integerize2dLoop data.length (data.headD []).length row_ctrls
    nearest_neighbors condition fuel s
  pure ((List.range data.length).map
    (fun r => (List.range (data.headD []).length).map (Afin r)))

/-- Row sum of a materialized integer matrix. -/
def matRowSum (Mx : List (List ℤ)) (r : ℕ) : ℤ := (Mx.getD r []).sum

/-- Column sum of a materialized integer matrix. -/
def matColSum (Mx : List (List ℤ)) (c : ℕ) : ℤ :=
  (Mx.map (fun row => row.getD c 0)).sum

/-! ## Invariants of the 2-D correction loop -/

theorem foldlM_except_preserve {σ α : Type} (P : σ → Prop)
    (f : σ → α → Except Err σ) (l : List α)
    (hf : ∀ s x s', x ∈ l → P s → f s x = .ok s' → P s') :
    ∀ s s', P s → l.foldlM f s = .ok s' → P s' := by
  induction l with
  | nil =>
    intro s s' hP h
    simp only [List.foldlM_nil] at h
    injection h with h2
    rw [← h2]
    exact hP
  | cons a t ih =>
    intro s s' hP h
    rw [List.foldlM_cons] at h
    cases hfa : f s a with
    | error e =>
      rw [hfa, except_bind_error] at h
      exact absurd h (by simp)
    | ok s1 =>
      rw [hfa, except_bind_ok] at h
      exact ih (fun s x s' hx => hf s x s' (List.mem_cons_of_mem a hx))
        s1 s' (hf s a s1 (List.mem_cons_self a t) hP hfa) h

theorem mapM_except_forall2 {α β : Type} (f : α → Except Err β) :
    ∀ (l : List α) (res : List β), l.mapM f = .ok res →
      List.Forall₂ (fun a b => f a = .ok b) l res := by
  intro l
  induction l with
  | nil =>
    intro res h
    simp only [List.mapM_nil] at h
    injection h with h2
    rw [← h2]
    exact List.Forall₂.nil
  | cons a t ih =>
    intro res h
    rw [List.mapM_cons] at h
    cases hfa : f a with
    | error e =>
      rw [hfa, except_bind_error] at h
      exact absurd h (by simp)
    | ok b =>
      rw [hfa, except_bind_ok] at h
      cases hmt : t.mapM f with
      | error e =>
        rw [hmt, except_bind_error] at h
        exact absurd h (by simp)
      | ok bs =>
        rw [hmt, except_bind_ok] at h
        injection h with h2
        rw [← h2]
        exact List.Forall₂.cons hfa (ih bs hmt)

theorem mapM_range_ok {β : Type} (f : ℕ → Except Err β) (n : ℕ) (res : List β)
    (d : β) (h : (List.range n).mapM f = .ok res) :
    res.length = n ∧ ∀ i < n, f i = .ok (res.getD i d) := by
  have h2 := mapM_except_forall2 f (List.range n) res h
  have hlen : res.length = n := by
    rw [← h2.length_eq, List.length_range]
  refine ⟨hlen, ?_⟩
  intro i hi
  have hi1 : i < (List.range n).length := by rwa [List.length_range]
  have hi2 : i < res.length := by rwa [hlen]
  have := List.forall₂_iff_get.1 h2
  have hR := this.2 i hi1 hi2
  rw [List.get_eq_getElem, List.get_eq_getElem, List.getElem_range] at hR
  rwa [List.getD_eq_getElem res d hi2]

theorem foldl_max_spec {α : Type} [LinearOrder α] (x : α) (xs : List α) :
    (xs.foldl max x = x ∨ xs.foldl max x ∈ xs) ∧
      x ≤ xs.foldl max x ∧ ∀ y ∈ xs, y ≤ xs.foldl max x := by
  induction xs generalizing x with
  | nil => simp
  | cons a t ih =>
    rcases ih (max x a) with ⟨hmem, hle, hall⟩
    rw [List.foldl_cons]
    refine ⟨?_, ?_, ?_⟩
    · rcases hmem with heq | hmem
      · rcases max_choice x a with hm | hm
        · left; rw [heq, hm]
        · right; rw [heq, hm]; exact List.mem_cons_self a t
      · right; exact List.mem_cons_of_mem a hmem
    · exact le_trans (le_max_left x a) hle
    · intro y hy
      rcases List.mem_cons.1 hy with rfl | hy'
      · exact le_trans (le_max_right x y) hle
      · exact hall y hy'

theorem foldl_min_spec {α : Type} [LinearOrder α] (x : α) (xs : List α) :
    (xs.foldl min x = x ∨ xs.foldl min x ∈ xs) ∧
      xs.foldl min x ≤ x ∧ ∀ y ∈ xs, xs.foldl min x ≤ y := by
  induction xs generalizing x with
  | nil => simp
  | cons a t ih =>
    rcases ih (min x a) with ⟨hmem, hle, hall⟩
    rw [List.foldl_cons]
    refine ⟨?_, ?_, ?_⟩
    · rcases hmem with heq | hmem
      · rcases min_choice x a with hm | hm
        · left; rw [heq, hm]
        · right; rw [heq, hm]; exact List.mem_cons_self a t
      · right; exact List.mem_cons_of_mem a hmem
    · exact le_trans hle (min_le_left x a)
    · intro y hy
      rcases List.mem_cons.1 hy with rfl | hy'
      · exact le_trans hle (min_le_right x y)
      · exact hall y hy'

theorem npMaxZ_ok {l : List ℤ} {x : ℤ} (h : npMaxZ l = .ok x) :
    x ∈ l ∧ ∀ y ∈ l, y ≤ x := by
  cases l with
  | nil => exact absurd h (by simp [npMaxZ])
  | cons a t =>
    rw [npMaxZ] at h
    injection h with h2
    rw [← h2]
    rcases foldl_max_spec a t with ⟨hmem, hle, hall⟩
    constructor
    · rcases hmem with heq | hmem
      · rw [heq]; exact List.mem_cons_self a t
      · exact List.mem_cons_of_mem a hmem
    · intro y hy
      rcases List.mem_cons.1 hy with rfl | hy'
      · exact hle
      · exact hall y hy'

theorem npMax_ok {l : List ℚ} {x : ℚ} (h : npMax l = .ok x) :
    x ∈ l ∧ ∀ y ∈ l, y ≤ x := by
  cases l with
  | nil => exact absurd h (by simp [npMax])
  | cons a t =>
    rw [npMax] at h
    injection h with h2
    rw [← h2]
    rcases foldl_max_spec a t with ⟨hmem, hle, hall⟩
    constructor
    · rcases hmem with heq | hmem
      · rw [heq]; exact List.mem_cons_self a t
      · exact List.mem_cons_of_mem a hmem
    · intro y hy
      rcases List.mem_cons.1 hy with rfl | hy'
      · exact hle
      · exact hall y hy'

theorem list_range_map_sum {M : Type} [AddCommMonoid M] (n : ℕ) (f : ℕ → M) :
    ((List.range n).map f).sum = ∑ i ∈ Finset.range n, f i := by
  induction n with
  | zero => simp
  | succ k ih =>
    rw [List.range_succ, List.map_append, List.sum_append, Finset.sum_range_succ, ih]
    simp

theorem list_getD_range_sum {M : Type} [AddCommMonoid M] (l : List M) (d : M) :
    ((List.range l.length).map (fun i => l.getD i d)).sum = l.sum := by
  rw [range_map_getD]

theorem colSum_mset_same (A : ℕ → ℕ → ℤ) (m : ℕ) {r : ℕ} (hr : r < m)
    (c : ℕ) (v : ℤ) :
    colSum (mset A r c v) m c = colSum A m c + (v - A r c) := by
  rw [colSum, colSum, list_range_map_sum, list_range_map_sum]
  have hsplit : ∀ r', mset A r c v r' c =
      A r' c + (if r' = r then v - A r c else 0) := by
    intro r'
    rw [mset]
    by_cases h : r' = r
    · subst h; simp
    · simp [h]
  simp only [hsplit]
  rw [Finset.sum_add_distrib, Finset.sum_ite_eq' (Finset.range m) r
    (fun _ => v - A r c)]
  rw [if_pos (Finset.mem_range.2 hr)]

theorem colSum_mset_other (A : ℕ → ℕ → ℤ) (m : ℕ) (r c c' : ℕ) (h : c' ≠ c)
    (v : ℤ) : colSum (mset A r c v) m c' = colSum A m c' := by
  rw [colSum, colSum]
  congr 1
  apply List.map_congr_left
  intro r' _
  rw [mset, if_neg]
  intro ⟨_, hc⟩
  exact h hc

theorem nnFilterGo_subset (keep : ℕ → Bool) :
    ∀ (steps pos : ℕ) (lst : List ℕ), nnFilterGo keep steps pos lst ⊆ lst := by
  intro steps
  induction steps with
  | zero => intro pos lst x hx; exact hx
  | succ k ih =>
    intro pos lst x hx
    rw [nnFilterGo] at hx
    by_cases hlen : pos < lst.length
    · rw [if_pos hlen] at hx
      by_cases hkeep : keep (lst.getD pos 0) = true
      · rw [if_pos hkeep] at hx
        exact ih (pos + 1) lst hx
      · rw [if_neg hkeep] at hx
        exact (lst.erase_sublist _).subset (ih (pos + 1) _ hx)
    · rw [if_neg hlen] at hx
      exact hx

theorem nnFilter_subset (keep : ℕ → Bool) (lst : List ℕ) :
    nnFilter keep lst ⊆ lst := nnFilterGo_subset keep lst.length 0 lst

/-- The ledger invariant of the correction loop: on every column `c`, the
column sum of the working matrix plus the recorded adjustment equals the
column's integerized control `K c`, and adjustments never go negative. -/
def Inv2d (m n : ℕ) (K : ℕ → ℤ) (s : Int2dState) : Prop :=
  s.adjustments.length = n ∧
  (∀ c, 0 ≤ s.adjustments.getD c 0) ∧
  (∀ c, c < n → colSum s.A m c + s.adjustments.getD c 0 = K c)

theorem Inv2d_ext {m n : ℕ} {K : ℕ → ℤ} {s t : Int2dState}
    (hA : t.A = s.A) (hadj : t.adjustments = s.adjustments)
    (h : Inv2d m n K s) : Inv2d m n K t := by
  obtain ⟨h1, h2, h3⟩ := h
  refine ⟨by rw [hadj]; exact h1, fun c => by rw [hadj]; exact h2 c,
    fun c hc => by rw [hadj, hA]; exact h3 c hc⟩

theorem plusStep_ok_cases {n : ℕ} {s s' : Int2dState} {r : ℕ}
    (h : plusStep n s r = .ok s') :
    s' = s ∨ ∃ c, c < n ∧ s' = { s with
      A := mset s.A r c (s.A r c - 1),
      adjustments := s.adjustments.set c (s.adjustments.getD c 0 + 1) } := by
  rw [plusStep] at h
  by_cases hdev : s.deviations.getD r 0 > 0
  · rw [if_pos hdev] at h
    simp only [pure_bind] at h
    set cols0 := (List.range n).filter
      (fun c => decide (s.adjustments.getD c 0 < 0)) with hcols0
    by_cases hce : cols0.isEmpty
    · rw [if_pos hce] at h
      cases hmin : npMinZ (((List.range n).map (fun c => s.A r c)).filter
          (fun x => decide (0 < x))) with
      | error e =>
        rw [hmin, except_bind_error] at h
        exact absurd h (by simp)
      | ok mv =>
        rw [hmin, except_bind_ok] at h
        cases hh : ((List.range n).filter
            (fun c => decide (s.A r c = mv))).head? with
        | none =>
          rw [hh] at h
          exact Except.noConfusion h
        | some c =>
          rw [hh] at h
          injection h with h2
          have hcn : c < n := List.mem_range.1
            (List.mem_of_mem_filter (List.mem_of_mem_head? hh))
          exact Or.inr ⟨c, hcn, h2.symm⟩
    · rw [if_neg hce] at h
      cases hmx : npMaxZ (cols0.map (fun c => s.A r c)) with
      | error e =>
        rw [hmx, except_bind_error] at h
        exact absurd h (by simp)
      | ok mx =>
        rw [hmx, except_bind_ok] at h
        by_cases hmx0 : mx = 0
        · rw [if_pos hmx0] at h
          cases hmin : npMinZ (((List.range n).map (fun c => s.A r c)).filter
              (fun x => decide (0 < x))) with
          | error e =>
            rw [hmin, except_bind_error] at h
            exact absurd h (by simp)
          | ok mv =>
            rw [hmin, except_bind_ok] at h
            cases hh : ((List.range n).filter
                (fun c => decide (s.A r c = mv))).head? with
            | none =>
              rw [hh] at h
              exact Except.noConfusion h
            | some c =>
              rw [hh] at h
              injection h with h2
              have hcn : c < n := List.mem_range.1
                (List.mem_of_mem_filter (List.mem_of_mem_head? hh))
              exact Or.inr ⟨c, hcn, h2.symm⟩
        · rw [if_neg hmx0] at h
          cases hmin : npMinZ ((cols0.map (fun c => s.A r c)).filter
              (fun x => decide (0 < x))) with
          | error e =>
            rw [hmin, except_bind_error] at h
            exact absurd h (by simp)
          | ok mv =>
            rw [hmin, except_bind_ok] at h
            cases hh : ((List.range n).filter
                (fun c => decide (s.A r c = mv))).head? with
            | none =>
              rw [hh] at h
              exact Except.noConfusion h
            | some c =>
              rw [hh] at h
              injection h with h2
              have hcn : c < n := List.mem_range.1
                (List.mem_of_mem_filter (List.mem_of_mem_head? hh))
              exact Or.inr ⟨c, hcn, h2.symm⟩
  · rw [if_neg hdev] at h
    injection h with h2
    exact Or.inl h2.symm

theorem minus_find_exists {n : ℕ} (A : ℕ → ℕ → ℤ) (r : ℕ) (cs : List ℕ)
    (mv : ℤ) (hsub : cs ⊆ List.range n)
    (hmx : npMaxZ (cs.map (fun c => A r c)) = .ok mv) :
    ∃ c, ((List.range n).filter (fun c => decide (A r c = mv))).find?
        (fun c => decide (c ∈ cs)) = some c ∧ c ∈ cs := by
  rcases npMaxZ_ok hmx with ⟨hmem, -⟩
  rcases List.mem_map.1 hmem with ⟨c0, hc0, hA0⟩
  have hc0cand : c0 ∈ (List.range n).filter (fun c => decide (A r c = mv)) :=
    List.mem_filter.2 ⟨hsub hc0, by simp [hA0]⟩
  cases hf : ((List.range n).filter (fun c => decide (A r c = mv))).find?
      (fun c => decide (c ∈ cs)) with
  | none =>
    have := List.find?_eq_none.1 hf c0 hc0cand
    simp [hc0] at this
  | some c =>
    refine ⟨c, rfl, ?_⟩
    have := List.find?_some hf
    simpa using this

theorem minusStep_ok_cases {n : ℕ} {s s' : Int2dState} {r : ℕ}
    (h : minusStep n s r = .ok s') :
    s' = s ∨ ∃ c, c < n ∧ 0 < s.adjustments.getD c 0 ∧ s' = { s with
      A := mset s.A r c (s.A r c + 1),
      adjustments := s.adjustments.set c (s.adjustments.getD c 0 - 1) } := by
  rw [minusStep] at h
  cases hma : npMaxZ s.adjustments with
  | error e =>
    rw [hma, except_bind_error] at h
    exact absurd h (by simp)
  | ok mxadj =>
    rw [hma, except_bind_ok] at h
    by_cases hm0 : mxadj > 0
    · rw [if_pos hm0] at h
      by_cases hdv : s.deviations.getD r 0 < 0
      · rw [if_pos hdv] at h
        simp only [pure_bind] at h
        split at h
        · -- s.relax = none: the default skip condition
          cases hmxc : npMaxZ (((List.range n).filter
              (fun c => decide (0 < s.adjustments.getD c 0))).map
              (fun c => s.A r c)) with
          | error e =>
            rw [hmxc, except_bind_error] at h
            exact absurd h (by simp)
          | ok mx =>
            rw [hmxc, except_bind_ok] at h
            split at h
            · injection h with h2
              exact Or.inl h2.symm
            · rename_i cs heq
              by_cases hmx0 : mx = 0
              · rw [if_pos hmx0] at heq
                exact absurd heq (by simp)
              · rw [if_neg hmx0] at heq
                injection heq with heq2
                subst heq2
                cases hmv : npMaxZ ((((List.range n).filter
                    (fun c => decide (0 < s.adjustments.getD c 0)))).map
                    (fun c => s.A r c)) with
                | error e =>
                  rw [hmv, except_bind_error] at h
                  exact absurd h (by simp)
                | ok mv =>
                  rw [hmv, except_bind_ok] at h
                  injection h with h2
                  have hsubr : ((List.range n).filter
                      (fun c => decide (0 < s.adjustments.getD c 0))) ⊆
                      List.range n := fun x hx => List.mem_of_mem_filter hx
                  rcases minus_find_exists s.A r _ mv hsubr hmv with ⟨c, hfc, hccs⟩
                  rw [hfc] at h2
                  have hcn : c < n := List.mem_range.1 (List.mem_of_mem_filter hccs)
                  have hcpos : 0 < s.adjustments.getD c 0 := by
                    simpa using (List.mem_filter.1 hccs).2
                  exact Or.inr ⟨c, hcn, hcpos, h2.symm⟩
        · -- s.relax = some relax
          split at h
          · -- relax = "Nearest Neighbors"
            split at h
            · injection h with h2
              exact Or.inl h2.symm
            · rename_i cs heq
              by_cases hne : (nnFilter (fun col =>
                  ((List.range n).filter (fun (c : ℕ) =>
                    decide (max 0 ((col : ℤ) - s.neighborhood) ≤ (c : ℤ) ∧
                      (c : ℤ) < min (n : ℤ) ((col : ℤ) + s.neighborhood)))).any
                    (fun c => decide (0 < s.A r c)))
                  ((List.range n).filter
                    (fun c => decide (0 < s.adjustments.getD c 0)))).isEmpty
              · rw [if_pos hne] at heq
                exact absurd heq (by simp)
              · rw [if_neg hne] at heq
                injection heq with heq2
                subst heq2
                cases hmv : npMaxZ ((nnFilter (fun col =>
                    ((List.range n).filter (fun (c : ℕ) =>
                      decide (max 0 ((col : ℤ) - s.neighborhood) ≤ (c : ℤ) ∧
                        (c : ℤ) < min (n : ℤ) ((col : ℤ) + s.neighborhood)))).any
                      (fun c => decide (0 < s.A r c)))
                    ((List.range n).filter
                      (fun c => decide (0 < s.adjustments.getD c 0)))).map
                    (fun c => s.A r c)) with
                | error e =>
                  rw [hmv, except_bind_error] at h
                  exact absurd h (by simp)
                | ok mv =>
                  rw [hmv, except_bind_ok] at h
                  injection h with h2
                  have hsubf := nnFilter_subset (fun col =>
                    ((List.range n).filter (fun (c : ℕ) =>
                      decide (max 0 ((col : ℤ) - s.neighborhood) ≤ (c : ℤ) ∧
                        (c : ℤ) < min (n : ℤ) ((col : ℤ) + s.neighborhood)))).any
                      (fun c => decide (0 < s.A r c)))
                    ((List.range n).filter
                      (fun c => decide (0 < s.adjustments.getD c 0)))
                  have hsubr : (nnFilter (fun col =>
                      ((List.range n).filter (fun (c : ℕ) =>
                        decide (max 0 ((col : ℤ) - s.neighborhood) ≤ (c : ℤ) ∧
                          (c : ℤ) < min (n : ℤ) ((col : ℤ) + s.neighborhood)))).any
                        (fun c => decide (0 < s.A r c)))
                      ((List.range n).filter
                        (fun c => decide (0 < s.adjustments.getD c 0)))) ⊆
                      List.range n :=
                    fun x hx => List.mem_of_mem_filter (hsubf hx)
                  rcases minus_find_exists s.A r _ mv hsubr hmv with ⟨c, hfc, hccs⟩
                  rw [hfc] at h2
                  have hcf := hsubf hccs
                  have hcn : c < n := List.mem_range.1 (List.mem_of_mem_filter hcf)
                  have hcpos : 0 < s.adjustments.getD c 0 := by
                    simpa using (List.mem_filter.1 hcf).2
                  exact Or.inr ⟨c, hcn, hcpos, h2.symm⟩
          · -- "Allow all Columns": cols is used as-is
            cases hmv : npMaxZ ((((List.range n).filter
                (fun c => decide (0 < s.adjustments.getD c 0)))).map
                (fun c => s.A r c)) with
            | error e =>
              rw [hmv, except_bind_error] at h
              exact absurd h (by simp)
            | ok mv =>
              rw [hmv, except_bind_ok] at h
              injection h with h2
              have hsubr : ((List.range n).filter
                  (fun c => decide (0 < s.adjustments.getD c 0))) ⊆
                  List.range n := fun x hx => List.mem_of_mem_filter hx
              rcases minus_find_exists s.A r _ mv hsubr hmv with ⟨c, hfc, hccs⟩
              rw [hfc] at h2
              have hcn : c < n := List.mem_range.1 (List.mem_of_mem_filter hccs)
              have hcpos : 0 < s.adjustments.getD c 0 := by
                simpa using (List.mem_filter.1 hccs).2
              exact Or.inr ⟨c, hcn, hcpos, h2.symm⟩
      · rw [if_neg hdv] at h
        injection h with h2
        exact Or.inl h2.symm
    · rw [if_neg hm0] at h
      injection h with h2
      exact Or.inl h2.symm

theorem adj_set_getD (adj : List ℤ) (c c' : ℕ) (v : ℤ) (hc : c < adj.length) :
    (adj.set c v).getD c' 0 = if c = c' then v else adj.getD c' 0 := by
  by_cases hc' : c' < adj.length
  · exact list_getD_set adj c c' v hc'
  · have hlen : (adj.set c v).length ≤ c' := by
      rw [List.length_set]; omega
    rw [List.getD_eq_default _ _ hlen, List.getD_eq_default _ _ (by omega),
      if_neg (by omega)]

theorem plusStep_inv {m n : ℕ} {K : ℕ → ℤ} {s s' : Int2dState} {r : ℕ}
    (hr : r < m) (hInv : Inv2d m n K s) (h : plusStep n s r = .ok s') :
    Inv2d m n K s' := by
  rcases plusStep_ok_cases h with rfl | ⟨c, hc, rfl⟩
  · exact hInv
  · obtain ⟨hlen, hnn, hcol⟩ := hInv
    have hcl : c < s.adjustments.length := by rw [hlen]; exact hc
    refine ⟨by simpa [List.length_set] using hlen, ?_, ?_⟩
    · intro c'
      rw [adj_set_getD _ _ _ _ hcl]
      by_cases he : c = c'
      · rw [if_pos he]
        have := hnn c
        omega
      · rw [if_neg he]
        exact hnn c'
    · intro c' hc'n
      rw [adj_set_getD _ _ _ _ hcl]
      by_cases he : c' = c
      · subst he
        rw [colSum_mset_same s.A m hr c' (s.A r c' - 1), if_pos rfl]
        have := hcol c' hc'n
        omega
      · rw [colSum_mset_other s.A m r c c' he, if_neg (fun hh => he hh.symm)]
        exact hcol c' hc'n

theorem minusStep_inv {m n : ℕ} {K : ℕ → ℤ} {s s' : Int2dState} {r : ℕ}
    (hr : r < m) (hInv : Inv2d m n K s) (h : minusStep n s r = .ok s') :
    Inv2d m n K s' := by
  rcases minusStep_ok_cases h with rfl | ⟨c, hc, hpos, rfl⟩
  · exact hInv
  · obtain ⟨hlen, hnn, hcol⟩ := hInv
    have hcl : c < s.adjustments.length := by rw [hlen]; exact hc
    refine ⟨by simpa [List.length_set] using hlen, ?_, ?_⟩
    · intro c'
      rw [adj_set_getD _ _ _ _ hcl]
      by_cases he : c = c'
      · rw [if_pos he]
        omega
      · rw [if_neg he]
        exact hnn c'
    · intro c' hc'n
      rw [adj_set_getD _ _ _ _ hcl]
      by_cases he : c' = c
      · subst he
        rw [colSum_mset_same s.A m hr c' (s.A r c' + 1), if_pos rfl]
        have := hcol c' hc'n
        omega
      · rw [colSum_mset_other s.A m r c c' he, if_neg (fun hh => he hh.symm)]
        exact hcol c' hc'n

theorem relaxEscalate_fields {nn : List ℤ} {s s' : Int2dState}
    (h : relaxEscalate nn s = .ok s') :
    s'.A = s.A ∧ s'.adjustments = s.adjustments ∧
      s'.deviations = s.deviations := by
  rw [relaxEscalate] at h
  split at h
  · injection h with h2
    rw [← h2]
    exact ⟨rfl, rfl, rfl⟩
  · split at h
    · split at h
      · injection h with h2
        rw [← h2]
        exact ⟨rfl, rfl, rfl⟩
      · injection h with h2
        rw [← h2]
        exact ⟨rfl, rfl, rfl⟩
    · exact Except.noConfusion h

theorem integerize2dPass_inv {m n : ℕ} {K : ℕ → ℤ} {rc : List ℚ}
    {nn : List ℤ} {s s' : Int2dState}
    (hInv : Inv2d m n K s)
    (h : integerize2dPass m n rc nn s = .ok s') :
    Inv2d m n K s' ∧ s'.deviations = deviationsOf s'.A n rc := by
  rw [integerize2dPass] at h
  cases h1 : (List.range m).foldlM (plusStep n) s with
  | error e =>
    rw [h1, except_bind_error] at h
    exact absurd h (by simp)
  | ok s1 =>
    rw [h1, except_bind_ok] at h
    have hI1 : Inv2d m n K s1 :=
      foldlM_except_preserve (Inv2d m n K) (plusStep n) (List.range m)
        (fun t x t' hx hP hf =>
          plusStep_inv (List.mem_range.1 hx) hP hf) s s1 hInv h1
    cases h2 : (List.range m).foldlM (minusStep n) s1 with
    | error e =>
      rw [h2, except_bind_error] at h
      exact absurd h (by simp)
    | ok s2 =>
      rw [h2, except_bind_ok] at h
      have hI2 : Inv2d m n K s2 :=
        foldlM_except_preserve (Inv2d m n K) (minusStep n) (List.range m)
          (fun t x t' hx hP hf =>
            minusStep_inv (List.mem_range.1 hx) hP hf) s1 s2 hI1 h2
      by_cases heq : s2.deviations = deviationsOf s2.A n rc
      · rw [if_pos heq] at h
        cases h3 : relaxEscalate nn s2 with
        | error e =>
          rw [h3, except_bind_error] at h
          exact absurd h (by simp)
        | ok s3 =>
          rw [h3, except_bind_ok] at h
          injection h with h4
          obtain ⟨hA3, hadj3, _⟩ := relaxEscalate_fields h3
          rw [← h4]
          refine ⟨Inv2d_ext (t := { s3 with
            deviations := deviationsOf s3.A n rc }) hA3 hadj3 hI2, ?_⟩
          rfl
      · rw [if_neg heq] at h
        simp only [pure_bind] at h
        injection h with h4
        rw [← h4]
        exact ⟨Inv2d_ext rfl rfl hI2, rfl⟩

theorem deviationsOf_length (A : ℕ → ℕ → ℤ) (n : ℕ) (rc : List ℚ) :
    (deviationsOf A n rc).length = rc.length := by
  rw [deviationsOf, List.length_map, List.length_range]

theorem integerize2d_exit {m n : ℕ} {K : ℕ → ℤ} {rc cc : List ℚ}
    {s : Int2dState}
    (hm : m = rc.length) (hn : n = cc.length)
    (hK : ∀ c, c < n → ((K c : ℤ) : ℚ) = cc.getD c 0)
    (hsum : rc.sum = cc.sum)
    (hInv : Inv2d m n K s)
    (hdev : s.deviations = deviationsOf s.A n rc)
    (hstop : anyDeviation "exact" s.deviations = .ok false) :
    (∀ r, r < m → ((rowSum s.A n r : ℤ) : ℚ) = rc.getD r 0) ∧
    (∀ c, c < n → ((colSum s.A m c : ℤ) : ℚ) = cc.getD c 0) := by
  rw [anyDeviation] at hstop
  rw [if_pos rfl] at hstop
  cases hmx : npMax (s.deviations.map (fun d => |d|)) with
  | error e =>
    rw [hmx, except_bind_error] at hstop
    exact absurd hstop (by simp)
  | ok mx =>
    rw [hmx, except_bind_ok] at hstop
    injection hstop with hd
    have hmx0 : mx ≤ 0 := by
      by_contra hgt
      push_neg at hgt
      rw [decide_eq_false_iff_not] at hd
      exact hd hgt
    rcases npMax_ok hmx with ⟨-, hall⟩
    have hzero : ∀ d ∈ s.deviations, d = 0 := by
      intro d hdmem
      have h1 : |d| ≤ mx := hall _ (List.mem_map_of_mem _ hdmem)
      have h2 : |d| ≤ 0 := le_trans h1 hmx0
      exact abs_eq_zero.1 (le_antisymm h2 (abs_nonneg d))
    have hrow : ∀ r, r < m → ((rowSum s.A n r : ℤ) : ℚ) = rc.getD r 0 := by
      intro r hr
      have hrlen : r < rc.length := by rw [← hm]; exact hr
      have hdr : s.deviations.getD r 0 =
          ((rowSum s.A n r : ℤ) : ℚ) - rc.getD r 0 := by
        rw [hdev, deviationsOf, getD_map_range rc.length _ hrlen]
      have hmem : s.deviations.getD r 0 ∈ s.deviations := by
        apply list_getD_mem
        rw [hdev, deviationsOf_length]
        exact hrlen
      have := hzero _ hmem
      rw [hdr] at this
      linarith
    refine ⟨hrow, ?_⟩
    -- total mass: sum of all column sums equals sum of all row sums
    have hdouble : ∑ c ∈ Finset.range n, colSum s.A m c =
        ∑ r ∈ Finset.range m, rowSum s.A n r := by
      simp only [colSum, rowSum, list_range_map_sum]
      rw [Finset.sum_comm]
    have hrowtot : ((∑ r ∈ Finset.range m, rowSum s.A n r : ℤ) : ℚ) = rc.sum := by
      push_cast
      rw [Finset.sum_congr rfl (fun r hr => hrow r (Finset.mem_range.1 hr))]
      rw [hm, ← list_range_map_sum, range_map_getD]
    have hcctot : cc.sum = ∑ c ∈ Finset.range n, ((K c : ℤ) : ℚ) := by
      rw [Finset.sum_congr rfl (fun c hc => hK c (Finset.mem_range.1 hc))]
      rw [hn, ← list_range_map_sum, range_map_getD]
    have hQ : ∑ c ∈ Finset.range n, ((K c - colSum s.A m c : ℤ) : ℚ) = 0 := by
      push_cast
      rw [Finset.sum_sub_distrib]
      have h1 : ∑ c ∈ Finset.range n, ((colSum s.A m c : ℤ) : ℚ) = rc.sum := by
        rw [← hrowtot]
        push_cast
        exact_mod_cast congrArg (fun z => ((z : ℤ) : ℚ)) hdouble
      have h2 : ∑ c ∈ Finset.range n, ((K c : ℤ) : ℚ) = cc.sum := hcctot.symm
      rw [h1, h2, hsum]
      ring
    have hZ : ∑ c ∈ Finset.range n, (K c - colSum s.A m c) = 0 := by
      exact_mod_cast hQ
    obtain ⟨hlen, hnn, hcol⟩ := hInv
    have hsummands : ∀ c ∈ Finset.range n,
        K c - colSum s.A m c = s.adjustments.getD c 0 := by
      intro c hc
      have := hcol c (Finset.mem_range.1 hc)
      omega
    rw [Finset.sum_congr rfl hsummands] at hZ
    have hadj0 : ∀ c ∈ Finset.range n, s.adjustments.getD c 0 = 0 :=
      (Finset.sum_eq_zero_iff_of_nonneg (fun c _ => hnn c)).1 hZ
    intro c hc
    have h1 := hcol c hc
    have h2 := hadj0 c (Finset.mem_range.2 hc)
    have h3 : colSum s.A m c = K c := by omega
    rw [h3]
    exact hK c hc

theorem integerize2dLoop_exact_ok {m n : ℕ} {K : ℕ → ℤ} {rc cc : List ℚ}
    {nn : List ℤ} {fuel : ℕ} {s : Int2dState} {Afin : ℕ → ℕ → ℤ}
    (hm : m = rc.length) (hn : n = cc.length)
    (hK : ∀ c, c < n → ((K c : ℤ) : ℚ) = cc.getD c 0)
    (hsum : rc.sum = cc.sum)
    (hInv : Inv2d m n K s)
    (hdev : s.deviations = deviationsOf s.A n rc)
    (h : integerize2dLoop m n rc nn "exact" fuel s = .ok Afin) :
    (∀ r, r < m → ((rowSum Afin n r : ℤ) : ℚ) = rc.getD r 0) ∧
    (∀ c, c < n → ((colSum Afin m c : ℤ) : ℚ) = cc.getD c 0) := by
  induction fuel generalizing s with
  | zero =>
    rw [integerize2dLoop] at h
    cases hb : anyDeviation "exact" s.deviations with
    | error e =>
      rw [hb, except_bind_error] at h
      exact absurd h (by simp)
    | ok b =>
      rw [hb, except_bind_ok] at h
      cases b with
      | true => exact absurd h (by simp)
      | false =>
        injection h with h2
        rw [← h2]
        exact integerize2d_exit hm hn hK hsum hInv hdev hb
  | succ fuel' ih =>
    rw [integerize2dLoop] at h
    cases hb : anyDeviation "exact" s.deviations with
    | error e =>
      rw [hb, except_bind_error] at h
      exact absurd h (by simp)
    | ok b =>
      rw [hb, except_bind_ok] at h
      cases b with
      | true =>
        simp only [if_true] at h
        cases hp : integerize2dPass m n rc nn s with
        | error e =>
          rw [hp, except_bind_error] at h
          exact absurd h (by simp)
        | ok s1 =>
          rw [hp, except_bind_ok] at h
          rcases integerize2dPass_inv hInv hp with ⟨hI1, hd1⟩
          exact ih hI1 hd1 h
      | false =>
        injection h with h2
        rw [← h2]
        exact integerize2d_exit hm hn hK hsum hInv hdev hb

theorem replicate_getD_zero (k c : ℕ) :
    (List.replicate k (0 : ℤ)).getD c 0 = 0 := by
  by_cases hc : c < k
  · rw [List.getD_eq_getElem _ _ (by simpa using hc), List.getElem_replicate]
  · rw [List.getD_eq_default _ _ (by simpa using not_lt.1 hc)]

theorem integerize_1d_singleton (a c : ℚ) (ha : 0 < a) (hc : 0 ≤ c)
    (hclose : mathIsClose c (pyRound c) = true) :
    integerize_1d [a] (some c) "largest_difference" none = .ok [pyRound c] := by
  obtain ⟨v, hok, hlen, hsum, -⟩ := integerize_1d_spec [a] (some c)
    "largest_difference" none
    (by intro x hx; rw [List.mem_singleton.1 hx]; exact le_of_lt ha)
    (by decide) (fun h => absurd h (by decide))
    (fun cq hcq => by injection hcq with h2; rw [← h2]; exact hc)
    (by rw [Option.getD_some]; exact hclose)
    (fun hall _ => absurd (hall a (List.mem_singleton_self a)) (ne_of_gt ha))
  rw [List.length_singleton] at hlen
  rcases List.length_eq_one.1 hlen with ⟨x, rfl⟩
  rw [List.sum_singleton, Option.getD_some] at hsum
  rw [hok, hsum]

theorem initial_Inv2d (m n N : ℕ) (K : ℕ → ℤ) (intcols : List (List ℤ))
    (devs : List ℚ) (hN : N = n)
    (hlen : ∀ c, c < n → (intcols.getD c []).length = m)
    (hsum : ∀ c, c < n → (intcols.getD c []).sum = K c) :
    Inv2d m n K ⟨fun r c => (intcols.getD c []).getD r 0,
      List.replicate N 0, none, 0, devs⟩ := by
  refine ⟨by simpa [List.length_replicate] using hN,
    fun c => by rw [replicate_getD_zero], ?_⟩
  intro c hc
  show colSum _ m c + (List.replicate N (0 : ℤ)).getD c 0 = K c
  rw [replicate_getD_zero, add_zero]
  have hc2 := hlen c hc
  have hcs : colSum (fun r c => (intcols.getD c []).getD r 0) m c =
      (intcols.getD c []).sum := by
    simp only [colSum]
    rw [← hc2]
    exact list_getD_range_sum _ 0
  rw [hcs]
  exact hsum c hc

/-- C1 (amended): for every call to `integerize_2d` in 'exact' mode whose
column controls are integer-valued, a normal return satisfies both marginal
invariants: each row of the result sums to its row control and each column
sums to its column control.  (The integrality proviso on the column controls
is necessary: see the counterexample.) -/
theorem C1_integerize_2d_marginals (data : List (List ℚ)) (rc cc : List ℚ)
    (nnopt : Option (List ℤ)) (sw : Bool) (fuel : ℕ) (Mx : List (List ℤ))
    (hint : ∀ q ∈ cc, ∃ k : ℤ, q = (k : ℚ))
    (hok : integerize_2d data rc cc "exact" nnopt sw fuel = .ok Mx) :
    (∀ r, r < rc.length → ((matRowSum Mx r : ℤ) : ℚ) = rc.getD r 0) ∧
    (∀ c, c < cc.length → ((matColSum Mx c : ℤ) : ℚ) = cc.getD c 0) := by
  rw [integerize_2d] at hok
  simp only [pure_bind, except_throw, except_bind_error, String.reduceEq,
    reduceIte] at hok
  by_cases h1 : data.isEmpty = true
  · rw [if_pos h1] at hok
    exact absurd hok (by simp)
  rw [if_neg h1] at hok
  by_cases h2 : (data.all fun row =>
      decide (row.length = (data.headD []).length)) = true
  · rw [if_neg (not_not_intro h2)] at hok
    by_cases h3 : data.length = rc.length
    · rw [if_neg (not_not_intro h3)] at hok
      by_cases h4 : (data.headD []).length = cc.length
      · rw [if_neg (not_not_intro h4)] at hok
        by_cases h5 : rc.sum = cc.sum
        · rw [if_neg (not_not_intro h5)] at hok
          by_cases h6 : (nnopt.getD [1]).isEmpty = true
          · rw [if_pos h6] at hok
            exact absurd hok (by simp)
          · rw [if_neg h6] at hok
            cases hmap : (List.range (data.headD []).length).mapM
                (fun c => integerize_1d (data.map (fun row => row.getD c 0))
                  (some (cc.getD c 0))) with
            | error e =>
              rw [hmap, except_bind_error] at hok
              exact absurd hok (by simp)
            | ok intcols =>
              rw [hmap, except_bind_ok] at hok
              cases hloop : integerize2dLoop data.length
                  (data.headD []).length rc
                  ((nnopt.getD [1]).mergeSort fun a b => decide (a ≤ b))
                  "exact" fuel
                  ⟨fun r c => (intcols.getD c []).getD r 0,
                    List.replicate cc.length 0, none, 0,
                    deviationsOf (fun r c => (intcols.getD c []).getD r 0)
                      (data.headD []).length rc⟩ with
              | error e =>
                rw [hloop, except_bind_error] at hok
                exact absurd hok (by simp)
              | ok Afin =>
                rw [hloop, except_bind_ok] at hok
                injection hok with hMx
                obtain ⟨hicl, hicall⟩ := mapM_range_ok
                  (fun c => integerize_1d (data.map (fun row => row.getD c 0))
                    (some (cc.getD c 0))) (data.headD []).length intcols []
                  hmap
                have hcollen : ∀ c, c < (data.headD []).length →
                    (intcols.getD c []).length = data.length := by
                  intro c hc
                  obtain ⟨hl, -, -⟩ :=
                    integerize_1d_ok_inv _ _ _ (hicall c hc)
                  rw [hl, List.length_map]
                have hcolsum : ∀ c, c < (data.headD []).length →
                    (intcols.getD c []).sum =
                      (fun c => pyRound (cc.getD c 0)) c := by
                  intro c hc
                  obtain ⟨-, hs, -⟩ :=
                    integerize_1d_ok_inv _ _ _ (hicall c hc)
                  rw [hs, Option.getD_some]
                have hK : ∀ c, c < (data.headD []).length →
                    (((fun c => pyRound (cc.getD c 0)) c : ℤ) : ℚ) =
                      cc.getD c 0 := by
                  intro c hc
                  have hcc : c < cc.length := h4 ▸ hc
                  rcases hint _ (list_getD_mem cc hcc 0) with ⟨k, hk⟩
                  show ((pyRound (cc.getD c 0) : ℤ) : ℚ) = cc.getD c 0
                  rw [hk, pyRound_intCast]
                have hInv := initial_Inv2d data.length (data.headD []).length
                  cc.length (fun c => pyRound (cc.getD c 0)) intcols
                  (deviationsOf (fun r c => (intcols.getD c []).getD r 0)
                    (data.headD []).length rc)
                  h4.symm hcollen hcolsum
                obtain ⟨hrowA, hcolA⟩ := integerize2dLoop_exact_ok h3
                  h4 hK h5 hInv rfl hloop
                constructor
                · intro r hr
                  have hrm : r < data.length := by rw [h3]; exact hr
                  rw [← hMx, matRowSum, getD_map_range data.length _ hrm]
                  exact hrowA r hrm
                · intro c hc
                  have hcn : c < (data.headD []).length := by
                    rw [h4]; exact hc
                  rw [← hMx, matColSum, List.map_map]
                  have hmc : ((List.range data.length).map
                      ((fun row => row.getD c 0) ∘
                        (fun r => (List.range (data.headD []).length).map
                          (Afin r)))) =
                      (List.range data.length).map (fun r => Afin r c) := by
                    apply List.map_congr_left
                    intro r _
                    simp only [Function.comp]
                    rw [getD_map_range _ _ hcn]
                  rw [hmc]
                  exact hcolA c hcn
        · rw [if_pos h5] at hok
          exact absurd hok (by simp)
      · rw [if_pos h4] at hok
        exact absurd hok (by simp)
    · rw [if_pos h3] at hok
      exact absurd hok (by simp)
  · rw [if_pos (by simpa using h2)] at hok
    exact absurd hok (by simp)

theorem integerize2dLoop_exit (m n : ℕ) (rc : List ℚ) (nnl : List ℤ)
    (cond : String) (fuel : ℕ) (s : Int2dState)
    (h : anyDeviation cond s.deviations = .ok false) :
    integerize2dLoop m n rc nnl cond fuel s = .ok s.A := by
  cases fuel with
  | zero =>
    rw [integerize2dLoop, h, except_bind_ok]
    rfl
  | succ f =>
    rw [integerize2dLoop, h, except_bind_ok]
    rfl

theorem pyRound_two : pyRound (2 : ℚ) = 2 := by
  have h : ((2 : ℤ) : ℚ) = (2 : ℚ) := by norm_num
  rw [← h, pyRound_intCast]

theorem mathIsClose_two : mathIsClose (2 : ℚ) (pyRound (2 : ℚ)) = true := by
  rw [pyRound_two, mathIsClose, decide_eq_true_iff]
  norm_num

theorem anyDeviation_zero : anyDeviation "exact" [(0 : ℚ)] = .ok false := by
  rw [anyDeviation, if_pos rfl]
  rw [show ([(0 : ℚ)].map (fun d => |d|)) = [0] by simp]
  rw [show npMax [(0 : ℚ)] = .ok 0 from rfl, except_bind_ok]
  rw [decide_eq_false (by norm_num : ¬((0 : ℚ) > 0))]
  rfl

/-- A concrete full run: `integerize_2d([[2.0]], [2], [2])` returns `[[2]]`. -/
theorem integerize_2d_two :
    integerize_2d [[(2 : ℚ)]] [(2 : ℚ)] [(2 : ℚ)] "exact" none false 0 =
      .ok [[(2 : ℤ)]] := by
  have hI1 : integerize_1d [(2 : ℚ)] (some (2 : ℚ)) "largest_difference" none =
      .ok [(2 : ℤ)] := by
    have := integerize_1d_singleton 2 2 (by norm_num) (by norm_num)
      mathIsClose_two
    rwa [pyRound_two] at this
  have hrs : rowSum (fun r c =>
      (([[(2 : ℤ)]] : List (List ℤ)).getD c []).getD r 0) 1 0 = 2 := by
    rw [rowSum, show List.range 1 = [0] from by simp [List.range_succ]]
    simp
  have hdev : deviationsOf (fun r c =>
      (([[(2 : ℤ)]] : List (List ℤ)).getD c []).getD r 0) 1 [(2 : ℚ)] =
      [0] := by
    rw [deviationsOf,
      show List.range ([(2 : ℚ)].length) = [0] from by simp [List.range_succ]]
    simp only [List.map_cons, List.map_nil, hrs]
    norm_num
  have hloopv : integerize2dLoop ([[(2 : ℚ)]] : List (List ℚ)).length 1
      [(2 : ℚ)] ((Option.getD none [(1 : ℤ)]).mergeSort
        fun a b => decide (a ≤ b)) "exact" 0
      ⟨fun r c => (([[(2 : ℤ)]] : List (List ℤ)).getD c []).getD r 0,
        List.replicate ([(2 : ℚ)]).length 0, none, 0,
        deviationsOf (fun r c =>
          (([[(2 : ℤ)]] : List (List ℤ)).getD c []).getD r 0) 1 [(2 : ℚ)]⟩ =
      .ok (fun r c => (([[(2 : ℤ)]] : List (List ℤ)).getD c []).getD r 0) := by
    refine integerize2dLoop_exit _ _ _ _ _ _ _ ?_
    show anyDeviation "exact" (deviationsOf (fun r c =>
      (([[(2 : ℤ)]] : List (List ℤ)).getD c []).getD r 0) 1 [(2 : ℚ)]) =
      .ok false
    rw [hdev]
    exact anyDeviation_zero
  rw [integerize_2d]
  simp only [pure_bind, except_throw, except_bind_error, String.reduceEq,
    reduceIte]
  rw [if_neg (show ¬(([[(2 : ℚ)]] : List (List ℚ)).isEmpty = true) by simp)]
  rw [if_neg (not_not_intro (show (([[(2 : ℚ)]] : List (List ℚ)).all
    fun row => decide (row.length =
      (([[(2 : ℚ)]] : List (List ℚ)).headD []).length)) = true by simp))]
  rw [if_neg (not_not_intro (show ([[(2 : ℚ)]] : List (List ℚ)).length =
    [(2 : ℚ)].length by simp))]
  rw [if_neg (not_not_intro (show (([[(2 : ℚ)]] : List (List ℚ)).headD
    []).length = [(2 : ℚ)].length by simp))]
  rw [if_neg (not_not_intro (show [(2 : ℚ)].sum = [(2 : ℚ)].sum from rfl))]
  rw [if_neg (show ¬((Option.getD none [(1 : ℤ)]).isEmpty = true) by simp)]
  rw [show (([[(2 : ℚ)]] : List (List ℚ)).headD []).length = 1 by simp]
  rw [show List.range 1 = [0] from by simp [List.range_succ]]
  simp only [List.mapM_cons, List.mapM_nil]
  rw [show (([[(2 : ℚ)]] : List (List ℚ)).map (fun row => row.getD 0 0)) =
    [(2 : ℚ)] by simp]
  rw [show ([(2 : ℚ)].getD 0 0) = (2 : ℚ) by simp]
  rw [hI1, except_bind_ok, pure_bind, pure_bind]
  rw [hloopv, except_bind_ok]
  simp [List.range_succ]
  rfl

theorem pyRound_one_plus_eps : pyRound (1 + 1/1000000000000 : ℚ) = 1 := by
  have hf : ⌊(1 + 1/1000000000000 : ℚ)⌋ = 1 := by
    rw [Int.floor_eq_iff]
    constructor <;> norm_num
  rw [pyRound, hf]
  rw [if_pos (by push_cast; norm_num)]

theorem pyRound_one_minus_eps : pyRound (1 - 1/1000000000000 : ℚ) = 1 := by
  have hf : ⌊(1 - 1/1000000000000 : ℚ)⌋ = 0 := by
    rw [Int.floor_eq_iff]
    constructor <;> norm_num
  rw [pyRound, hf]
  rw [if_neg (by push_cast; norm_num), if_pos (by push_cast; norm_num)]
  norm_num

theorem isClose_one_plus_eps :
    mathIsClose (1 + 1/1000000000000 : ℚ)
      (pyRound (1 + 1/1000000000000 : ℚ)) = true := by
  rw [pyRound_one_plus_eps, mathIsClose, decide_eq_true_iff]
  have h1 : |(1 + 1/1000000000000 : ℚ) - ((1 : ℤ) : ℚ)| = 1/1000000000000 := by
    rw [show (1 + 1/1000000000000 : ℚ) - ((1 : ℤ) : ℚ) = 1/1000000000000 by
      push_cast; ring]
    exact abs_of_nonneg (by norm_num)
  have h2 : |(1 + 1/1000000000000 : ℚ)| = 1 + 1/1000000000000 :=
    abs_of_nonneg (by norm_num)
  have h3 : |((1 : ℤ) : ℚ)| = 1 := by
    rw [show ((1 : ℤ) : ℚ) = (1 : ℚ) by norm_num]
    exact abs_one
  rw [h1, h2, h3, max_eq_left (by norm_num : (1 : ℚ) ≤ 1 + 1/1000000000000)]
  rw [max_eq_left (by norm_num :
    (0 : ℚ) ≤ 1/1000000000 * (1 + 1/1000000000000))]
  norm_num

theorem isClose_one_minus_eps :
    mathIsClose (1 - 1/1000000000000 : ℚ)
      (pyRound (1 - 1/1000000000000 : ℚ)) = true := by
  rw [pyRound_one_minus_eps, mathIsClose, decide_eq_true_iff]
  have h1 : |(1 - 1/1000000000000 : ℚ) - ((1 : ℤ) : ℚ)| = 1/1000000000000 := by
    rw [show (1 - 1/1000000000000 : ℚ) - ((1 : ℤ) : ℚ) = -(1/1000000000000) by
      push_cast; ring]
    rw [abs_neg]
    exact abs_of_nonneg (by norm_num)
  have h2 : |(1 - 1/1000000000000 : ℚ)| = 1 - 1/1000000000000 :=
    abs_of_nonneg (by norm_num)
  have h3 : |((1 : ℤ) : ℚ)| = 1 := by
    rw [show ((1 : ℤ) : ℚ) = (1 : ℚ) by norm_num]
    exact abs_one
  rw [h1, h2, h3, max_eq_right (by norm_num : (1 - 1/1000000000000 : ℚ) ≤ 1)]
  rw [max_eq_left (by norm_num : (0 : ℚ) ≤ 1/1000000000 * 1)]
  norm_num

/-- A concrete run exhibiting ε-perturbed column controls that pass the
`math.isclose` test: both columns integerize to `[1]`. -/
theorem integerize_2d_eps :
    integerize_2d [[(1 : ℚ), 1]] [(2 : ℚ)]
        [(1 + 1/1000000000000 : ℚ), (1 - 1/1000000000000 : ℚ)]
        "exact" none false 0 = .ok [[(1 : ℤ), 1]] := by
  have hC0 : integerize_1d [(1 : ℚ)] (some (1 + 1/1000000000000 : ℚ))
      "largest_difference" none = .ok [(1 : ℤ)] := by
    have := integerize_1d_singleton 1 (1 + 1/1000000000000) (by norm_num)
      (by norm_num) isClose_one_plus_eps
    rwa [pyRound_one_plus_eps] at this
  have hC1 : integerize_1d [(1 : ℚ)] (some (1 - 1/1000000000000 : ℚ))
      "largest_difference" none = .ok [(1 : ℤ)] := by
    have := integerize_1d_singleton 1 (1 - 1/1000000000000) (by norm_num)
      (by norm_num) isClose_one_minus_eps
    rwa [pyRound_one_minus_eps] at this
  have hrs : rowSum (fun r c =>
      (([[(1 : ℤ)], [(1 : ℤ)]] : List (List ℤ)).getD c []).getD r 0) 2 0 = 2 := by
    rw [rowSum, show List.range 2 = [0, 1] from by simp [List.range_succ]]
    simp
  have hdev : deviationsOf (fun r c =>
      (([[(1 : ℤ)], [(1 : ℤ)]] : List (List ℤ)).getD c []).getD r 0) 2 [(2 : ℚ)] =
      [0] := by
    rw [deviationsOf,
      show List.range ([(2 : ℚ)].length) = [0] from by simp [List.range_succ]]
    simp only [List.map_cons, List.map_nil, hrs]
    norm_num
  have hloopv : integerize2dLoop ([[(1 : ℚ), 1]] : List (List ℚ)).length 2
      [(2 : ℚ)] ((Option.getD none [(1 : ℤ)]).mergeSort
        fun a b => decide (a ≤ b)) "exact" 0
      ⟨fun r c => (([[(1 : ℤ)], [(1 : ℤ)]] : List (List ℤ)).getD c []).getD r 0,
        List.replicate ([(1 + 1/1000000000000 : ℚ),
          (1 - 1/1000000000000 : ℚ)]).length 0, none, 0,
        deviationsOf (fun r c =>
          (([[(1 : ℤ)], [(1 : ℤ)]] : List (List ℤ)).getD c []).getD r 0) 2
          [(2 : ℚ)]⟩ =
      .ok (fun r c =>
        (([[(1 : ℤ)], [(1 : ℤ)]] : List (List ℤ)).getD c []).getD r 0) := by
    refine integerize2dLoop_exit _ _ _ _ _ _ _ ?_
    show anyDeviation "exact" (deviationsOf (fun r c =>
      (([[(1 : ℤ)], [(1 : ℤ)]] : List (List ℤ)).getD c []).getD r 0) 2 [(2 : ℚ)]) =
      .ok false
    rw [hdev]
    exact anyDeviation_zero
  rw [integerize_2d]
  simp only [pure_bind, except_throw, except_bind_error, String.reduceEq,
    reduceIte]
  rw [if_neg (show ¬(([[(1 : ℚ), 1]] : List (List ℚ)).isEmpty = true) by simp)]
  rw [if_neg (not_not_intro (show (([[(1 : ℚ), 1]] : List (List ℚ)).all
    fun row => decide (row.length =
      (([[(1 : ℚ), 1]] : List (List ℚ)).headD []).length)) = true by simp))]
  rw [if_neg (not_not_intro (show ([[(1 : ℚ), 1]] : List (List ℚ)).length =
    [(2 : ℚ)].length by simp))]
  rw [if_neg (not_not_intro (show (([[(1 : ℚ), 1]] : List (List ℚ)).headD
    []).length = [(1 + 1/1000000000000 : ℚ),
      (1 - 1/1000000000000 : ℚ)].length by simp))]
  rw [if_neg (not_not_intro (show [(2 : ℚ)].sum =
    [(1 + 1/1000000000000 : ℚ), (1 - 1/1000000000000 : ℚ)].sum by
      simp [List.sum_cons, List.sum_nil]; norm_num))]
  rw [if_neg (show ¬((Option.getD none [(1 : ℤ)]).isEmpty = true) by simp)]
  rw [show (([[(1 : ℚ), 1]] : List (List ℚ)).headD []).length = 2 by simp]
  rw [show List.range 2 = [0, 1] from by simp [List.range_succ]]
  simp only [List.mapM_cons, List.mapM_nil]
  rw [show (([[(1 : ℚ), 1]] : List (List ℚ)).map (fun row => row.getD 0 0)) =
    [(1 : ℚ)] by simp]
  rw [show (([[(1 : ℚ), 1]] : List (List ℚ)).map (fun row => row.getD 1 0)) =
    [(1 : ℚ)] by simp]
  rw [show ([(1 + 1/1000000000000 : ℚ),
    (1 - 1/1000000000000 : ℚ)].getD 0 0) = (1 + 1/1000000000000 : ℚ) by simp]
  rw [show ([(1 + 1/1000000000000 : ℚ),
    (1 - 1/1000000000000 : ℚ)].getD 1 0) = (1 - 1/1000000000000 : ℚ) by simp]
  rw [hC0, except_bind_ok, hC1, except_bind_ok, pure_bind, pure_bind, pure_bind]
  rw [hloopv, except_bind_ok]
  simp [List.range_succ]
  rfl

/-- C1 counterexample: with data `[[1.0, 1.0]]`, row control `[2]` and the
ε-perturbed column controls `[1 + 1e-12, 1 - 1e-12]` (which pass every input
check, the controls being within `math.isclose` tolerance of integers and
summing exactly to the row total), `integerize_2d` returns normally with
`[[1, 1]]`, whose first column sums to `1 ≠ 1 + 1e-12`: the column-marginal
half of the claim fails for valid non-integral column controls. -/
theorem C1_counterexample :
    integerize_2d [[(1 : ℚ), 1]] [(2 : ℚ)]
        [(1 + 1/1000000000000 : ℚ), (1 - 1/1000000000000 : ℚ)]
        "exact" none false 0 = .ok [[(1 : ℤ), 1]] ∧
      ¬ (((matColSum [[(1 : ℤ), 1]] 0 : ℤ) : ℚ) =
        [(1 + 1/1000000000000 : ℚ), (1 - 1/1000000000000 : ℚ)].getD 0 0) := by
  refine ⟨integerize_2d_eps, ?_⟩
  rw [matColSum]
  simp only [List.map_cons, List.map_nil, List.getD_cons_zero,
    List.sum_cons, List.sum_nil]
  norm_num

/-- C1 witness: the amended theorem applied to the concrete run
`integerize_2d([[2.0]], [2], [2]) = [[2]]`, whose integer column control
satisfies the integrality proviso; both marginal conclusions evaluate. -/
theorem C1_witness :
    (∀ q ∈ [(2 : ℚ)], ∃ k : ℤ, q = (k : ℚ)) ∧
    ((∀ r, r < [(2 : ℚ)].length →
        ((matRowSum [[(2 : ℤ)]] r : ℤ) : ℚ) = [(2 : ℚ)].getD r 0) ∧
      (∀ c, c < [(2 : ℚ)].length →
        ((matColSum [[(2 : ℤ)]] c : ℤ) : ℚ) = [(2 : ℚ)].getD c 0)) := by
  have hint : ∀ q ∈ [(2 : ℚ)], ∃ k : ℤ, q = (k : ℚ) := by
    intro q hq
    exact ⟨2, by rw [List.mem_singleton.1 hq]; norm_num⟩
  exact ⟨hint, C1_integerize_2d_marginals [[(2 : ℚ)]] [(2 : ℚ)] [(2 : ℚ)]
    none false 0 [[(2 : ℤ)]] hint integerize_2d_two⟩

/-! ## `ipf_numpy` (`src/python/nd_rounding/ipf.py:10-75`) -/

/-- Row-major enumeration of all index tuples of an N-d array of the given
shape. -/
def allIdx : List ℕ → List (List ℕ)
  | [] => [[]]
  | s :: rest => (List.range s).flatMap (fun i => (allIdx rest).map (fun idx => i :: idx))

/-- `seed.sum(axis=all-but-dim)[i]`: the sum of the data slice at index `i`
along dimension `dim`. -/
def sliceSum (seed : List ℕ → ℚ) (shape : List ℕ) (dim i : ℕ) : ℚ :=
  (((allIdx shape).filter (fun idx => decide (idx.getD dim 0 = i))).map seed).sum

/-- `np.divide(marginals[dim], current_sum, out=np.ones_like(current_sum),
where=current_sum != 0)`. -/
def adjFactor (seed : List ℕ → ℚ) (shape : List ℕ) (mdim : List ℚ)
    (dim : ℕ) : ℕ → ℚ :=
  fun i => if sliceSum seed shape dim i ≠ 0 then
    mdim.getD i 0 / sliceSum seed shape dim i else 1

/-- One dimension of one IPF iteration: scale the seed along `dim` and record
`np.abs(adjustment_factor - 1).max()` (numpy raises on a zero-size
dimension). -/
def ipfDimStep (shape : List ℕ) (mdim : List ℚ) (dim : ℕ)
    (seed : List ℕ → ℚ) : Except Err ((List ℕ → ℚ) × ℚ) := do
  let adj := adjFactor seed shape mdim dim
  let mx ← npMax ((List.range (shape.getD dim 0)).map (fun i => |adj i - 1|))
  pure (fun idx => seed idx * adj (idx.getD dim 0), mx)

/-- One full IPF iteration (`for dim in axes`), threading the seed and
collecting the per-dimension maximum adjustment factors. -/
def ipfPass (shape : List ℕ) (marginals : List (List ℚ))
    (seed : List ℕ → ℚ) : Except Err ((List ℕ → ℚ) × List ℚ) :=
  (List.range shape.length).foldlM
    (fun acc dim => do
      let (sd, mx) ← ipfDimStep shape (marginals.getD dim []) dim acc.1
      pure (sd, acc.2 ++ [mx]))
    (seed, [])

/-- The `for _ in range(max_iters)` loop with its early-break test. -/
def ipfLoop (shape : List ℕ) (marginals : List (List ℚ))
    (break_threshold : ℚ) : ℕ → (List ℕ → ℚ) → Except Err (List ℕ → ℚ)
  | 0, seed => pure seed
  | iters + 1, seed => do
    let (sd, maxes) ← ipfPass shape marginals seed
    let mm ← npMax maxes
    if mm < break_threshold then pure sd
    else ipfLoop shape marginals break_threshold iters sd

/-- `ipf_numpy` (`src/python/nd_rounding/ipf.py:10-75`).  The seed array is a
function on index tuples together with its shape; error messages with
interpolated values are embedded as their constant prefixes.  The zero-slice
pre-condition check raises the bare `ValueError()` of the source, embedded
with an empty message. -/
def ipf_numpy (seed : List ℕ → ℚ) (shape : List ℕ)
    (marginals : List (List ℚ)) (break_threshold : ℚ := 1/100)
    (max_iters : ℕ := 10000) : Except Err (List ℕ → ℚ) := do
  -- Check seed and marginals match
  if shape.length ≠ marginals.length then
    throw (.valueError "Each dimension of 'seed' must have an associated marginal control")
  if ¬ ((List.range shape.length).all fun dim =>
      decide ((marginals.getD dim []).length = shape.getD dim 0)) then
    throw (.valueError "The dimension of 'seed' does not match the associated marginal control size")
  -- Check marginals all sum to the exact same value (`marginals[0]` raises
  -- IndexError on an empty list)
  match marginals with
  | [] => throw (.indexError "list index out of range")
  | m0 :: _ =>
    if ¬ ((List.range marginals.length).all fun dim =>
        decide ((marginals.getD dim []).sum = m0.sum)) then
      throw (.valueError "Marginals don't sum to the same value")
    -- Check that every non-zero marginal is associated with data that is
    -- also non-zero
    if ¬ ((List.range marginals.length).all fun dim =>
        (List.range (shape.getD dim 0)).all fun i =>
          !(decide ((marginals.getD dim []).getD i 0 ≠ 0 ∧
            sliceSum seed shape dim i = 0))) then
      throw (.valueError "")
    -- Run IPF
    ipfLoop shape marginals break_threshold max_iters seed

theorem foldlM_ne_error {σ α : Type} (f : σ → α → Except Err σ) (l : List α)
    (e : Err) (hf : ∀ s x, f s x ≠ .error e) :
    ∀ s, l.foldlM f s ≠ .error e := by
  induction l with
  | nil =>
    intro s h
    rw [List.foldlM_nil] at h
    exact Except.noConfusion h
  | cons a t ih =>
    intro s h
    rw [List.foldlM_cons] at h
    cases hfa : f s a with
    | error e' =>
      rw [hfa, except_bind_error] at h
      injection h with h2
      exact hf s a (by rw [hfa, h2])
    | ok s1 =>
      rw [hfa, except_bind_ok] at h
      exact ih s1 h

theorem npMax_ne_empty_msg (l : List ℚ) :
    npMax l ≠ .error (.valueError "") := by
  cases l with
  | nil =>
    rw [npMax]
    intro h
    injection h with h2
    injection h2 with h3
    exact absurd h3 (by decide)
  | cons a t => simp [npMax]

theorem ipfDimStep_ne (shape : List ℕ) (mdim : List ℚ) (dim : ℕ)
    (seed : List ℕ → ℚ) :
    ipfDimStep shape mdim dim seed ≠ .error (.valueError "") := by
  intro h
  simp only [ipfDimStep] at h
  cases hmx : npMax ((List.range (shape.getD dim 0)).map
      (fun i => |adjFactor seed shape mdim dim i - 1|)) with
  | error e =>
    rw [hmx, except_bind_error] at h
    injection h with h2
    exact npMax_ne_empty_msg _ (by rw [hmx, h2])
  | ok mx =>
    rw [hmx, except_bind_ok] at h
    exact Except.noConfusion h

theorem ipfPass_ne (shape : List ℕ) (marginals : List (List ℚ))
    (seed : List ℕ → ℚ) :
    ipfPass shape marginals seed ≠ .error (.valueError "") := by
  rw [ipfPass]
  apply foldlM_ne_error
  intro s x h
  cases hd : ipfDimStep shape (marginals.getD x []) x s.1 with
  | error e =>
    rw [hd, except_bind_error] at h
    injection h with h2
    exact ipfDimStep_ne _ _ _ _ (by rw [hd, h2])
  | ok p =>
    obtain ⟨sd, mx⟩ := p
    rw [hd, except_bind_ok] at h
    exact Except.noConfusion h

theorem ipfLoop_ne (shape : List ℕ) (marginals : List (List ℚ)) (bt : ℚ) :
    ∀ (iters : ℕ) (seed : List ℕ → ℚ),
      ipfLoop shape marginals bt iters seed ≠ .error (.valueError "") := by
  intro iters
  induction iters with
  | zero =>
    intro seed h
    rw [ipfLoop] at h
    exact Except.noConfusion h
  | succ k ih =>
    intro seed h
    rw [ipfLoop] at h
    cases hp : ipfPass shape marginals seed with
    | error e =>
      rw [hp, except_bind_error] at h
      injection h with h2
      exact ipfPass_ne _ _ _ (by rw [hp, h2])
    | ok p =>
      obtain ⟨sd, maxes⟩ := p
      rw [hp, except_bind_ok] at h
      simp only [] at h
      cases hm : npMax maxes with
      | error e =>
        rw [hm, except_bind_error] at h
        injection h with h2
        exact npMax_ne_empty_msg maxes (by rw [hm, h2])
      | ok mm =>
        rw [hm, except_bind_ok] at h
        by_cases hlt : mm < bt
        · rw [if_pos hlt] at h
          exact Except.noConfusion h
        · rw [if_neg hlt] at h
          exact ih sd h

/-- C6: when the shape and marginal-total validations pass, `ipf_numpy`
raises its bare input `ValueError` before any scaling exactly when some axis
pairs a non-zero marginal entry with a zero-sum data slice; otherwise the
scaling loop is entered (the call reduces to `ipfLoop`) and the zero-slice
input error can no longer arise. -/
theorem C6_ipf_zero_slice_validation (seed : List ℕ → ℚ) (shape : List ℕ)
    (marginals : List (List ℚ)) (bt : ℚ) (iters : ℕ)
    (hdim : shape.length = marginals.length)
    (hsz : ∀ dim, dim < marginals.length →
      (marginals.getD dim []).length = shape.getD dim 0)
    (hne : marginals ≠ [])
    (hsum : ∀ dim, dim < marginals.length →
      (marginals.getD dim []).sum = (marginals.getD 0 []).sum) :
    ((∃ dim, dim < marginals.length ∧ ∃ i, i < shape.getD dim 0 ∧
        (marginals.getD dim []).getD i 0 ≠ 0 ∧ sliceSum seed shape dim i = 0) →
      ipf_numpy seed shape marginals bt iters = .error (.valueError "")) ∧
    ((¬ ∃ dim, dim < marginals.length ∧ ∃ i, i < shape.getD dim 0 ∧
        (marginals.getD dim []).getD i 0 ≠ 0 ∧ sliceSum seed shape dim i = 0) →
      ipf_numpy seed shape marginals bt iters =
        ipfLoop shape marginals bt iters seed ∧
      ipfLoop shape marginals bt iters seed ≠ .error (.valueError "")) := by
  obtain ⟨m0, rest, rfl⟩ : ∃ m0 rest, marginals = m0 :: rest := by
    cases marginals with
    | nil => exact absurd rfl hne
    | cons a t => exact ⟨a, t, rfl⟩
  have hstep : ipf_numpy seed shape (m0 :: rest) bt iters =
      (if ¬ ((List.range (m0 :: rest).length).all fun dim =>
          (List.range (shape.getD dim 0)).all fun i =>
            !(decide (((m0 :: rest).getD dim []).getD i 0 ≠ 0 ∧
              sliceSum seed shape dim i = 0))) then
        .error (.valueError "")
      else ipfLoop shape (m0 :: rest) bt iters seed) := by
    rw [ipf_numpy]
    rw [if_neg (not_not_intro hdim)]
    rw [if_neg (not_not_intro (List.all_eq_true.2 (fun dim hdm => by
      rw [decide_eq_true_iff]
      exact hsz dim (by rw [← hdim]; exact List.mem_range.1 hdm))))]
    rw [if_neg (not_not_intro (List.all_eq_true.2 (fun dim hdm => by
      rw [decide_eq_true_iff]
      exact hsum dim (List.mem_range.1 hdm))))]
    by_cases hbad : ¬ ((List.range (m0 :: rest).length).all fun dim =>
        (List.range (shape.getD dim 0)).all fun i =>
          !(decide (((m0 :: rest).getD dim []).getD i 0 ≠ 0 ∧
            sliceSum seed shape dim i = 0)))
    · rw [if_pos hbad, if_pos hbad]
      rfl
    · rw [if_neg hbad, if_neg hbad]
      rfl
  have hiff : ((List.range (m0 :: rest).length).all fun dim =>
      (List.range (shape.getD dim 0)).all fun i =>
        !(decide (((m0 :: rest).getD dim []).getD i 0 ≠ 0 ∧
          sliceSum seed shape dim i = 0))) = true ↔
      ¬ (∃ dim, dim < (m0 :: rest).length ∧ ∃ i, i < shape.getD dim 0 ∧
        ((m0 :: rest).getD dim []).getD i 0 ≠ 0 ∧
        sliceSum seed shape dim i = 0) := by
    rw [List.all_eq_true]
    constructor
    · rintro hall ⟨dim, hdm, i, hi, hnz, hz⟩
      have h1 := hall dim (List.mem_range.2 hdm)
      rw [List.all_eq_true] at h1
      have h2 := h1 i (List.mem_range.2 hi)
      rw [Bool.not_eq_true', decide_eq_false_iff_not] at h2
      exact h2 ⟨hnz, hz⟩
    · intro hnex dim hdm
      rw [List.all_eq_true]
      intro i hi
      rw [Bool.not_eq_true', decide_eq_false_iff_not]
      intro ⟨hnz, hz⟩
      exact hnex ⟨dim, List.mem_range.1 hdm, i, List.mem_range.1 hi, hnz, hz⟩
  constructor
  · intro hex
    rw [hstep, if_pos]
    intro hall
    exact (hiff.1 hall) hex
  · intro hnex
    refine ⟨?_, ipfLoop_ne shape (m0 :: rest) bt iters seed⟩
    rw [hstep, if_neg (not_not_intro (hiff.2 hnex))]

theorem sliceSum_one : sliceSum (fun _ => (1 : ℚ)) [1] 0 0 = 1 := by
  rw [sliceSum]
  simp [allIdx, List.range_succ]

/-- C6 witness: the seed `[1.0]` with the single marginal `[1]` passes every
validation (its one slice has sum 1 ≠ 0), so the call reduces to the scaling
loop. -/
theorem C6_witness :
    ipf_numpy (fun _ => (1 : ℚ)) [1] [[(1 : ℚ)]] (1/100) 0 =
      ipfLoop [1] [[(1 : ℚ)]] (1/100) 0 (fun _ => (1 : ℚ)) := by
  have h := C6_ipf_zero_slice_validation (fun _ => (1 : ℚ)) [1] [[(1 : ℚ)]]
    (1/100) 0 (by simp)
    (by
      intro dim hdm
      have hd0 : dim = 0 := by simpa using hdm
      subst hd0
      simp)
    (by simp)
    (by
      intro dim hdm
      have hd0 : dim = 0 := by simpa using hdm
      subst hd0
      rfl)
  refine (h.2 ?_).1
  rintro ⟨dim, hdm, i, hi, hnz, hz⟩
  have hd0 : dim = 0 := by simpa using hdm
  subst hd0
  have hi0 : i = 0 := by simpa using hi
  subst hi0
  rw [sliceSum_one] at hz
  exact absurd hz (by norm_num)

/-! ## The exact ND rounders (`src/python/nd_rounding/nd-rounding.py`) -/

/-- `check_input_validity` (`nd-rounding.py:23-54`): shape agreement and equal
marginal totals. -/
def check_input_validity (shape : List ℕ) (marginals : List (List ℚ)) :
    Except Err Unit := do
  -- Check seed and marginals match
  if shape.length ≠ marginals.length then
    throw (.valueError "Each dimension of 'seed' must have an associated marginal control")
  if ¬ ((List.range shape.length).all fun dim =>
      decide ((marginals.getD dim []).length = shape.getD dim 0)) then
    throw (.valueError "The dimension of 'seed' does not match the associated marginal control size")
  -- Check marginals all sum to the exact same value (`marginals[0]` raises
  -- IndexError on an empty list)
  match marginals with
  | [] => throw (.indexError "list index out of range")
  | m0 :: _ =>
    if ¬ ((List.range marginals.length).all fun dim =>
        decide ((marginals.getD dim []).sum = m0.sum)) then
      throw (.valueError "Marginals don't sum to the same value")
    pure ()

/-- `np.ceil(data)`: the integer-valued rounded array both exact rounders
start from. -/
def pulpRounded (data : List ℕ → ℚ) : List ℕ → ℤ := fun idx => ⌈data idx⌉

/-- Slice sum of an integer-valued N-d array. -/
def sliceSumZ (f : List ℕ → ℤ) (shape : List ℕ) (dim i : ℕ) : ℤ :=
  (((allIdx shape).filter (fun idx => decide (idx.getD dim 0 = i))).map f).sum

/-- `compute_rounding_error` (`nd-rounding.py:57-66`) at one slice:
`actual.sum(axis=missing_dim)[i] - control[dim][i]`. -/
def roundingError (f : List ℕ → ℤ) (shape : List ℕ)
    (marginals : List (List ℚ)) (dim i : ℕ) : ℚ :=
  ((sliceSumZ f shape dim i : ℤ) : ℚ) - (marginals.getD dim []).getD i 0

/-- The variable-creation predicate of both PuLP formulations
(`nd-rounding.py:286-298`): a cell gets an `LpVariable` iff some axis slice
through it has non-zero rounding error and the ceiled value is positive. -/
def validVar (data : List ℕ → ℚ) (shape : List ℕ)
    (marginals : List (List ℚ)) (idx : List ℕ) : Bool :=
  ((List.range marginals.length).any fun dim =>
    decide (roundingError (pulpRounded data) shape marginals dim
      (idx.getD dim 0) ≠ 0)) &&
  decide (0 < pulpRounded data idx)

/-- `nd_controlling_pulp_solver` (`nd-rounding.py:252-375`).  The PuLP model
and the external CBC solve are modelled by the oracle pair `(status, sol)`:
`status` is `pulp.LpStatus[problem.status]` and `sol` the solved variable
values (`varValue`); cells without a variable contribute the `0` of
`np.vectorize(... if var is not None else 0)`. -/
def nd_controlling_pulp_solver (data : List ℕ → ℚ) (shape : List ℕ)
    (marginals : List (List ℚ)) (status : String) (sol : List ℕ → ℤ) :
    Except Err (List ℕ → ℤ) := do
  check_input_validity shape marginals
  let rounded := pulpRounded data
  -- (problem construction: variables at `validVar` cells bounded by
  -- [0, min(3, value)], one equation per positive marginal entry; handed to
  -- the external solver)
  -- Check the status
  if status ≠ "Optimal" then throw (.valueError "")
  let corrections : List ℕ → ℤ := fun idx =>
    if validVar data shape marginals idx then sol idx else 0
  let final : List ℕ → ℤ := fun idx => rounded idx - corrections idx
  -- Double check everything worked: per-dimension TOTAL error must be zero
  if ¬ ((List.range marginals.length).all fun dim =>
      decide ((((List.range (shape.getD dim 0)).map
        (fun i => roundingError final shape marginals dim i)).sum) = 0)) then
    throw (.valueError "")
  pure final

/-- `nd_controlling_pulp_solver_2d` (`nd-rounding.py:378-527`).  Identical
oracle treatment; the status check of the general formulation is COMMENTED
OUT in the source (`nd-rounding.py:507-510`), so no status test appears
between the solve and the corrections. -/
def nd_controlling_pulp_solver_2d (data : List ℕ → ℚ) (shape : List ℕ)
    (marginals : List (List ℚ)) (solver : String)
    (availableSolvers : List String) (status : String)
    (sol : List ℕ → ℤ) : Except Err (List ℕ → ℤ) := do
  check_input_validity shape marginals
  -- Additionally ensure that the input data is two dimensional
  if shape.length ≠ 2 then throw (.valueError "")
  -- Validate the solver and make sure it's installed
  if solver ∉ ["CyLP", "PULP_CBC_CMD", "SCIP_PY", "HiGHS"] then
    throw (.valueError "TODO")
  if solver ∉ availableSolvers then throw (.valueError "TODO")
  let rounded := pulpRounded data
  -- Check the status
  -- if pulp.LpStatus[problem.status] != "Optimal":
  --     # raise ValueError
  --     pass
  let corrections : List ℕ → ℤ := fun idx =>
    if validVar data shape marginals idx then sol idx else 0
  let final : List ℕ → ℤ := fun idx => rounded idx - corrections idx
  if ¬ ((List.range marginals.length).all fun dim =>
      decide ((((List.range (shape.getD dim 0)).map
        (fun i => roundingError final shape marginals dim i)).sum) = 0)) then
    throw (.valueError "")
  pure final

theorem list_sum_map_sub_int {α : Type} (l : List α) (f g : α → ℤ) :
    (l.map (fun x => f x - g x)).sum = (l.map f).sum - (l.map g).sum := by
  induction l with
  | nil => simp
  | cons a t ih =>
    simp only [List.map_cons, List.sum_cons, ih]
    ring

theorem sliceSumZ_sub (f g : List ℕ → ℤ) (shape : List ℕ) (dim i : ℕ) :
    sliceSumZ (fun idx => f idx - g idx) shape dim i =
      sliceSumZ f shape dim i - sliceSumZ g shape dim i := by
  rw [sliceSumZ, sliceSumZ, sliceSumZ]
  exact list_sum_map_sub_int _ f g

theorem sliceSumZ_nonneg {f : List ℕ → ℤ} (hf : ∀ idx, 0 ≤ f idx)
    (shape : List ℕ) (dim i : ℕ) : 0 ≤ sliceSumZ f shape dim i := by
  rw [sliceSumZ]
  apply List.sum_nonneg
  intro x hx
  rcases List.mem_map.1 hx with ⟨idx, -, rfl⟩
  exact hf idx

/-- C3 (amended): for the general PuLP formulation, the call raises when the
solver status is not 'Optimal', and — under the PuLP contract that an
'Optimal' status means the returned variable values satisfy every positive
marginal's equation and the `[0, min(3, value)]` variable bounds — a normal
return reproduces every axis's marginal control entry by entry.  (The
two-dimensional formulation does not raise on a non-'Optimal' status: its
status check is commented out; see the counterexample.) -/
theorem C3_pulp_exact (data : List ℕ → ℚ) (shape : List ℕ)
    (marginals : List (List ℚ)) (status : String) (sol : List ℕ → ℤ)
    (hmarg : ∀ dim, dim < marginals.length → ∀ i, i < shape.getD dim 0 →
      0 ≤ (marginals.getD dim []).getD i 0)
    (hcontract : status = "Optimal" →
      (∀ dim, dim < marginals.length → ∀ i, i < shape.getD dim 0 →
        0 < (marginals.getD dim []).getD i 0 →
        ((sliceSumZ (fun idx => if validVar data shape marginals idx then
          sol idx else 0) shape dim i : ℤ) : ℚ) =
          roundingError (pulpRounded data) shape marginals dim i) ∧
      (∀ idx, 0 ≤ (if validVar data shape marginals idx then sol idx else 0) ∧
        (if validVar data shape marginals idx then sol idx else 0) ≤
          min 3 (pulpRounded data idx))) :
    (status ≠ "Optimal" →
      ∀ v, nd_controlling_pulp_solver data shape marginals status sol ≠
        .ok v) ∧
    (∀ v, nd_controlling_pulp_solver data shape marginals status sol =
        .ok v →
      ∀ dim, dim < marginals.length → ∀ i, i < shape.getD dim 0 →
        ((sliceSumZ v shape dim i : ℤ) : ℚ) =
          (marginals.getD dim []).getD i 0) := by
  constructor
  · intro hst v hok
    rw [nd_controlling_pulp_solver] at hok
    cases hv : check_input_validity shape marginals with
    | error e =>
      rw [hv, except_bind_error] at hok
      exact Except.noConfusion hok
    | ok u =>
      rw [hv, except_bind_ok] at hok
      rw [if_pos hst] at hok
      exact Except.noConfusion hok
  · intro v hok dim hdm i hi
    rw [nd_controlling_pulp_solver] at hok
    cases hv : check_input_validity shape marginals with
    | error e =>
      rw [hv, except_bind_error] at hok
      exact Except.noConfusion hok
    | ok u =>
      rw [hv, except_bind_ok] at hok
      by_cases hst : status = "Optimal"
      · rw [if_neg (not_not_intro hst)] at hok
        by_cases hfc : ((List.range marginals.length).all fun dim =>
            decide ((((List.range (shape.getD dim 0)).map
              (fun i => roundingError (fun idx => pulpRounded data idx -
                (if validVar data shape marginals idx then sol idx else 0))
                shape marginals dim i)).sum) = 0)) = true
        · rw [if_neg (not_not_intro hfc)] at hok
          injection hok with hv2
          obtain ⟨hceq, hcbnd⟩ := hcontract hst
          -- the final array, cell-nonnegative by the variable bounds
          have hfnn : ∀ idx, 0 ≤ pulpRounded data idx -
              (if validVar data shape marginals idx then sol idx else 0) := by
            intro idx
            have h1 := (hcbnd idx).2
            have h2 : min 3 (pulpRounded data idx) ≤ pulpRounded data idx :=
              min_le_right _ _
            omega
          -- every per-entry error of the final array is non-negative
          have hge : ∀ j, j < shape.getD dim 0 →
              0 ≤ roundingError (fun idx => pulpRounded data idx -
                (if validVar data shape marginals idx then sol idx else 0))
                shape marginals dim j := by
            intro j hj
            by_cases hmp : 0 < (marginals.getD dim []).getD j 0
            · have := hceq dim hdm j hj hmp
              rw [roundingError, sliceSumZ_sub]
              rw [roundingError] at this
              push_cast
              linarith
            · have hm0 : (marginals.getD dim []).getD j 0 = 0 :=
                le_antisymm (not_lt.1 hmp) (hmarg dim hdm j hj)
              rw [roundingError, hm0, sub_zero]
              exact_mod_cast sliceSumZ_nonneg hfnn shape dim j
          -- the passed final check: the dim-total error is zero
          have htot : (((List.range (shape.getD dim 0)).map
              (fun i => roundingError (fun idx => pulpRounded data idx -
                (if validVar data shape marginals idx then sol idx else 0))
                shape marginals dim i)).sum) = 0 := by
            have := List.all_eq_true.1 hfc dim (List.mem_range.2 hdm)
            exact decide_eq_true_iff.1 this
          -- hence every entry error is zero
          have hzero : roundingError (fun idx => pulpRounded data idx -
              (if validVar data shape marginals idx then sol idx else 0))
              shape marginals dim i = 0 := by
            rw [list_range_map_sum] at htot
            have := (Finset.sum_eq_zero_iff_of_nonneg
              (fun j hj => hge j (Finset.mem_range.1 hj))).1 htot i
              (Finset.mem_range.2 hi)
            exact this
          rw [← hv2]
          rw [roundingError] at hzero
          linarith
        · rw [if_pos hfc] at hok
          exact Except.noConfusion hok
      · rw [if_pos hst] at hok
        exact Except.noConfusion hok

theorem check_zero_valid :
    check_input_validity [1, 1] [[(0 : ℚ)], [(0 : ℚ)]] = .ok () := by
  rw [check_input_validity]
  rw [if_neg (by decide)]
  rw [if_neg (not_not_intro (by decide))]
  rw [if_neg (not_not_intro (List.all_eq_true.2 (fun dim hdm => by
    fin_cases hdm <;> exact decide_eq_true rfl)))]
  rfl

theorem allIdx_one_one : allIdx [1, 1] = [[0, 0]] := by decide

theorem sliceSumZ_one_one (g : List ℕ → ℤ) (dim : ℕ) :
    sliceSumZ g [1, 1] dim 0 = g [0, 0] := by
  rw [sliceSumZ, allIdx_one_one]
  have hgd : ([0, 0] : List ℕ).getD dim 0 = 0 := by
    cases dim with
    | zero => rfl
    | succ d =>
      cases d with
      | zero => rfl
      | succ d2 => rfl
  rw [List.filter_cons, List.filter_nil, if_pos (decide_eq_true hgd)]
  simp

theorem pulp_zero_final_check :
    ((List.range ([[(0 : ℚ)], [(0 : ℚ)]] : List (List ℚ)).length).all
      fun dim => decide ((((List.range (([1, 1] : List ℕ).getD dim 0)).map
        (fun i => roundingError (fun idx =>
          pulpRounded (fun _ => (0 : ℚ)) idx -
          (if validVar (fun _ => (0 : ℚ)) [1, 1] [[(0 : ℚ)], [(0 : ℚ)]] idx
            then (fun _ => (0 : ℤ)) idx else 0)) [1, 1]
          [[(0 : ℚ)], [(0 : ℚ)]] dim i)).sum) = 0)) = true := by
  apply List.all_eq_true.2
  intro dim hdm
  apply decide_eq_true
  fin_cases hdm
  · rw [show (([1, 1] : List ℕ).getD 0 0) = 1 from rfl,
      show List.range 1 = [0] from by simp [List.range_succ]]
    simp only [List.map_cons, List.map_nil, List.sum_cons, List.sum_nil]
    rw [roundingError, sliceSumZ_one_one]
    simp [pulpRounded]
  · rw [show (([1, 1] : List ℕ).getD 1 0) = 1 from rfl,
      show List.range 1 = [0] from by simp [List.range_succ]]
    simp only [List.map_cons, List.map_nil, List.sum_cons, List.sum_nil]
    rw [roundingError, sliceSumZ_one_one]
    simp [pulpRounded]

/-- C3 counterexample: the two-dimensional PuLP formulation returns normally
on a trivial all-zero problem even though the solver oracle reports
'Infeasible' — its status check is commented out in the source
(`nd-rounding.py:507-510`), refuting 'the call fails when the underlying
solver reports an infeasible or non-optimal status' for this formulation. -/
theorem C3_counterexample :
    ∃ v, nd_controlling_pulp_solver_2d (fun _ => (0 : ℚ)) [1, 1]
      [[(0 : ℚ)], [(0 : ℚ)]] "PULP_CBC_CMD" ["PULP_CBC_CMD"] "Infeasible"
      (fun _ => 0) = .ok v := by
  refine ⟨fun idx => pulpRounded (fun _ => (0 : ℚ)) idx -
    (if validVar (fun _ => (0 : ℚ)) [1, 1] [[(0 : ℚ)], [(0 : ℚ)]] idx
      then (fun _ => (0 : ℤ)) idx else 0), ?_⟩
  rw [nd_controlling_pulp_solver_2d]
  rw [check_zero_valid, except_bind_ok]
  rw [if_neg (by decide)]
  rw [if_neg (not_not_intro (by decide))]
  rw [if_neg (not_not_intro (by decide))]
  rw [if_neg (not_not_intro pulp_zero_final_check)]
  rfl

theorem pulp_zero_eval :
    nd_controlling_pulp_solver (fun _ => (0 : ℚ)) [1, 1]
      [[(0 : ℚ)], [(0 : ℚ)]] "Optimal" (fun _ => 0) = .ok (fun idx =>
        pulpRounded (fun _ => (0 : ℚ)) idx -
        (if validVar (fun _ => (0 : ℚ)) [1, 1] [[(0 : ℚ)], [(0 : ℚ)]] idx
          then (fun _ => (0 : ℤ)) idx else 0)) := by
  rw [nd_controlling_pulp_solver]
  rw [check_zero_valid, except_bind_ok]
  rw [if_neg (by decide)]
  rw [if_neg (not_not_intro pulp_zero_final_check)]
  rfl

/-- C3 witness: the amended theorem applied to the trivial all-zero problem
solved with status 'Optimal'; the returned matrix's first row slice sums to
its (zero) marginal entry. -/
theorem C3_witness :
    ∃ v, nd_controlling_pulp_solver (fun _ => (0 : ℚ)) [1, 1]
      [[(0 : ℚ)], [(0 : ℚ)]] "Optimal" (fun _ => 0) = .ok v ∧
      ((sliceSumZ v [1, 1] 0 0 : ℤ) : ℚ) =
        ([[(0 : ℚ)], [(0 : ℚ)]].getD 0 []).getD 0 0 := by
  refine ⟨_, pulp_zero_eval, ?_⟩
  exact (C3_pulp_exact (fun _ => (0 : ℚ)) [1, 1] [[(0 : ℚ)], [(0 : ℚ)]]
    "Optimal" (fun _ => 0)
    (fun dim hdm i hi => by
      have hdm2 : dim < 2 := by simpa using hdm
      interval_cases dim <;> (simp at hi ⊢))
    (fun _ => ⟨fun dim hdm i hi hpos => by
        have hdm2 : dim < 2 := by simpa using hdm
        interval_cases dim <;> simp at hpos,
      fun idx => ⟨by split_ifs <;> norm_num,
        by split_ifs <;> simp [pulpRounded]⟩⟩)).2
    _ pulp_zero_eval 0 (by norm_num) 0 (by norm_num)

/-! ## The stochastic ND rounder (`nd-rounding.py:94-249`) -/

/-- Python `int()`: truncation toward zero. -/
def pyInt (q : ℚ) : ℤ := if 0 ≤ q then ⌊q⌋ else ⌈q⌉

/-- The cells of the slice at index `i` along `dim`, in C (row-major)
order — the flattening order numpy uses for `take`d slices. -/
def fuzzySliceIdx (shape : List ℕ) (dim i : ℕ) : List (List ℕ) :=
  (allIdx shape).filter (fun idx => decide (idx.getD dim 0 = i))

/-- `np.add.at(corrections, pos, v)` at a single multi-index. -/
def addAtIdx (c : List ℕ → ℤ) (pos : List ℕ) (v : ℤ) : List ℕ → ℤ :=
  fun idx => if idx = pos then c idx + v else c idx

/-- The inner overshoot repair of `_nd_controlling_fuzzy_step`
(`nd-rounding.py:152-190`): slice the weights and current corrections at the
overshooting index, stable-argsort `|corrections * weights|` flattened in C
order, and increment the corrections at the `to_adj` largest entries. -/
def fixOne (shape : List ℕ) (weights : List ℕ → ℚ) (dim i : ℕ)
    (to_adj : ℕ) (corr : List ℕ → ℤ) : List ℕ → ℤ :=
  let cells := fuzzySliceIdx shape dim i
  let wvals := cells.map (fun idx => |((corr idx : ℤ) : ℚ) * weights idx|)
  let ord := argsortStable wvals
  let chosen := ord.drop (ord.length - to_adj)
  chosen.foldl (fun c j => addAtIdx c (cells.getD j []) 1) corr

/-- One dimension of the overshoot check (`nd-rounding.py:146-190`): the
overshoot vector is computed from the incoming corrections, then every
overshooting index (ascending, as `np.where` yields them) is repaired in
turn on the running corrections. -/
def overshootFix (shape : List ℕ) (weights : List ℕ → ℚ)
    (rerr : ℕ → ℕ → ℚ) (dim : ℕ) (corr : List ℕ → ℤ) : List ℕ → ℤ :=
  let ovs : ℕ → ℚ := fun i =>
    ((sliceSumZ corr shape dim i : ℤ) : ℚ) + rerr dim i
  let bad := (List.range (shape.getD dim 0)).filter
    (fun i => decide (ovs i < 0))
  bad.foldl (fun c i => fixOne shape weights dim i (pyInt (ovs i)).natAbs c)
    corr

/-- `_nd_controlling_fuzzy_step` (`nd-rounding.py:94-196`).  The einsum of
the per-axis errors gives the cell weights, zeroed where the data is zero;
normalization by a zero sum produces the NaNs the flat-weight check raises
on.  `gen.choice` with the flat weights followed by `np.unravel_index`
(C-order bijection between flat and multi-indices, absorbed into the oracle)
is modelled by `choice`, yielding the chosen multi-indices. -/
def nd_controlling_fuzzy_step (shape : List ℕ) (rounded_data : List ℕ → ℤ)
    (rerr : ℕ → ℕ → ℚ) (ndims : ℕ)
    (choice : (List ℕ → ℚ) → ℕ → List (List ℕ)) (frac : ℚ) :
    Except Err (List ℕ → ℤ) := do
  let weights0 : List ℕ → ℚ := fun idx =>
    ((List.range ndims).map (fun dim => rerr dim (idx.getD dim 0))).prod *
      (if rounded_data idx = 0 then 0 else 1)
  let wsum := ((allIdx shape).map weights0).sum
  if wsum = 0 then throw (.valueError "")
  let weights : List ℕ → ℚ := fun idx => weights0 idx / wsum
  -- size = int(np.ceil(int(np.sum(rounding_error[0])) * frac))
  let size := ⌈((pyInt (((List.range (shape.getD 0 0)).map
    (fun i => rerr 0 i)).sum) : ℤ) : ℚ) * frac⌉
  let idxs := choice weights size.toNat
  -- np.add.at(corrections, ndarry_indicies, -1)
  let corr0 : List ℕ → ℤ := fun idx => -(idxs.count idx : ℤ)
  let corr := (List.range ndims).foldl
    (fun c dim => overshootFix shape weights rerr dim c) corr0
  -- rounded_data += corrections
  pure (fun idx => rounded_data idx + corr idx)

/-- The `while total_rounding_error > 0` loop of `nd_controlling_fuzzy`,
fuel-indexed, threading the draw counter of the generator model. -/
def fuzzyLoop (shape : List ℕ) (marginals : List (List ℚ))
    (gen : ℕ → (List ℕ → ℚ) → ℕ → List (List ℕ)) (frac : ℚ) :
    ℕ → (List ℕ → ℤ) → ℕ → Except Err (List ℕ → ℤ)
  | fuel, rd, k =>
    if pyInt (((List.range (shape.getD 0 0)).map
        (fun i => roundingError rd shape marginals 0 i)).sum) > 0 then
      match fuel with
      | 0 => .error .outOfFuel
      | fuel' + 1 => do
        let rd' ← nd_controlling_fuzzy_step shape rd
          (fun dim i => roundingError rd shape marginals dim i)
          marginals.length (gen k) frac
        fuzzyLoop shape marginals gen frac fuel' rd' (k + 1)
    else pure rd

/-- `nd_controlling_fuzzy` (`nd-rounding.py:199-249`).  The generator
`gen = np.random.default_rng(seed)` is derived from the caller's seed; the
model `rng` maps the seed and a draw counter to each draw's outcome. -/
def nd_controlling_fuzzy (data : List ℕ → ℚ) (shape : List ℕ)
    (marginals : List (List ℚ))
    (rng : ℕ → ℕ → (List ℕ → ℚ) → ℕ → List (List ℕ))
    (seed : ℕ := 42) (frac : ℚ := 1/2) (fuel : ℕ := 1000000) :
    Except Err (List ℕ → ℤ) := do
  check_input_validity shape marginals
  let gen := rng seed
  -- rounded_data = np.ceil(data)
  let rounded := pulpRounded data
  let final ← fuzzyLoop shape marginals gen frac fuel rounded 0
  -- Final checks
  if (((List.range (shape.getD 0 0)).map
      (fun i => roundingError final shape marginals 0 i)).sum) ≠ 0 then
    throw (.valueError "")
  -- np.isnan check: no NaN exists in the exact-rational embedding
  if ¬ ((allIdx shape).all fun idx => decide (0 ≤ final idx)) then
    throw (.valueError "")
  pure final

/-- C4 (amended): whenever the Stochastic ND Rounder returns normally, the
TOTAL axis-0 rounding error of the returned array is exactly zero and the
array has no negative entries — these, plus the NaN test void in an exact
embedding, are the only conditions the final verification raises on;
per-slice marginal errors are not re-checked (see the counterexample). -/
theorem C4_fuzzy_final_checks (data : List ℕ → ℚ) (shape : List ℕ)
    (marginals : List (List ℚ))
    (rng : ℕ → ℕ → (List ℕ → ℚ) → ℕ → List (List ℕ))
    (seed : ℕ) (frac : ℚ) (fuel : ℕ) (v : List ℕ → ℤ)
    (hok : nd_controlling_fuzzy data shape marginals rng seed frac fuel =
      .ok v) :
    (((List.range (shape.getD 0 0)).map
      (fun i => roundingError v shape marginals 0 i)).sum) = 0 ∧
    ∀ idx ∈ allIdx shape, 0 ≤ v idx := by
  rw [nd_controlling_fuzzy] at hok
  simp only [pure_bind] at hok
  cases hv : check_input_validity shape marginals with
  | error e =>
    rw [hv, except_bind_error] at hok
    exact Except.noConfusion hok
  | ok u =>
    rw [hv, except_bind_ok] at hok
    cases hl : fuzzyLoop shape marginals (rng seed) frac fuel
        (pulpRounded data) 0 with
    | error e =>
      rw [hl, except_bind_error] at hok
      exact Except.noConfusion hok
    | ok final =>
      rw [hl, except_bind_ok] at hok
      by_cases h1 : (((List.range (shape.getD 0 0)).map
          (fun i => roundingError final shape marginals 0 i)).sum) = 0
      · rw [if_neg (not_not_intro h1)] at hok
        by_cases h2 : ((allIdx shape).all fun idx =>
            decide (0 ≤ final idx)) = true
        · rw [if_neg (not_not_intro h2)] at hok
          injection hok with hv2
          subst hv2
          refine ⟨h1, ?_⟩
          intro idx hidx
          have := List.all_eq_true.1 h2 idx hidx
          exact decide_eq_true_iff.1 this
        · rw [if_pos (by simpa using h2)] at hok
          exact Except.noConfusion hok
      · rw [if_pos h1] at hok
        exact Except.noConfusion hok

theorem pyInt_zero : pyInt 0 = 0 := by
  rw [pyInt, if_pos (le_refl 0), Int.floor_zero]

theorem allIdx_two : allIdx [2] = [[0], [1]] := by decide

theorem allIdx_one : allIdx [1] = [[0]] := by decide

theorem check_fuzzy_ce_valid :
    check_input_validity [2] [[(0 : ℚ), 1]] = .ok () := by
  rw [check_input_validity]
  rw [if_neg (by decide)]
  rw [if_neg (not_not_intro (by decide))]
  rw [if_neg (not_not_intro (List.all_eq_true.2 (fun dim hdm => by
    fin_cases hdm <;> exact decide_eq_true rfl)))]
  rfl

theorem fuzzy_ce_err0 :
    roundingError (pulpRounded (fun idx =>
      if idx.getD 0 0 = 0 then (1 : ℚ) else 0)) [2] [[(0 : ℚ), 1]] 0 0 =
      1 := by
  rw [roundingError, sliceSumZ, allIdx_two]
  simp [pulpRounded, List.filter]

theorem fuzzy_ce_err1 :
    roundingError (pulpRounded (fun idx =>
      if idx.getD 0 0 = 0 then (1 : ℚ) else 0)) [2] [[(0 : ℚ), 1]] 0 1 =
      -1 := by
  rw [roundingError, sliceSumZ, allIdx_two]
  simp [pulpRounded, List.filter]

theorem fuzzy_ce_total :
    ((List.range (([2] : List ℕ).getD 0 0)).map
      (fun i => roundingError (pulpRounded (fun idx =>
        if idx.getD 0 0 = 0 then (1 : ℚ) else 0)) [2]
        [[(0 : ℚ), 1]] 0 i)).sum = 0 := by
  rw [show (([2] : List ℕ).getD 0 0) = 2 from rfl,
    show List.range 2 = [0, 1] from by simp [List.range_succ]]
  simp only [List.map_cons, List.map_nil, List.sum_cons, List.sum_nil]
  rw [fuzzy_ce_err0, fuzzy_ce_err1]
  norm_num

theorem fuzzy_ce_loop :
    fuzzyLoop [2] [[(0 : ℚ), 1]] ((fun _ _ _ _ => []) 42) (1/2) 0
      (pulpRounded (fun idx => if idx.getD 0 0 = 0 then (1 : ℚ) else 0)) 0 =
      .ok (pulpRounded (fun idx =>
        if idx.getD 0 0 = 0 then (1 : ℚ) else 0)) := by
  rw [fuzzyLoop]
  rw [fuzzy_ce_total, pyInt_zero]
  rw [if_neg (by norm_num)]
  rfl

/-- C4 counterexample: data `[1.0, 0.0]` with the single marginal `[0, 1]`
ceils to `[1, 0]`, whose per-entry errors `[+1, -1]` cancel in the axis
total; the while loop never runs and every final check passes, so the call
returns normally although the marginal rounding error at slice 0 is `1 ≠ 0`,
refuting 'every per-axis marginal rounding error ... is exactly zero at
every slice index'. -/
theorem C4_counterexample :
    nd_controlling_fuzzy (fun idx => if idx.getD 0 0 = 0 then (1 : ℚ) else 0)
      [2] [[(0 : ℚ), 1]] (fun _ _ _ _ => []) 42 (1/2) 0 =
      .ok (pulpRounded (fun idx =>
        if idx.getD 0 0 = 0 then (1 : ℚ) else 0)) ∧
    roundingError (pulpRounded (fun idx =>
      if idx.getD 0 0 = 0 then (1 : ℚ) else 0)) [2] [[(0 : ℚ), 1]] 0 0 ≠
      0 := by
  constructor
  · rw [nd_controlling_fuzzy]
    simp only [pure_bind]
    rw [check_fuzzy_ce_valid, except_bind_ok]
    rw [fuzzy_ce_loop, except_bind_ok]
    rw [if_neg (not_not_intro fuzzy_ce_total)]
    rw [if_neg (not_not_intro (List.all_eq_true.2 (fun idx hidx => by
      rw [allIdx_two] at hidx
      fin_cases hidx <;>
        exact decide_eq_true (by simp [pulpRounded]))))]
    rfl
  · rw [fuzzy_ce_err0]
    norm_num

theorem check_fuzzy_w_valid :
    check_input_validity [1] [[(1 : ℚ)]] = .ok () := by
  rw [check_input_validity]
  rw [if_neg (by decide)]
  rw [if_neg (not_not_intro (by decide))]
  rw [if_neg (not_not_intro (List.all_eq_true.2 (fun dim hdm => by
    fin_cases hdm <;> exact decide_eq_true rfl)))]
  rfl

theorem fuzzy_w_total :
    ((List.range (([1] : List ℕ).getD 0 0)).map
      (fun i => roundingError (pulpRounded (fun _ => (1 : ℚ))) [1]
        [[(1 : ℚ)]] 0 i)).sum = 0 := by
  rw [show (([1] : List ℕ).getD 0 0) = 1 from rfl,
    show List.range 1 = [0] from by simp [List.range_succ]]
  simp only [List.map_cons, List.map_nil, List.sum_cons, List.sum_nil]
  rw [roundingError, sliceSumZ, allIdx_one]
  simp [pulpRounded, List.filter]

theorem fuzzy_w_eval :
    nd_controlling_fuzzy (fun _ => (1 : ℚ)) [1] [[(1 : ℚ)]]
      (fun _ _ _ _ => []) 42 (1/2) 0 =
      .ok (pulpRounded (fun _ => (1 : ℚ))) := by
  rw [nd_controlling_fuzzy]
  simp only [pure_bind]
  rw [check_fuzzy_w_valid, except_bind_ok]
  rw [show fuzzyLoop [1] [[(1 : ℚ)]] ((fun _ _ _ _ => []) 42) (1/2) 0
      (pulpRounded (fun _ => (1 : ℚ))) 0 =
      .ok (pulpRounded (fun _ => (1 : ℚ))) from by
    rw [fuzzyLoop]
    rw [fuzzy_w_total, pyInt_zero]
    rw [if_neg (by norm_num)]
    rfl]
  rw [except_bind_ok]
  rw [if_neg (not_not_intro fuzzy_w_total)]
  rw [if_neg (not_not_intro (List.all_eq_true.2 (fun idx hidx => by
    rw [allIdx_one] at hidx
    fin_cases hidx
    exact decide_eq_true (by simp [pulpRounded]))))]
  rfl

/-- C4 witness: the amended theorem applied to the concrete run on data
`[1.0]` with marginal `[1]`, which returns `[1]` normally; the axis-0 total
error is zero and the result is non-negative. -/
theorem C4_witness :
    (((List.range (([1] : List ℕ).getD 0 0)).map
      (fun i => roundingError (pulpRounded (fun _ => (1 : ℚ))) [1]
        [[(1 : ℚ)]] 0 i)).sum) = 0 ∧
    ∀ idx ∈ allIdx [1], 0 ≤ pulpRounded (fun _ => (1 : ℚ)) idx :=
  C4_fuzzy_final_checks (fun _ => (1 : ℚ)) [1] [[(1 : ℚ)]]
    (fun _ _ _ _ => []) 42 (1/2) 0 (pulpRounded (fun _ => (1 : ℚ)))
    fuzzy_w_eval

/-- C8: determinism in the random source: under 'weighted_random',
`integerize_1d` applied to equal generators and equal remaining inputs
returns identical results, and with no generator at all it raises rather
than creating one implicitly; `nd_controlling_fuzzy` under the same
generator semantics with equal seeds and equal remaining inputs returns
identical results — its generator is derived from the caller's seed, never
created from hidden state. -/
theorem C8_determinism :
    (∀ (data : List ℚ) (c : Option ℚ) (g1 g2 : GenChoice), g1 = g2 →
      integerize_1d data c "weighted_random" (some g1) =
        integerize_1d data c "weighted_random" (some g2)) ∧
    (∀ (data : List ℕ → ℚ) (shape : List ℕ) (marginals : List (List ℚ))
      (rng : ℕ → ℕ → (List ℕ → ℚ) → ℕ → List (List ℕ))
      (s1 s2 : ℕ) (frac : ℚ) (fuel : ℕ), s1 = s2 →
      nd_controlling_fuzzy data shape marginals rng s1 frac fuel =
        nd_controlling_fuzzy data shape marginals rng s2 frac fuel) ∧
    (∀ (data : List ℚ) (c : Option ℚ),
      integerize_1d data c "weighted_random" none =
        .error (.valueError "Input parameter 'generator' must be provided")) := by
  refine ⟨fun data c g1 g2 h => by rw [h],
    fun data shape marginals rng s1 s2 frac fuel h => by rw [h], ?_⟩
  intro data c
  rw [integerize_1d]
  rw [if_neg (by decide)]
  rw [if_pos rfl]
  rfl

/-- C8 witness: the determinism congruences and the missing-generator error
instantiated at concrete inputs. -/
theorem C8_witness :
    integerize_1d [(1 : ℚ)] none "weighted_random"
        (some (fun _ _ _ => [])) =
      integerize_1d [(1 : ℚ)] none "weighted_random"
        (some (fun _ _ _ => [])) ∧
    nd_controlling_fuzzy (fun _ => (1 : ℚ)) [1] [[(1 : ℚ)]]
        (fun _ _ _ _ => []) 42 (1/2) 0 =
      nd_controlling_fuzzy (fun _ => (1 : ℚ)) [1] [[(1 : ℚ)]]
        (fun _ _ _ _ => []) 42 (1/2) 0 ∧
    integerize_1d [(1 : ℚ)] none "weighted_random" none =
      .error (.valueError "Input parameter 'generator' must be provided") :=
  ⟨C8_determinism.1 [(1 : ℚ)] none (fun _ _ _ => []) (fun _ _ _ => []) rfl,
    C8_determinism.2.1 (fun _ => (1 : ℚ)) [1] [[(1 : ℚ)]]
      (fun _ _ _ _ => []) 42 42 (1/2) 0 rfl,
    C8_determinism.2.2 [(1 : ℚ)] none⟩
